import Mathlib

/-!
# DGtal `OrderedAlphabet`: a verification development

Shallow embedding of `src/DGtal/base/OrderedAlphabet.cpp`.

* characters are modelled by their 8-bit code (a `Nat` below `256`), the
  NUL character being `0`;
* `unsigned int` arithmetic is modelled on `Nat` with explicit reduction
  modulo `2 ^ 32` (`uadd`, `usub`);
* the array `myOrder` is a `List Nat`; a pointer sweep `p = myOrder ..
  myOrder + myNb` is `sweep f myNb myOrder`;
* a `while` loop is a structurally recursive function on a fuel argument that
  returns `none` when the fuel runs out; the theorems show that the fuel given
  by the embedding is always enough.
-/

namespace DGtal

/-! ## Machine arithmetic -/

/-- The number of values of an `unsigned int`. -/
def uintSize : Nat := 4294967296

/-- Addition of two `unsigned int`. -/
def uadd (a b : Nat) : Nat := (a + b) % uintSize

/-- Subtraction of two `unsigned int` (wraps around below zero). -/
def usub (a b : Nat) : Nat := (a + uintSize - b) % uintSize

/-- Conversion of an `int` value to `char`: only the low 8 bits are kept. -/
def toChar (c : Nat) : Nat := c % 256

/-! ## The alphabet -/

/-- The state of a `DGtal::OrderedAlphabet`: `myFirst` is the first letter,
`myNb` the number of letters and `myOrder` the array giving the rank of each
letter (`myOrder[k]` is the rank of the letter `myFirst + k`). -/
structure OrderedAlphabet where
  myFirst : Nat
  myNb : Nat
  myOrder : List Nat
deriving DecidableEq, Repr

/-- The loop `while (p != q) { *p = f(*p); ++p; }` over the first `cnt` cells
of an array. -/
def sweep (f : Nat → Nat) : Nat → List Nat → List Nat
  | 0, xs => xs
  | _ + 1, [] => []
  | cnt + 1, x :: xs => f x :: sweep f cnt xs

/-- The method `OrderedAlphabet::shiftLeft`: `*p = (k == 0) ? myNb - 1 : k - 1`. -/
def OrderedAlphabet.shiftLeft (A : OrderedAlphabet) : OrderedAlphabet :=
  { A with myOrder :=
      sweep (fun k => if k = 0 then usub A.myNb 1 else usub k 1) A.myNb A.myOrder }

/-- The method `OrderedAlphabet::shiftRight`: `k = *p + 1; *p = (k == myNb) ? 0 : k`. -/
def OrderedAlphabet.shiftRight (A : OrderedAlphabet) : OrderedAlphabet :=
  { A with myOrder :=
      sweep (fun x => if uadd x 1 = A.myNb then 0 else uadd x 1) A.myNb A.myOrder }

/-- The method `OrderedAlphabet::reverse`: `*p = myNb - 1 - *p`. -/
def OrderedAlphabet.reverse (A : OrderedAlphabet) : OrderedAlphabet :=
  { A with myOrder := sweep (fun x => usub (usub A.myNb 1) x) A.myNb A.myOrder }

/-- The method `OrderedAlphabet::reverseAround12`: `*p = (myNb + 3 - *p) % myNb`. -/
def OrderedAlphabet.reverseAround12 (A : OrderedAlphabet) : OrderedAlphabet :=
  { A with myOrder := sweep (fun x => usub (uadd A.myNb 3) x % A.myNb) A.myNb A.myOrder }

/-- The four reordering operations. -/
inductive Reorder where
  | shiftLeft
  | shiftRight
  | reverse
  | reverseAround12
deriving DecidableEq, Repr

/-- One reordering operation applied to an alphabet. -/
def OrderedAlphabet.reorder (A : OrderedAlphabet) : Reorder → OrderedAlphabet
  | .shiftLeft => A.shiftLeft
  | .shiftRight => A.shiftRight
  | .reverse => A.reverse
  | .reverseAround12 => A.reverseAround12

/-- A finite sequence of reordering operations, applied from left to right. -/
def OrderedAlphabet.reorderAll (A : OrderedAlphabet) (ops : List Reorder) : OrderedAlphabet :=
  ops.foldl OrderedAlphabet.reorder A

/-- The data-model constraints of an alphabet: the array `myOrder` has `myNb`
cells and the letters `myFirst, ..., myFirst + myNb - 1` are characters. -/
def OrderedAlphabet.WellFormed (A : OrderedAlphabet) : Prop :=
  A.myOrder.length = A.myNb ∧ A.myFirst + A.myNb ≤ 256

instance (A : OrderedAlphabet) : Decidable A.WellFormed := by
  unfold OrderedAlphabet.WellFormed; infer_instance

/-- Every entry of the order array lies in `[0, myNb)`. -/
def OrderedAlphabet.InRange (A : OrderedAlphabet) : Prop :=
  ∀ x ∈ A.myOrder, x < A.myNb

instance (A : OrderedAlphabet) : Decidable A.InRange := by
  unfold OrderedAlphabet.InRange; infer_instance

/-- The order array is a bijection on `[0, myNb)`: its entries lie in
`[0, myNb)` and are pairwise distinct (it has `myNb` cells by `WellFormed`). -/
def OrderedAlphabet.IsBijection (A : OrderedAlphabet) : Prop :=
  A.InRange ∧ A.myOrder.Nodup

instance (A : OrderedAlphabet) : Decidable A.IsBijection := by
  unfold OrderedAlphabet.IsBijection; infer_instance

/-! ## Serialisation of the ordering -/

/-- The loop `for (i = 0; i < myNb; ++i) tbl[myOrder[i]] = myFirst + i` of
`orderedAlphabet`, run over the cells of `myOrder` that remain, `i` being the
index of the first of them. The cells of `tbl` are `none` while they are not
initialised; a write outside `tbl` is undefined behaviour (`none`). -/
def fillTable (first : Nat) : List Nat → Nat → List (Option Nat) → Option (List (Option Nat))
  | [], _, tbl => some tbl
  | r :: rest, i, tbl =>
    if r < tbl.length then
      fillTable first rest (i + 1) (tbl.set r (some (toChar (first + i))))
    else none

/-- The constructor `std::string s(tbl)` from a C string: the characters up to
the first NUL. Reading a cell that was never written, or past the end of the
table, is undefined behaviour (`none`). -/
def cString : List (Option Nat) → Option (List Nat)
  | [] => none
  | none :: _ => none
  | some c :: rest => if c = 0 then some [] else (cString rest).map (fun s => c :: s)

/-- The method `OrderedAlphabet::orderedAlphabet`: a table `char tbl[myNb + 1]`
is filled with `tbl[myOrder[i]] = myFirst + i`, terminated with
`tbl[myNb] = 0` and converted to a string. -/
def OrderedAlphabet.orderedAlphabet (A : OrderedAlphabet) : Option (List Nat) :=
  if A.myOrder.length < A.myNb then none
  else
    match fillTable A.myFirst (A.myOrder.take A.myNb) 0 (List.replicate (A.myNb + 1) none) with
    | none => none
    | some tbl => cString (tbl.set A.myNb (some 0))

/-- The letters in increasing rank: at position `pos` the letter `myFirst + k`
for the first cell `k` with `myOrder[k] = pos`. -/
def OrderedAlphabet.ranking (A : OrderedAlphabet) : List Nat :=
  (List.range A.myNb).map (fun pos => toChar (A.myFirst + A.myOrder.indexOf pos))

/-! ## Letters and words -/

/-- The character `w[k]` of a word (`std::string::operator[]`, which yields the
NUL character at `k = w.size()`). -/
def charAt (w : List Nat) (k : Nat) : Nat := w.getD k 0

/-- Modelled from the spec: the rank lookup `order(letter)`, defined in the
header `OrderedAlphabet.ih` (absent from the sources): "rank(letter) ->
order[letter - first]", undefined for a letter outside `[first, first + n)`. -/
def OrderedAlphabet.order (A : OrderedAlphabet) (c : Nat) : Nat :=
  A.myOrder.getD (c - A.myFirst) 0

/-- Modelled from the spec: the comparison `lessOrEqual(a, b)` of the header
`OrderedAlphabet.ih` (absent from the sources): "rank(a) <= rank(b)". -/
def OrderedAlphabet.lessOrEqual (A : OrderedAlphabet) (a b : Nat) : Bool :=
  decide (A.order a ≤ A.order b)

/-- Modelled from the spec: the test `equal(a, b)` of the header
`OrderedAlphabet.ih` (absent from the sources): "a == b (identity, not rank
equality)". -/
def OrderedAlphabet.equal (_A : OrderedAlphabet) (a b : Nat) : Bool :=
  decide (a = b)

/-- Every letter of the word belongs to the alphabet `[first, first + n)`. -/
def OrderedAlphabet.InAlphabet (A : OrderedAlphabet) (w : List Nat) : Prop :=
  ∀ c ∈ w, A.myFirst ≤ c ∧ c < A.myFirst + A.myNb

instance (A : OrderedAlphabet) (w : List Nat) : Decidable (A.InAlphabet w) := by
  unfold OrderedAlphabet.InAlphabet; infer_instance

/-! ## Lyndon factorisation -/

/-- The loop of `firstLyndonFactor` on the cursors `i`, `j`:
`while (j < e && lessOrEqual(w[i], w[j])) { if (equal(w[i], w[j])) ++i; else i = s; ++j; }`.
Returns the cursors at the exit of the loop, `none` when the fuel runs out. -/
def OrderedAlphabet.lyndonLoop (A : OrderedAlphabet) (w : List Nat) (s e : Nat) :
    Nat → Nat → Nat → Option (Nat × Nat)
  | 0, i, j =>
    if j < e ∧ A.lessOrEqual (charAt w i) (charAt w j) = true then none else some (i, j)
  | fuel + 1, i, j =>
    if j < e ∧ A.lessOrEqual (charAt w i) (charAt w j) = true then
      if A.equal (charAt w i) (charAt w j) = true then A.lyndonLoop w s e fuel (i + 1) (j + 1)
      else A.lyndonLoop w s e fuel s (j + 1)
    else some (i, j)

/-- The method `OrderedAlphabet::firstLyndonFactor`: returns `(len, nb)` with
`len = j - i` and `nb = (j - s) / len` for the cursors at the exit of the loop.
The result is `none` if `len` could not be computed (`j ≤ i`: the subtraction
would wrap around or the division would be by zero). -/
def OrderedAlphabet.firstLyndonFactor (A : OrderedAlphabet) (w : List Nat) (s e : Nat) :
    Option (Nat × Nat) :=
  match A.lyndonLoop w s e (e - s) s (s + 1) with
  | none => none
  | some (i, j) => if j ≤ i then none else some (j - i, (j - s) / (j - i))

/-- The lexicographic order on words induced by the ranks of the alphabet:
`lexLt A x y` holds when `x` is strictly smaller than `y`. -/
def OrderedAlphabet.lexLt (A : OrderedAlphabet) : List Nat → List Nat → Bool
  | [], [] => false
  | [], _ :: _ => true
  | _ :: _, [] => false
  | a :: x, b :: y =>
    if A.order a < A.order b then true
    else if A.order b < A.order a then false
    else A.lexLt x y

/-- A Lyndon word: a non-empty word strictly smaller than each of its proper
rotations `u[d ..] ++ u[.. d]`, `0 < d < |u|`. -/
def OrderedAlphabet.IsLyndon (A : OrderedAlphabet) (u : List Nat) : Prop :=
  u ≠ [] ∧ ∀ d, d < u.length → 0 < d → A.lexLt u (u.drop d ++ u.take d) = true

instance (A : OrderedAlphabet) (u : List Nat) : Decidable (A.IsLyndon u) := by
  unfold OrderedAlphabet.IsLyndon; infer_instance

/-- The factor `w[s .. j)` has period `j - i`: `w[t] = w[t + (j - i)]` for
`s ≤ t < i`. -/
def Periodic (w : List Nat) (s i j : Nat) : Prop :=
  ∀ t, s ≤ t → t < i → charAt w t = charAt w (t + (j - i))

/-- Every proper suffix of the block `w[s .. s + p)` is strictly greater than
the block at its first difference with it, which lies inside the suffix. -/
def OrderedAlphabet.SuffixGreater (A : OrderedAlphabet) (w : List Nat) (s p : Nat) : Prop :=
  ∀ d, 0 < d → d < p → ∃ t, t < p - d ∧
    (∀ t', t' < t → charAt w (s + d + t') = charAt w (s + t')) ∧
    A.order (charAt w (s + t)) < A.order (charAt w (s + d + t))

/-! ## Duval's algorithm with the Christoffel check -/

/-- Modelled from the spec: `letter(r)`, "the rank-`r` letter", defined in the
header `OrderedAlphabet.ih` (absent from the sources): the letter
`myFirst + k` for the first cell `k` with `myOrder[k] = r`. -/
def OrderedAlphabet.letter (A : OrderedAlphabet) (r : Nat) : Nat :=
  toChar (A.myFirst + A.myOrder.indexOf r)

/-- The ways out of the loop of `duvalPP`: through `len = j; nb = 0; return
false` inside the loop, or by the loop condition, with the cursors `i`, `j` and
the counters `p`, `q`. -/
inductive DuvalExit where
  | notChristoffel (j : Nat)
  | done (i j p q : Nat)
deriving DecidableEq, Repr

/-- The loop of `duvalPP` on the cursors `i`, `j` and the `unsigned int`
counters `p`, `q`; `none` when the fuel runs out. -/
def OrderedAlphabet.duvalLoop (A : OrderedAlphabet) (w : List Nat) (s e : Nat) :
    Nat → Nat → Nat → Nat → Nat → Option DuvalExit
  | 0, i, j, p, q =>
    if j < e ∧ A.lessOrEqual (charAt w i) (charAt w j) = true then none
    else some (.done i j p q)
  | fuel + 1, i, j, p, q =>
    if j < e ∧ A.lessOrEqual (charAt w i) (charAt w j) = true then
      if A.equal (charAt w i) (charAt w j) = true then
        A.duvalLoop w s e fuel (i + 1) (j + 1) p (if j + 1 = s + q then uadd q p else q)
      else if j + 1 ≠ s + q ∨ A.order (charAt w j) ≠ 2 then some (.notChristoffel j)
      else A.duvalLoop w s e fuel s (j + 1) q (uadd q (usub q p))
    else some (.done i j p q)

/-- The method `OrderedAlphabet::duvalPP`, returning `(isChristoffel, len, nb)`.
The result is `none` when the assertion `order(w[s]) == 1 || order(w[s]) == 2`
fails, or if `len` could not be computed (`j ≤ i`). -/
def OrderedAlphabet.duvalPP (A : OrderedAlphabet) (w : List Nat) (s e : Nat) :
    Option (Bool × Nat × Nat) :=
  if A.order (charAt w s) = 1 ∨ A.order (charAt w s) = 2 then
    match A.duvalLoop w s e (e - s) s (s + 1) 1 2 with
    | none => none
    | some (.notChristoffel j) => some (false, j, 0)
    | some (.done i j _ _) => if j ≤ i then none else some (true, j - i, (j - s) / (j - i))
  else none

/-- The rank of the letter of index `k` of the lower Christoffel word with `a`
letters of rank 1 and `b` letters of rank 2 (slope `b / a`): the letter has
rank 2 when `⌊(k + 1) b / (a + b)⌋ = ⌊k b / (a + b)⌋ + 1`, and rank 1 otherwise. -/
def chrLetter (a b k : Nat) : Nat :=
  if ((k + 1) * b) / (a + b) = (k * b) / (a + b) + 1 then 2 else 1

/-- A Christoffel word over the letters of rank 1 and 2: it contains only
letters of these two ranks and, with `n1` and `n2` their numbers of
occurrences, `n1` and `n2` are coprime and the word is the lower Christoffel
word of slope `n2 / n1`. A single letter of rank 1 or 2 is a Christoffel word. -/
def OrderedAlphabet.IsChristoffel (A : OrderedAlphabet) (u : List Nat) : Prop :=
  (∀ c ∈ u, A.order c = 1 ∨ A.order c = 2) ∧
  Nat.Coprime (u.countP (fun c => decide (A.order c = 1)))
    (u.countP (fun c => decide (A.order c = 2))) ∧
  ∀ k, k < u.length →
    A.order (charAt u k) = chrLetter (u.countP (fun c => decide (A.order c = 1)))
      (u.countP (fun c => decide (A.order c = 2))) k

instance (A : OrderedAlphabet) (u : List Nat) : Decidable (A.IsChristoffel u) := by
  unfold OrderedAlphabet.IsChristoffel; infer_instance

/-- The ranks of a function of the positions form the lower Christoffel word
with `a` letters of rank 1 and `b` letters of rank 2. -/
def ChrFn (f : Nat → Nat) (a b : Nat) : Prop :=
  ∀ k, k < a + b → f k = chrLetter a b k

/-- The word of length `d` made of the `d - 1` first ranks of `f` followed by
the rank 2. -/
def rankY (f : Nat → Nat) (d : Nat) : Nat → Nat :=
  fun k => if k + 1 = d then 2 else f k

/-- The rank of the letter at offset `k` from the start `s` of the scan. -/
def OrderedAlphabet.rankAt (A : OrderedAlphabet) (w : List Nat) (s k : Nat) : Nat :=
  A.order (charAt w (s + k))

/-- The invariant of the loop of `duvalPP`: the factor `w[s .. j)` has period
`j - i`, its block `w[s .. s + (j - i))` is the Christoffel word with `a`
letters of rank 1 and `b` letters of rank 2, and either the scan started on a
letter of rank 2 (the block is that letter), or the checkpoint `s + q` is
behind the cursor (the counter `q` wrapped around), or `p = j - i` and
`q = c + d + k p` where the word `y` of length `c + d` (a prefix of the block
followed by a letter of rank 2) is the Christoffel word `(c, d)` with
`a d - b c = 1`, the next checkpoint `s + q` being at most a period ahead. -/
def OrderedAlphabet.DuvalInv (A : OrderedAlphabet) (w : List Nat) (s e i j p q : Nat) : Prop :=
  s ≤ i ∧ i < j ∧ j ≤ e ∧ Periodic w s i j ∧ p < uintSize ∧ q < uintSize ∧
  ∃ a b, a + b = j - i ∧ Nat.Coprime a b ∧ ChrFn (A.rankAt w s) a b ∧
    ((A.order (charAt w s) = 2 ∧ j - i = 1) ∨ s + q ≤ j ∨
      (p = j - i ∧ ∃ c d k, ChrFn (rankY (A.rankAt w s) (c + d)) c d ∧
        a * d = b * c + 1 ∧ c + d ≤ p ∧ 1 ≤ k ∧ q = c + d + k * p ∧
        q ≤ j - s + p ∧ j - s < q))

/-! ## Cyclic words -/

/-- Modelled from the spec: `ModuloComputer::next` of `DGtal/math/Mathutils.h`
(absent from the sources): "next(i) -> (i+1) mod m" for the modulus `m`. The
method `increment(i)` replaces `i` by `next(i)`. -/
def ModuloComputer.next (m i : Nat) : Nat := (i + 1) % m

/-- Modelled from the spec: `ModuloComputer::cast` of `DGtal/math/Mathutils.h`
(absent from the sources): the index reduced into `[0, m)`. -/
def ModuloComputer.cast (m i : Nat) : Nat := i % m

/-- The number of values of a `size_t`. -/
def sizeSize : Nat := 18446744073709551616

/-- Subtraction of two `size_t` (wraps around below zero). -/
def ssub (a b : Nat) : Nat := (a + sizeSize - b) % sizeSize

/-- The length `j >= i ? j - i : j + modulo - i` computed by the cyclic variants. -/
def cyclicLen (m i j : Nat) : Nat := if j ≥ i then j - i else j + m - i

/-- The loop of `firstLyndonFactorMod` on the cyclic cursors `i`, `j`:
`while (j != e && lessOrEqual(w[i], w[j]))`, the cursors being advanced with
`mc.increment`. Returns the cursors at the exit, `none` when the fuel runs out. -/
def OrderedAlphabet.lyndonModLoop (A : OrderedAlphabet) (w : List Nat) (s e : Nat) :
    Nat → Nat → Nat → Option (Nat × Nat)
  | 0, i, j =>
    if j ≠ e ∧ A.lessOrEqual (charAt w i) (charAt w j) = true then none else some (i, j)
  | fuel + 1, i, j =>
    if j ≠ e ∧ A.lessOrEqual (charAt w i) (charAt w j) = true then
      if A.equal (charAt w i) (charAt w j) = true then
        A.lyndonModLoop w s e fuel (ModuloComputer.next w.length i)
          (ModuloComputer.next w.length j)
      else A.lyndonModLoop w s e fuel s (ModuloComputer.next w.length j)
    else some (i, j)

/-- The method `OrderedAlphabet::firstLyndonFactorMod`, returning `(len, nb)`
with `len = j >= i ? j - i : j + modulo - i` and
`nb = ((j + modulo - s) % modulo) / len`. The result is `none` when the
division is by zero. -/
def OrderedAlphabet.firstLyndonFactorMod (A : OrderedAlphabet) (w : List Nat) (s e : Nat) :
    Option (Nat × Nat) :=
  match A.lyndonModLoop w s e w.length s (ModuloComputer.next w.length s) with
  | none => none
  | some (i, j) =>
    if cyclicLen w.length i j = 0 then none
    else some (cyclicLen w.length i j, ((j + w.length - s) % w.length) / cyclicLen w.length i j)

/-- The loop of `duvalPPMod` on the cyclic cursors `i`, `j` and the counters
`p`, `q`; `none` when the fuel runs out. The position `s + q - 1` of the test
`j == mc.cast(s + q - 1)` is computed on `size_t`: it wraps around to
`2 ^ 64 - 1` when `s + q` is 0. -/
def OrderedAlphabet.duvalModLoop (A : OrderedAlphabet) (w : List Nat) (s e : Nat) :
    Nat → Nat → Nat → Nat → Nat → Option DuvalExit
  | 0, i, j, p, q =>
    if j ≠ e ∧ A.lessOrEqual (charAt w i) (charAt w j) = true then none
    else some (.done i j p q)
  | fuel + 1, i, j, p, q =>
    if j ≠ e ∧ A.lessOrEqual (charAt w i) (charAt w j) = true then
      if A.equal (charAt w i) (charAt w j) = true then
        A.duvalModLoop w s e fuel (ModuloComputer.next w.length i)
          (ModuloComputer.next w.length j) p
          (if j = ModuloComputer.cast w.length (ssub (s + q) 1) then uadd q p else q)
      else if j ≠ ModuloComputer.cast w.length (ssub (s + q) 1) ∨ A.order (charAt w j) ≠ 2 then
        some (.notChristoffel j)
      else A.duvalModLoop w s e fuel s (ModuloComputer.next w.length j) q (uadd q (usub q p))
    else some (.done i j p q)

/-- The method `OrderedAlphabet::duvalPPMod`, returning `(isChristoffel, len, nb)`.
The result is `none` when the assertion `order(w[s]) == 1 || order(w[s]) == 2`
fails or when the division that computes `nb` is by zero. -/
def OrderedAlphabet.duvalPPMod (A : OrderedAlphabet) (w : List Nat) (s e : Nat) :
    Option (Bool × Nat × Nat) :=
  if A.order (charAt w s) = 1 ∨ A.order (charAt w s) = 2 then
    match A.duvalModLoop w s e w.length s (ModuloComputer.next w.length s) 1 2 with
    | none => none
    | some (.notChristoffel j) => some (false, j, 0)
    | some (.done i j _ _) =>
      if cyclicLen w.length i j = 0 then none
      else some (true, cyclicLen w.length i j,
        ((j + w.length - s) % w.length) / cyclicLen w.length i j)
  else none

/-! ## Extraction of the edges of the minimum length polygon -/

/-- What a call of `nextEdge` leaves: the returned length `l`, the output
parameters `nb_a1` and `nb_a2`, the alphabet, the word, the position `s` and
the flag `cvx`. -/
structure EdgeResult where
  l : Nat
  nb_a1 : Nat
  nb_a2 : Nat
  alphabet : OrderedAlphabet
  w : List Nat
  s : Nat
  cvx : Bool
deriving DecidableEq, Repr

/-- The loop `while (len != 0) { if (w[ss] == a2) ++nb_a2; mc.increment(ss); --len; }`
of `nextEdge`: the value of `nb_a2` at the exit. -/
def countLoop (w : List Nat) (a2 : Nat) : Nat → Nat → Nat → Nat
  | 0, _, acc => acc
  | len + 1, ss, acc =>
    countLoop w a2 len (ModuloComputer.next w.length ss)
      (if charAt w ss = a2 then acc + 1 else acc)

/-- The method `OrderedAlphabet::nextEdge`. The fuel bounds the depth of the
recursion of the convexity-change branch; the result is `none` when the fuel
runs out or when `duvalPPMod` does not return. The products `len * nb` are at
most the length of the word and are not reduced modulo `2 ^ 64`. -/
def nextEdge : Nat → OrderedAlphabet → List Nat → Nat → Bool → Option EdgeResult
  | 0, _, _, _, _ => none
  | fuel + 1, A, w, s, cvx =>
    match A.duvalPPMod w s s with
    | none => none
    | some (false, _, _) =>
      match nextEdge fuel A.reverseAround12 (w.set s (A.letter 2)) s (!cvx) with
      | none => none
      | some r => some { r with w := r.w.set s (charAt w s) }
    | some (true, len, nb) =>
      if len = 1 ∧ A.order (charAt w s) = 1 then
        some ⟨nb, 0, ssub nb 1, A.shiftRight, w, ModuloComputer.cast w.length (s + nb), cvx⟩
      else
        some ⟨len * nb, ssub len (countLoop w (A.letter 2) len s 0) * nb,
          countLoop w (A.letter 2) len s 0 * nb, A, w,
          ModuloComputer.cast w.length (s + len * nb), cvx⟩

/-- The number of nested calls of `nextEdge` at which `duvalPPMod` reports
`false` (the depth of the convexity-change recursion) for a call on `(w, s)`;
`none` when the fuel runs out or `duvalPPMod` does not return. -/
def convexityChanges : Nat → OrderedAlphabet → List Nat → Nat → Option Nat
  | 0, _, _, _ => none
  | fuel + 1, A, w, s =>
    match A.duvalPPMod w s s with
    | none => none
    | some (false, _, _) =>
      (convexityChanges fuel A.reverseAround12 (w.set s (A.letter 2)) s).map (fun d => d + 1)
    | some (true, _, _) => some 0

/-- The letters read cyclically from the position `s`: `w[s], w[s+1], ...`, `l`
of them, the positions being taken modulo the length of the word. -/
def cyclicRead (w : List Nat) (s l : Nat) : List Nat :=
  (List.range l).map (fun t => charAt w ((s + t) % w.length))

/-- The states `(i, j, p, q)` in which the loop of `duvalPP` evaluates its
condition: the initial state, and the state after an iteration through the
branch `++i` or through the branch `i = s` from such a state. -/
inductive DuvalReach (A : OrderedAlphabet) (w : List Nat) (s e : Nat) :
    Nat → Nat → Nat → Nat → Prop
  | start : DuvalReach A w s e s (s + 1) 1 2
  | equal (i j p q : Nat) : DuvalReach A w s e i j p q → j < e →
      A.lessOrEqual (charAt w i) (charAt w j) = true →
      A.equal (charAt w i) (charAt w j) = true →
      DuvalReach A w s e (i + 1) (j + 1) p (if j + 1 = s + q then uadd q p else q)
  | mediant (i j p q : Nat) : DuvalReach A w s e i j p q → j < e →
      A.lessOrEqual (charAt w i) (charAt w j) = true →
      A.equal (charAt w i) (charAt w j) = false →
      ¬ (j + 1 ≠ s + q ∨ A.order (charAt w j) ≠ 2) →
      DuvalReach A w s e s (j + 1) q (uadd q (usub q p))

/-- The states `(i, j, p, q)` in which the loop of `duvalPPMod` evaluates its
condition. -/
inductive DuvalModReach (A : OrderedAlphabet) (w : List Nat) (s e : Nat) :
    Nat → Nat → Nat → Nat → Prop
  | start : DuvalModReach A w s e s (ModuloComputer.next w.length s) 1 2
  | equal (i j p q : Nat) : DuvalModReach A w s e i j p q → j ≠ e →
      A.lessOrEqual (charAt w i) (charAt w j) = true →
      A.equal (charAt w i) (charAt w j) = true →
      DuvalModReach A w s e (ModuloComputer.next w.length i)
        (ModuloComputer.next w.length j) p
        (if j = ModuloComputer.cast w.length (ssub (s + q) 1) then uadd q p else q)
  | mediant (i j p q : Nat) : DuvalModReach A w s e i j p q → j ≠ e →
      A.lessOrEqual (charAt w i) (charAt w j) = true →
      A.equal (charAt w i) (charAt w j) = false →
      ¬ (j ≠ ModuloComputer.cast w.length (ssub (s + q) 1) ∨ A.order (charAt w j) ≠ 2) →
      DuvalModReach A w s e s (ModuloComputer.next w.length j) q (uadd q (usub q p))

/-- The invariant of the loop of `duvalPP` that follows the value `Q` of the
counter `q` before its reduction modulo `2 ^ 32`: the factor `w[s .. j)` has
period `p = j - i`, and either the scan started on a letter of rank 2 (the
block is that letter), or the block is the Christoffel word `(a, b)`, the word
`y` of length `c + d` (a prefix of the block followed by a letter of rank 2) is
the Christoffel word `(c, d)` with `a d - b c = 1`, and `q = Q mod 2 ^ 32` for
`Q = c + d + k p`, the next checkpoint `s + Q` being at most a period ahead. -/
def OrderedAlphabet.DuvalInvQ (A : OrderedAlphabet) (w : List Nat) (s e i j p q : Nat) : Prop :=
  s ≤ i ∧ i < j ∧ j ≤ e ∧ Periodic w s i j ∧ p = j - i ∧
  ((A.order (charAt w s) = 2 ∧ j - i = 1) ∨
    ∃ a b c d k, a + b = p ∧ ChrFn (A.rankAt w s) a b ∧
      ChrFn (rankY (A.rankAt w s) (c + d)) c d ∧ a * d = b * c + 1 ∧ c + d ≤ p ∧ 1 ≤ k ∧
      q = (c + d + k * p) % uintSize ∧ c + d + k * p ≤ j - s + p ∧ j - s < c + d + k * p)

/-- The invariant of the loop of `duvalPP` while its counters have not wrapped
around: `p` is the period `j - i` and the checkpoint `s + q` is ahead of the
cursor `j`, by at most a period. -/
def DuvalBound (s e i j p q : Nat) : Prop :=
  s ≤ i ∧ i < j ∧ j ≤ e ∧ p = j - i ∧ j - s < q ∧ q ≤ j - s + p

/-! ## Basic facts on sweeps -/

theorem sweep_length (f : Nat → Nat) (cnt : Nat) (xs : List Nat) :
    (sweep f cnt xs).length = xs.length := by
  induction xs generalizing cnt with
  | nil => cases cnt <;> rfl
  | cons x xs ih => cases cnt <;> simp [sweep, ih]

theorem sweep_eq_map (f : Nat → Nat) (cnt : Nat) (xs : List Nat) (h : xs.length ≤ cnt) :
    sweep f cnt xs = xs.map f := by
  induction xs generalizing cnt with
  | nil => cases cnt <;> rfl
  | cons x xs ih =>
    cases cnt with
    | zero => simp at h
    | succ c => simp only [sweep, List.map_cons]; rw [ih c (by simpa using h)]

theorem map_bijection (f : Nat → Nat) (n : Nat) (xs : List Nat)
    (hf : ∀ x, x < n → f x < n)
    (hinj : ∀ x, x < n → ∀ y, y < n → f x = f y → x = y)
    (hr : ∀ x ∈ xs, x < n) (hd : xs.Nodup) :
    (∀ x ∈ xs.map f, x < n) ∧ (xs.map f).Nodup := by
  refine ⟨?_, ?_⟩
  · intro y hy
    obtain ⟨x, hx, rfl⟩ := List.mem_map.1 hy
    exact hf x (hr x hx)
  · exact List.Nodup.map_on (fun x hx y hy h => hinj x (hr x hx) y (hr y hy) h) hd

theorem map_involution (f g : Nat → Nat) (n : Nat) (xs : List Nat)
    (hgf : ∀ x, x < n → g (f x) = x) (hr : ∀ x ∈ xs, x < n) :
    (xs.map f).map g = xs := by
  rw [List.map_map]
  conv_rhs => rw [← List.map_id xs]
  exact List.map_congr_left (fun x hx => by simpa using hgf x (hr x hx))

/-! ## Arithmetic of the four rank maps -/

theorem shiftLeft_lt (n k : Nat) (hn : n ≤ 256) (hk : k < n) :
    (if k = 0 then usub n 1 else usub k 1) < n := by
  unfold usub uintSize; split <;> omega

theorem shiftRight_lt (n k : Nat) (hn : n ≤ 256) (hk : k < n) :
    (if uadd k 1 = n then 0 else uadd k 1) < n := by
  unfold uadd uintSize; split <;> omega

theorem reverse_lt (n k : Nat) (hn : n ≤ 256) (hk : k < n) :
    usub (usub n 1) k < n := by
  unfold usub uintSize; omega

theorem around12_eq (n k : Nat) (hn : n ≤ 256) (hk : k < n) :
    usub (uadd n 3) k % n = (n + 3 - k) % n := by
  have : usub (uadd n 3) k = n + 3 - k := by unfold usub uadd uintSize; omega
  rw [this]

theorem around12_lt (n k : Nat) (hn : n ≤ 256) (hk : k < n) :
    usub (uadd n 3) k % n < n := Nat.mod_lt _ (by omega)

theorem shift_left_right (n k : Nat) (hn : n ≤ 256) (hk : k < n) :
    (fun x => if uadd x 1 = n then 0 else uadd x 1)
      (if k = 0 then usub n 1 else usub k 1) = k := by
  simp only [usub, uadd, uintSize]; split <;> split <;> omega

theorem shift_right_left (n k : Nat) (hn : n ≤ 256) (hk : k < n) :
    (fun x => if x = 0 then usub n 1 else usub x 1)
      (if uadd k 1 = n then 0 else uadd k 1) = k := by
  simp only [usub, uadd, uintSize]; split <;> split <;> omega

theorem reverse_reverse (n k : Nat) (hn : n ≤ 256) (hk : k < n) :
    usub (usub n 1) (usub (usub n 1) k) = k := by
  unfold usub uintSize; omega

theorem around12_around12 (n k : Nat) (hn : n ≤ 256) (hk : k < n) :
    usub (uadd n 3) (usub (uadd n 3) k % n) % n = k := by
  have hlt := around12_lt n k hn hk
  rw [around12_eq n _ hn hlt, around12_eq n k hn hk]
  have hmod : (n + 3 - k) % n < n := Nat.mod_lt _ (by omega)
  have hdm := Nat.div_add_mod (n + 3 - k) n
  have : n + 3 - (n + 3 - k) % n = k + n * ((n + 3 - k) / n) := by omega
  rw [this, Nat.add_mul_mod_self_left, Nat.mod_eq_of_lt hk]

/-! ## The reordering operations keep the order array a bijection -/

theorem sweep_bijection (A : OrderedAlphabet) (f : Nat → Nat)
    (hwf : A.WellFormed) (hb : A.IsBijection)
    (hf : ∀ x, x < A.myNb → f x < A.myNb)
    (hinj : ∀ x, x < A.myNb → ∀ y, y < A.myNb → f x = f y → x = y) :
    ({ A with myOrder := sweep f A.myNb A.myOrder } : OrderedAlphabet).WellFormed ∧
    ({ A with myOrder := sweep f A.myNb A.myOrder } : OrderedAlphabet).IsBijection := by
  obtain ⟨hlen, hch⟩ := hwf
  obtain ⟨hr, hd⟩ := hb
  have hm := map_bijection f A.myNb A.myOrder hf hinj hr hd
  refine ⟨⟨?_, hch⟩, ?_, ?_⟩
  · simpa [sweep_length] using hlen
  · simpa [OrderedAlphabet.InRange, sweep_eq_map f A.myNb A.myOrder (le_of_eq hlen)] using hm.1
  · simpa [sweep_eq_map f A.myNb A.myOrder (le_of_eq hlen)] using hm.2

theorem reorder_bijection (A : OrderedAlphabet) (op : Reorder)
    (hwf : A.WellFormed) (hb : A.IsBijection) :
    (A.reorder op).WellFormed ∧ (A.reorder op).IsBijection := by
  have hn : A.myNb ≤ 256 := by have := hwf.2; omega
  cases op with
  | shiftLeft =>
    exact sweep_bijection A _ hwf hb (fun x hx => shiftLeft_lt _ x hn hx)
      (fun x hx y hy h => by
        have h1 := shift_left_right A.myNb x hn hx
        have h2 := shift_left_right A.myNb y hn hy
        simp only at h h1 h2
        rw [← h1, ← h2, h])
  | shiftRight =>
    exact sweep_bijection A _ hwf hb (fun x hx => shiftRight_lt _ x hn hx)
      (fun x hx y hy h => by
        have h1 := shift_right_left A.myNb x hn hx
        have h2 := shift_right_left A.myNb y hn hy
        simp only at h h1 h2
        rw [← h1, ← h2, h])
  | reverse =>
    exact sweep_bijection A _ hwf hb (fun x hx => reverse_lt _ x hn hx)
      (fun x hx y hy h => by
        have h1 := reverse_reverse A.myNb x hn hx
        have h2 := reverse_reverse A.myNb y hn hy
        rw [← h1, ← h2, h])
  | reverseAround12 =>
    exact sweep_bijection A _ hwf hb (fun x hx => around12_lt _ x hn hx)
      (fun x hx y hy h => by
        have h1 := around12_around12 A.myNb x hn hx
        have h2 := around12_around12 A.myNb y hn hy
        rw [← h1, ← h2, h])

theorem reorderAll_bijection (ops : List Reorder) (A : OrderedAlphabet)
    (hwf : A.WellFormed) (hb : A.IsBijection) :
    (A.reorderAll ops).WellFormed ∧ (A.reorderAll ops).IsBijection := by
  induction ops generalizing A with
  | nil => exact ⟨hwf, hb⟩
  | cons op ops ih =>
    have h := reorder_bijection A op hwf hb
    exact ih (A.reorder op) h.1 h.2

theorem reorder_myNb (A : OrderedAlphabet) (op : Reorder) :
    (A.reorder op).myNb = A.myNb ∧ (A.reorder op).myFirst = A.myFirst := by
  cases op <;> exact ⟨rfl, rfl⟩

theorem reorderAll_myNb (ops : List Reorder) (A : OrderedAlphabet) :
    (A.reorderAll ops).myNb = A.myNb ∧ (A.reorderAll ops).myFirst = A.myFirst := by
  induction ops generalizing A with
  | nil => exact ⟨rfl, rfl⟩
  | cons op ops ih =>
    have h := ih (A.reorder op)
    have h2 := reorder_myNb A op
    exact ⟨h.1.trans h2.1, h.2.trans h2.2⟩

/-- C1: for an alphabet whose order array is a bijection on `[0, n)`, each of
`shiftLeft`, `shiftRight`, `reverse` and `reverseAround12` leaves the order
array a bijection on `[0, n)` (same `n`, same number of cells), and so does
every finite sequence of these four operations. -/
theorem C1_reorder_preserves_bijection (A : OrderedAlphabet)
    (hwf : A.WellFormed) (hn : 1 ≤ A.myNb) (hb : A.IsBijection) :
    (A.shiftLeft.myNb = A.myNb ∧ A.shiftLeft.WellFormed ∧ A.shiftLeft.IsBijection) ∧
    (A.shiftRight.myNb = A.myNb ∧ A.shiftRight.WellFormed ∧ A.shiftRight.IsBijection) ∧
    (A.reverse.myNb = A.myNb ∧ A.reverse.WellFormed ∧ A.reverse.IsBijection) ∧
    (A.reverseAround12.myNb = A.myNb ∧ A.reverseAround12.WellFormed ∧
      A.reverseAround12.IsBijection) ∧
    ∀ ops : List Reorder,
      (A.reorderAll ops).myNb = A.myNb ∧ (A.reorderAll ops).WellFormed ∧
        (A.reorderAll ops).IsBijection := by
  have _ := hn
  exact ⟨⟨rfl, reorder_bijection A .shiftLeft hwf hb⟩,
    ⟨rfl, reorder_bijection A .shiftRight hwf hb⟩,
    ⟨rfl, reorder_bijection A .reverse hwf hb⟩,
    ⟨rfl, reorder_bijection A .reverseAround12 hwf hb⟩,
    fun ops => ⟨(reorderAll_myNb ops A).1, reorderAll_bijection ops A hwf hb⟩⟩

/-- Witness of C1 on the alphabet `a < b < c < d`. -/
theorem C1_reorder_preserves_bijection_witness :
    (⟨97, 4, [0, 1, 2, 3]⟩ : OrderedAlphabet).WellFormed ∧
    1 ≤ (⟨97, 4, [0, 1, 2, 3]⟩ : OrderedAlphabet).myNb ∧
    (⟨97, 4, [0, 1, 2, 3]⟩ : OrderedAlphabet).IsBijection ∧
    (OrderedAlphabet.reorderAll ⟨97, 4, [0, 1, 2, 3]⟩
      [.shiftLeft, .reverseAround12, .reverse, .shiftRight]).IsBijection :=
  ⟨by decide, by decide, by decide,
    ((C1_reorder_preserves_bijection ⟨97, 4, [0, 1, 2, 3]⟩ (by decide) (by decide)
      (by decide)).2.2.2.2 [.shiftLeft, .reverseAround12, .reverse, .shiftRight]).2.2⟩

/-! ## Inverse laws -/

theorem sweep_sweep_cancel (A : OrderedAlphabet) (f g : Nat → Nat)
    (hwf : A.WellFormed) (hr : A.InRange)
    (hgf : ∀ x, x < A.myNb → g (f x) = x) :
    sweep g A.myNb (sweep f A.myNb A.myOrder) = A.myOrder := by
  have hlen : A.myOrder.length ≤ A.myNb := le_of_eq hwf.1
  rw [sweep_eq_map f _ _ hlen, sweep_eq_map g _ _ (by simpa using hlen)]
  exact map_involution f g A.myNb A.myOrder hgf hr

/-- C2: for an alphabet with `n ≥ 1` whose order entries all lie in `[0, n)`,
`shiftLeft` followed by `shiftRight`, `shiftRight` followed by `shiftLeft`, and
`reverse` applied twice each leave the alphabet (in particular its order
array) exactly as it was. -/
theorem C2_inverse_laws (A : OrderedAlphabet)
    (hwf : A.WellFormed) (hn : 1 ≤ A.myNb) (hr : A.InRange) :
    A.shiftLeft.shiftRight = A ∧ A.shiftRight.shiftLeft = A ∧ A.reverse.reverse = A := by
  have _ := hn
  have h256 : A.myNb ≤ 256 := by have := hwf.2; omega
  refine ⟨?_, ?_, ?_⟩
  · show ({ A with myOrder := sweep _ A.myNb (sweep _ A.myNb A.myOrder) } : OrderedAlphabet) = A
    rw [sweep_sweep_cancel A _ _ hwf hr (fun x hx => shift_left_right A.myNb x h256 hx)]
  · show ({ A with myOrder := sweep _ A.myNb (sweep _ A.myNb A.myOrder) } : OrderedAlphabet) = A
    rw [sweep_sweep_cancel A _ _ hwf hr (fun x hx => shift_right_left A.myNb x h256 hx)]
  · have e := sweep_sweep_cancel A _ _ hwf hr (fun x hx => reverse_reverse A.myNb x h256 hx)
    simp only [OrderedAlphabet.reverse, e]

/-- Witness of C2 on a three-letter alphabet with order `b < c < a`. -/
theorem C2_inverse_laws_witness :
    (⟨97, 3, [2, 0, 1]⟩ : OrderedAlphabet).WellFormed ∧
    (OrderedAlphabet.shiftLeft ⟨97, 3, [2, 0, 1]⟩).shiftRight = ⟨97, 3, [2, 0, 1]⟩ :=
  ⟨by decide, (C2_inverse_laws ⟨97, 3, [2, 0, 1]⟩ (by decide) (by decide) (by decide)).1⟩

/-! ## `reverseAround12` -/

theorem reverseAround12_order (A : OrderedAlphabet) (hwf : A.WellFormed) (hr : A.InRange) :
    A.reverseAround12.myOrder = A.myOrder.map (fun r => (A.myNb + 3 - r) % A.myNb) := by
  have h256 : A.myNb ≤ 256 := by have := hwf.2; omega
  show sweep _ A.myNb A.myOrder = _
  rw [sweep_eq_map _ _ _ (le_of_eq hwf.1)]
  exact List.map_congr_left (fun x hx => around12_eq A.myNb x h256 (hr x hx))

/-- C3: `reverseAround12` sends every rank `r` of `[0, n)` to `(n + 3 - r) mod n`;
for `n ≥ 1` applying it twice restores the alphabet (its order array) exactly;
and for `n ≥ 3` the letter that had rank 1 gets rank 2 and the letter that had
rank 2 gets rank 1. -/
theorem C3_reverseAround12 (A : OrderedAlphabet)
    (hwf : A.WellFormed) (hn : 1 ≤ A.myNb) (hr : A.InRange) :
    A.reverseAround12.myOrder = A.myOrder.map (fun r => (A.myNb + 3 - r) % A.myNb) ∧
    A.reverseAround12.reverseAround12 = A ∧
    (3 ≤ A.myNb → ∀ k : Nat,
      (A.myOrder[k]? = some 1 → A.reverseAround12.myOrder[k]? = some 2) ∧
      (A.myOrder[k]? = some 2 → A.reverseAround12.myOrder[k]? = some 1)) := by
  have _ := hn
  have h256 : A.myNb ≤ 256 := by have := hwf.2; omega
  refine ⟨reverseAround12_order A hwf hr, ?_, ?_⟩
  · have e := sweep_sweep_cancel A (fun x => usub (uadd A.myNb 3) x % A.myNb)
      (fun x => usub (uadd A.myNb 3) x % A.myNb) hwf hr
      (fun x hx => around12_around12 A.myNb x h256 hx)
    simp only [OrderedAlphabet.reverseAround12, e]
  · intro h3 k
    rw [reverseAround12_order A hwf hr, List.getElem?_map]
    constructor
    · intro h1
      rw [h1]
      have : (A.myNb + 3 - 1) % A.myNb = 2 := by
        have e : A.myNb + 3 - 1 = 2 + A.myNb := by omega
        rw [e, Nat.add_mod_right, Nat.mod_eq_of_lt (by omega)]
      simp only [Option.map_some', this]
    · intro h2
      rw [h2]
      have : (A.myNb + 3 - 2) % A.myNb = 1 := by
        have e : A.myNb + 3 - 2 = 1 + A.myNb := by omega
        rw [e, Nat.add_mod_right, Nat.mod_eq_of_lt (by omega)]
      simp only [Option.map_some', this]

/-- Witness of C3 on the alphabet `a < b < c < d`: the new ranks are `3, 2, 1, 0`. -/
theorem C3_reverseAround12_witness :
    (⟨97, 4, [0, 1, 2, 3]⟩ : OrderedAlphabet).WellFormed ∧
    (OrderedAlphabet.reverseAround12 ⟨97, 4, [0, 1, 2, 3]⟩).myOrder = [3, 2, 1, 0] ∧
    (OrderedAlphabet.reverseAround12 ⟨97, 4, [0, 1, 2, 3]⟩).reverseAround12
      = ⟨97, 4, [0, 1, 2, 3]⟩ :=
  ⟨by decide, by decide,
    (C3_reverseAround12 ⟨97, 4, [0, 1, 2, 3]⟩ (by decide) (by decide) (by decide)).2.1⟩

/-! ## The serialisation `orderedAlphabet` -/

theorem fillTable_spec (first : Nat) (rest : List Nat) (i : Nat) (tbl : List (Option Nat))
    (hr : ∀ r ∈ rest, r < tbl.length) (hd : rest.Nodup) :
    ∃ tbl', fillTable first rest i tbl = some tbl' ∧ tbl'.length = tbl.length ∧
      (∀ pos, pos ∉ rest → tbl'[pos]? = tbl[pos]?) ∧
      (∀ pos ∈ rest, tbl'[pos]? = some (some (toChar (first + (i + rest.indexOf pos))))) := by
  induction rest generalizing i tbl with
  | nil => exact ⟨tbl, rfl, rfl, fun _ _ => rfl, fun _ h => absurd h (List.not_mem_nil _)⟩
  | cons r rest ih =>
    have hrl : r < tbl.length := hr r (List.mem_cons_self _ _)
    obtain ⟨hrn, hd'⟩ := List.nodup_cons.1 hd
    obtain ⟨tbl', h1, h2, h3, h4⟩ := ih (i + 1) (tbl.set r (some (toChar (first + i))))
      (fun x hx => by simpa using hr x (List.mem_cons_of_mem _ hx)) hd'
    refine ⟨tbl', ?_, by simpa using h2, ?_, ?_⟩
    · simp only [fillTable, hrl, if_true, h1]
    · intro pos hpos
      have hne : r ≠ pos := fun h => hpos (h ▸ List.mem_cons_self _ _)
      rw [h3 pos (fun h => hpos (List.mem_cons_of_mem _ h)), List.getElem?_set_ne hne]
    · intro pos hpos
      by_cases hp : r = pos
      · subst hp
        rw [h3 r hrn, List.getElem?_set_eq_of_lt _ hrl, List.indexOf_cons_eq _ rfl]
        rfl
      · have hmem : pos ∈ rest := by
          rcases List.mem_cons.1 hpos with h | h
          · exact absurd h.symm hp
          · exact h
        rw [h4 pos hmem, List.indexOf_cons_ne _ hp]
        congr 4
        omega

theorem mem_of_bijection (A : OrderedAlphabet) (hwf : A.WellFormed) (hb : A.IsBijection)
    (pos : Nat) (hpos : pos < A.myNb) : pos ∈ A.myOrder := by
  obtain ⟨hr, hd⟩ := hb
  have hsub : A.myOrder.toFinset ⊆ Finset.range A.myNb := by
    intro x hx
    exact Finset.mem_range.2 (hr x (List.mem_toFinset.1 hx))
  have hcard : (Finset.range A.myNb).card ≤ A.myOrder.toFinset.card := by
    rw [List.toFinset_card_of_nodup hd, Finset.card_range, hwf.1]
  have heq := Finset.eq_of_subset_of_card_le hsub hcard
  have : pos ∈ A.myOrder.toFinset := by rw [heq]; exact Finset.mem_range.2 hpos
  exact List.mem_toFinset.1 this

theorem cString_terminated (s : List Nat) (rest : List (Option Nat)) :
    cString (s.map some ++ some 0 :: rest) = some (s.takeWhile (fun c => c ≠ 0)) := by
  induction s with
  | nil => simp [cString]
  | cons c s ih =>
    by_cases hc : c = 0
    · simp [cString, hc]
    · show (if c = 0 then some []
        else (cString (s.map some ++ some 0 :: rest)).map (fun t => c :: t)) = _
      rw [if_neg hc, ih, List.takeWhile_cons]
      simp [hc]

theorem ranking_length (A : OrderedAlphabet) : A.ranking.length = A.myNb := by
  simp [OrderedAlphabet.ranking]

/-- The string returned by `orderedAlphabet`: the letters in increasing rank,
cut at the first NUL letter. -/
theorem orderedAlphabet_eq (A : OrderedAlphabet) (hwf : A.WellFormed) (hb : A.IsBijection) :
    A.orderedAlphabet = some (A.ranking.takeWhile (fun c => c ≠ 0)) := by
  have hlen := hwf.1
  have htake : A.myOrder.take A.myNb = A.myOrder := List.take_of_length_le (le_of_eq hlen)
  obtain ⟨tbl, h1, h2, _, h4⟩ := fillTable_spec A.myFirst A.myOrder 0
    (List.replicate (A.myNb + 1) none)
    (fun r hr => by have := hb.1 r hr; simp; omega) hb.2
  have htbl : tbl.set A.myNb (some 0) = A.ranking.map some ++ [some 0] := by
    apply List.ext_getElem?
    intro pos
    rcases Nat.lt_trichotomy pos A.myNb with hlt | heq | hgt
    · rw [List.getElem?_set_ne (by omega), h4 pos (mem_of_bijection A hwf hb pos hlt),
        List.getElem?_append_left (by simpa [ranking_length] using hlt), List.getElem?_map]
      simp [OrderedAlphabet.ranking, List.getElem?_range hlt]
    · subst heq
      rw [List.getElem?_set_eq_of_lt _ (by simp at h2; omega),
        List.getElem?_append_right (by simp [ranking_length])]
      simp [ranking_length]
    · rw [List.getElem?_eq_none (by simp at h2 ⊢; omega),
        List.getElem?_eq_none (by simp [ranking_length]; omega)]
  unfold OrderedAlphabet.orderedAlphabet
  rw [if_neg (by omega), htake, h1]
  simp only [htbl]
  exact cString_terminated _ _

theorem ranking_getElem? (A : OrderedAlphabet) (pos : Nat) (hpos : pos < A.myNb) :
    A.ranking[pos]? = some (toChar (A.myFirst + A.myOrder.indexOf pos)) := by
  simp [OrderedAlphabet.ranking, List.getElem?_map, List.getElem?_range hpos]

theorem letter_of_rank (A : OrderedAlphabet) (hwf : A.WellFormed) (hb : A.IsBijection)
    (i : Nat) (hi : i < A.myNb) :
    A.myOrder.indexOf i < A.myNb ∧ A.myOrder[A.myOrder.indexOf i]? = some i ∧
    A.ranking[i]? = some (A.myFirst + A.myOrder.indexOf i) := by
  have hmem := mem_of_bijection A hwf hb i hi
  have hlt : A.myOrder.indexOf i < A.myOrder.length := List.indexOf_lt_length.2 hmem
  have hk : A.myOrder.indexOf i < A.myNb := by rw [← hwf.1]; exact hlt
  refine ⟨hk, ?_, ?_⟩
  · rw [List.getElem?_eq_getElem hlt, List.getElem_indexOf hlt]
  · rw [ranking_getElem? A i hi, toChar, Nat.mod_eq_of_lt (by have := hwf.2; omega)]

/-- C4 (amended): for an alphabet with `n ≥ 1`, bijective order and a base
character `first` other than NUL, `orderedAlphabet` returns a string of exactly
`n` characters whose character at position `i` is the letter of rank `i` (the
letter `first + k` with `order[k] = i`), for each `i` in `[0, n)`. -/
theorem C4_orderedAlphabet (A : OrderedAlphabet)
    (hwf : A.WellFormed) (hn : 1 ≤ A.myNb) (hb : A.IsBijection) (hfirst : 1 ≤ A.myFirst) :
    ∃ s, A.orderedAlphabet = some s ∧ s.length = A.myNb ∧
      ∀ i, i < A.myNb →
        ∃ k, k < A.myNb ∧ A.myOrder[k]? = some i ∧ s[i]? = some (A.myFirst + k) := by
  have _ := hn
  have hall : ∀ x ∈ A.ranking, (fun c => decide (c ≠ 0)) x = true := by
    intro x hx
    obtain ⟨pos, hpos, rfl⟩ := List.mem_map.1 hx
    have hp := List.mem_range.1 hpos
    have hk := (letter_of_rank A hwf hb pos hp).1
    have h256 := hwf.2
    simp only [toChar, decide_eq_true_eq]
    rw [Nat.mod_eq_of_lt (by omega)]
    omega
  refine ⟨A.ranking, ?_, ranking_length A, ?_⟩
  · rw [orderedAlphabet_eq A hwf hb, List.takeWhile_eq_self_iff.2 hall]
  · intro i hi
    exact ⟨A.myOrder.indexOf i, letter_of_rank A hwf hb i hi⟩

/-- Witness of C4 (amended) on the alphabet `a < b < c < d`. -/
theorem C4_orderedAlphabet_witness :
    (⟨97, 4, [0, 1, 2, 3]⟩ : OrderedAlphabet).IsBijection ∧
    ∃ s, OrderedAlphabet.orderedAlphabet ⟨97, 4, [0, 1, 2, 3]⟩ = some s ∧
      s.length = (⟨97, 4, [0, 1, 2, 3]⟩ : OrderedAlphabet).myNb ∧
      ∀ i, i < (⟨97, 4, [0, 1, 2, 3]⟩ : OrderedAlphabet).myNb →
        ∃ k, k < (⟨97, 4, [0, 1, 2, 3]⟩ : OrderedAlphabet).myNb ∧
          (⟨97, 4, [0, 1, 2, 3]⟩ : OrderedAlphabet).myOrder[k]? = some i ∧
          s[i]? = some ((⟨97, 4, [0, 1, 2, 3]⟩ : OrderedAlphabet).myFirst + k) :=
  ⟨by decide,
    C4_orderedAlphabet ⟨97, 4, [0, 1, 2, 3]⟩ (by decide) (by decide) (by decide) (by decide)⟩

/-- Counterexample to C4 as stated: the one-letter alphabet whose letter is the
NUL character has a bijective order, yet `orderedAlphabet` returns the empty
string, which does not have `n = 1` characters. -/
theorem C4_counterexample :
    (⟨0, 1, [0]⟩ : OrderedAlphabet).WellFormed ∧
    1 ≤ (⟨0, 1, [0]⟩ : OrderedAlphabet).myNb ∧
    (⟨0, 1, [0]⟩ : OrderedAlphabet).IsBijection ∧
    OrderedAlphabet.orderedAlphabet ⟨0, 1, [0]⟩ = some [] ∧
    ¬ ∃ s, OrderedAlphabet.orderedAlphabet ⟨0, 1, [0]⟩ = some s ∧
      s.length = (⟨0, 1, [0]⟩ : OrderedAlphabet).myNb := by
  refine ⟨by decide, by decide, by decide, by decide, ?_⟩
  rintro ⟨s, hs, hl⟩
  have h0 : OrderedAlphabet.orderedAlphabet ⟨0, 1, [0]⟩ = some [] := by decide
  rw [h0] at hs
  cases hs
  simp at hl

/-! ## Effect of the reordering operations on the serialisation -/

theorem indexOf_map_inverse (f g : Nat → Nat) (n : Nat) (xs : List Nat)
    (hr : ∀ x ∈ xs, x < n) (y : Nat) (hy : y < n)
    (hgf : ∀ x, x < n → g (f x) = x) (hfg : ∀ x, x < n → f (g x) = x) :
    (xs.map f).indexOf y = xs.indexOf (g y) := by
  induction xs with
  | nil => rfl
  | cons x xs ih =>
    have hx : x < n := hr x (List.mem_cons_self _ _)
    have ih' := ih (fun z hz => hr z (List.mem_cons_of_mem _ hz))
    by_cases h : f x = y
    · have hxg : x = g y := by rw [← h, hgf x hx]
      rw [List.map_cons, List.indexOf_cons_eq _ h, List.indexOf_cons_eq _ hxg]
    · have hxg : x ≠ g y := fun e => h (by rw [e, hfg y hy])
      rw [List.map_cons, List.indexOf_cons_ne _ h, List.indexOf_cons_ne _ hxg, ih']

theorem ranking_sweep (A : OrderedAlphabet) (f g : Nat → Nat)
    (hwf : A.WellFormed) (hr : A.InRange)
    (hg : ∀ x, x < A.myNb → g x < A.myNb)
    (hgf : ∀ x, x < A.myNb → g (f x) = x) (hfg : ∀ x, x < A.myNb → f (g x) = x)
    (pos : Nat) (hpos : pos < A.myNb) :
    ({ A with myOrder := sweep f A.myNb A.myOrder } : OrderedAlphabet).ranking[pos]? =
      A.ranking[g pos]? := by
  have h1 := ranking_getElem?
    ({ A with myOrder := sweep f A.myNb A.myOrder } : OrderedAlphabet) pos hpos
  rw [h1, ranking_getElem? A (g pos) (hg pos hpos)]
  show some (toChar (A.myFirst + (sweep f A.myNb A.myOrder).indexOf pos)) = _
  rw [sweep_eq_map f _ _ (le_of_eq hwf.1),
    indexOf_map_inverse f g A.myNb A.myOrder hr pos hpos hgf hfg]

theorem takeWhile_full {α : Type} (p : α → Bool) (l : List α)
    (h : (l.takeWhile p).length = l.length) : l.takeWhile p = l ∧ ∀ x ∈ l, p x = true := by
  have h1 : l.takeWhile p = l := (List.takeWhile_prefix p).eq_of_length h
  exact ⟨h1, List.takeWhile_eq_self_iff.1 h1⟩

/-- When `orderedAlphabet` returns a string of `n` characters for `A`, and the
ranking of `B` has the same letters, it returns the whole ranking for `B`. -/
theorem orderedAlphabet_transfer (A B : OrderedAlphabet)
    (hwfA : A.WellFormed) (hbA : A.IsBijection) (hwfB : B.WellFormed) (hbB : B.IsBijection)
    (hmem : ∀ x ∈ B.ranking, x ∈ A.ranking)
    (c : List Nat) (hc : A.orderedAlphabet = some c) (hlen : c.length = A.myNb) :
    c = A.ranking ∧ B.orderedAlphabet = some B.ranking := by
  rw [orderedAlphabet_eq A hwfA hbA, Option.some.injEq] at hc
  subst hc
  rw [← ranking_length A] at hlen
  obtain ⟨h1, h2⟩ := takeWhile_full _ _ hlen
  refine ⟨h1, ?_⟩
  rw [orderedAlphabet_eq B hwfB hbB,
    List.takeWhile_eq_self_iff.2 (fun x hx => h2 x (hmem x hx))]

theorem ranking_shiftLeft (A : OrderedAlphabet) (hwf : A.WellFormed) (hn : 1 ≤ A.myNb)
    (hr : A.InRange) : A.shiftLeft.ranking = A.ranking.drop 1 ++ A.ranking.take 1 := by
  have h256 : A.myNb ≤ 256 := by have := hwf.2; omega
  have hl := ranking_length A
  rw [← List.rotate_eq_drop_append_take (by omega)]
  apply List.ext_getElem?
  intro pos
  by_cases hpos : pos < A.myNb
  · have h := ranking_sweep A (fun k => if k = 0 then usub A.myNb 1 else usub k 1)
      (fun x => if uadd x 1 = A.myNb then 0 else uadd x 1) hwf hr
      (fun x hx => shiftRight_lt A.myNb x h256 hx)
      (fun x hx => shift_left_right A.myNb x h256 hx)
      (fun x hx => shift_right_left A.myNb x h256 hx) pos hpos
    rw [List.getElem?_rotate (by omega), hl]
    show A.shiftLeft.ranking[pos]? = _
    have e : (if uadd pos 1 = A.myNb then 0 else uadd pos 1) = (pos + 1) % A.myNb := by
      have hu : uadd pos 1 = pos + 1 := by unfold uadd uintSize; omega
      rw [hu]
      split
      · next h => rw [h, Nat.mod_self]
      · next h => rw [Nat.mod_eq_of_lt (by omega)]
    rw [← e]
    exact h
  · rw [List.getElem?_eq_none (by rw [ranking_length]; exact Nat.le_of_not_lt hpos),
      List.getElem?_eq_none (by rw [List.length_rotate, hl]; exact Nat.le_of_not_lt hpos)]

theorem ranking_reverse (A : OrderedAlphabet) (hwf : A.WellFormed) (hr : A.InRange) :
    A.reverse.ranking = A.ranking.reverse := by
  have h256 : A.myNb ≤ 256 := by have := hwf.2; omega
  have hl := ranking_length A
  apply List.ext_getElem?
  intro pos
  by_cases hpos : pos < A.myNb
  · have h := ranking_sweep A (fun x => usub (usub A.myNb 1) x)
      (fun x => usub (usub A.myNb 1) x) hwf hr
      (fun x hx => reverse_lt A.myNb x h256 hx)
      (fun x hx => reverse_reverse A.myNb x h256 hx)
      (fun x hx => reverse_reverse A.myNb x h256 hx) pos hpos
    rw [List.getElem?_reverse (by omega), hl]
    have e : usub (usub A.myNb 1) pos = A.myNb - 1 - pos := by unfold usub uintSize; omega
    rw [← e]
    exact h
  · rw [List.getElem?_eq_none (by rw [ranking_length]; exact Nat.le_of_not_lt hpos),
      List.getElem?_eq_none (by rw [List.length_reverse, hl]; exact Nat.le_of_not_lt hpos)]

/-- C5: for an alphabet with `n ≥ 1` and bijective order, if `orderedAlphabet`
returns the `n`-character string `c0 c1 ... c(n-1)` before `shiftLeft`, it
returns `c1 ... c(n-1) c0` after it. On `n = 4`, `first = 'a'` and the identity
order it returns `"abcd"`, then `"bcda"` after `shiftLeft`, then `"abcd"` again
after a further `shiftRight`. -/
theorem C5_shiftLeft_ordering :
    (∀ (A : OrderedAlphabet) (c : List Nat), A.WellFormed → 1 ≤ A.myNb → A.IsBijection →
      A.orderedAlphabet = some c → c.length = A.myNb →
      A.shiftLeft.orderedAlphabet = some (c.drop 1 ++ c.take 1)) ∧
    OrderedAlphabet.orderedAlphabet ⟨97, 4, [0, 1, 2, 3]⟩ = some [97, 98, 99, 100] ∧
    (OrderedAlphabet.shiftLeft ⟨97, 4, [0, 1, 2, 3]⟩).orderedAlphabet
      = some [98, 99, 100, 97] ∧
    (OrderedAlphabet.shiftLeft ⟨97, 4, [0, 1, 2, 3]⟩).shiftRight.orderedAlphabet
      = some [97, 98, 99, 100] := by
  refine ⟨?_, by decide, by decide, by decide⟩
  intro A c hwf hn hb hc hlen
  have hB := reorder_bijection A .shiftLeft hwf hb
  have hrk := ranking_shiftLeft A hwf hn hb.1
  have hmem : ∀ x ∈ A.shiftLeft.ranking, x ∈ A.ranking := by
    intro x hx
    rw [hrk] at hx
    rcases List.mem_append.1 hx with h | h
    · exact List.mem_of_mem_drop h
    · exact List.mem_of_mem_take h
  obtain ⟨h1, h2⟩ := orderedAlphabet_transfer A A.shiftLeft hwf hb hB.1 hB.2 hmem c hc hlen
  rw [h2, hrk, h1]

/-- C6: for an alphabet with `n ≥ 1` and bijective order, if `orderedAlphabet`
returns the `n`-character string `c0 c1 ... c(n-1)` before `reverse`, it returns
`c(n-1) ... c1 c0` after it. On `n = 4`, `first = 'a'` and the identity order,
`"abcd"` becomes `"dcba"`. -/
theorem C6_reverse_ordering :
    (∀ (A : OrderedAlphabet) (c : List Nat), A.WellFormed → 1 ≤ A.myNb → A.IsBijection →
      A.orderedAlphabet = some c → c.length = A.myNb →
      A.reverse.orderedAlphabet = some c.reverse) ∧
    OrderedAlphabet.orderedAlphabet ⟨97, 4, [0, 1, 2, 3]⟩ = some [97, 98, 99, 100] ∧
    (OrderedAlphabet.reverse ⟨97, 4, [0, 1, 2, 3]⟩).orderedAlphabet
      = some [100, 99, 98, 97] := by
  refine ⟨?_, by decide, by decide⟩
  intro A c hwf _ hb hc hlen
  have hB := reorder_bijection A .reverse hwf hb
  have hrk := ranking_reverse A hwf hb.1
  have hmem : ∀ x ∈ A.reverse.ranking, x ∈ A.ranking := by
    intro x hx
    rw [hrk] at hx
    exact List.mem_reverse.1 hx
  obtain ⟨h1, h2⟩ := orderedAlphabet_transfer A A.reverse hwf hb hB.1 hB.2 hmem c hc hlen
  rw [h2, hrk, h1]

/-- Witness of C5 on a three-letter alphabet with order `b < c < a`. -/
theorem C5_shiftLeft_ordering_witness :
    OrderedAlphabet.orderedAlphabet ⟨97, 3, [2, 0, 1]⟩ = some [98, 99, 97] ∧
    (OrderedAlphabet.shiftLeft ⟨97, 3, [2, 0, 1]⟩).orderedAlphabet
      = some ([98, 99, 97].drop 1 ++ [98, 99, 97].take 1) :=
  ⟨by decide, C5_shiftLeft_ordering.1 ⟨97, 3, [2, 0, 1]⟩ [98, 99, 97]
    (by decide) (by decide) (by decide) (by decide) (by decide)⟩

/-- Witness of C6 on a three-letter alphabet with order `b < c < a`. -/
theorem C6_reverse_ordering_witness :
    OrderedAlphabet.orderedAlphabet ⟨97, 3, [2, 0, 1]⟩ = some [98, 99, 97] ∧
    (OrderedAlphabet.reverse ⟨97, 3, [2, 0, 1]⟩).orderedAlphabet
      = some [98, 99, 97].reverse :=
  ⟨by decide, C6_reverse_ordering.1 ⟨97, 3, [2, 0, 1]⟩ [98, 99, 97]
    (by decide) (by decide) (by decide) (by decide) (by decide)⟩

/-! ## The loop of `firstLyndonFactor` -/

/-- Induction principle for the loop of `firstLyndonFactor`: a property of the
cursors kept by both branches holds at the exit, which is reached when the fuel
is at least `e - j`. -/
theorem lyndonLoop_induct (A : OrderedAlphabet) (w : List Nat) (s e : Nat)
    (P : Nat → Nat → Prop)
    (hEq : ∀ i j, P i j → j < e → A.order (charAt w i) ≤ A.order (charAt w j) →
      charAt w i = charAt w j → P (i + 1) (j + 1))
    (hNe : ∀ i j, P i j → j < e → A.order (charAt w i) ≤ A.order (charAt w j) →
      charAt w i ≠ charAt w j → P s (j + 1)) :
    ∀ fuel i j, e - j ≤ fuel → P i j →
      ∃ i' j', A.lyndonLoop w s e fuel i j = some (i', j') ∧ P i' j' ∧
        ¬ (j' < e ∧ A.order (charAt w i') ≤ A.order (charAt w j')) := by
  intro fuel
  induction fuel with
  | zero =>
    intro i j hf hP
    have hc : ¬ (j < e ∧ A.order (charAt w i) ≤ A.order (charAt w j)) := fun h => by omega
    refine ⟨i, j, ?_, hP, hc⟩
    simp only [OrderedAlphabet.lyndonLoop, OrderedAlphabet.lessOrEqual, decide_eq_true_eq]
    rw [if_neg hc]
  | succ fuel ih =>
    intro i j hf hP
    by_cases hc : j < e ∧ A.order (charAt w i) ≤ A.order (charAt w j)
    · by_cases heq : charAt w i = charAt w j
      · obtain ⟨i', j', h1, h2, h3⟩ := ih (i + 1) (j + 1) (by omega) (hEq i j hP hc.1 hc.2 heq)
        refine ⟨i', j', ?_, h2, h3⟩
        simp only [OrderedAlphabet.lyndonLoop, OrderedAlphabet.lessOrEqual,
          OrderedAlphabet.equal, decide_eq_true_eq]
        rw [if_pos hc, if_pos heq, h1]
      · obtain ⟨i', j', h1, h2, h3⟩ := ih s (j + 1) (by omega) (hNe i j hP hc.1 hc.2 heq)
        refine ⟨i', j', ?_, h2, h3⟩
        simp only [OrderedAlphabet.lyndonLoop, OrderedAlphabet.lessOrEqual,
          OrderedAlphabet.equal, decide_eq_true_eq]
        rw [if_pos hc, if_neg heq, h1]
    · refine ⟨i, j, ?_, hP, hc⟩
      simp only [OrderedAlphabet.lyndonLoop, OrderedAlphabet.lessOrEqual, decide_eq_true_eq]
      rw [if_neg hc]

/-- A periodic factor repeats after any number of periods. -/
theorem periodic_add_mul (w : List Nat) (s i j : Nat) (hij : i ≤ j) (hp : Periodic w s i j) :
    ∀ k x, s + x + k * (j - i) < j →
      charAt w (s + x + k * (j - i)) = charAt w (s + x) := by
  intro k
  induction k with
  | zero => intro x _; simp
  | succ k ih =>
    intro x hx
    have e1 : s + x + (k + 1) * (j - i) = s + x + k * (j - i) + (j - i) := by
      rw [Nat.succ_mul]; omega
    rw [e1] at hx ⊢
    rw [← hp (s + x + k * (j - i)) (by omega) (by omega)]
    exact ih x (by omega)

/-- The positions of a periodic factor carry the letter of their residue
modulo the period. -/
theorem periodic_mod (w : List Nat) (s i j : Nat) (hij : i < j) (hp : Periodic w s i j)
    (x : Nat) (hx : s + x < j) :
    charAt w (s + x) = charAt w (s + x % (j - i)) := by
  have h := periodic_add_mul w s i j (le_of_lt hij) hp (x / (j - i)) (x % (j - i))
  have hdm := Nat.mod_add_div x (j - i)
  have e : s + x % (j - i) + x / (j - i) * (j - i) = s + x := by
    rw [Nat.mul_comm]; omega
  rw [e] at h
  exact h hx

/-- The order of a bijective alphabet distinguishes the letters of the alphabet. -/
theorem order_injective (A : OrderedAlphabet) (hwf : A.WellFormed) (hb : A.IsBijection)
    (a b : Nat) (ha : A.myFirst ≤ a ∧ a < A.myFirst + A.myNb)
    (hb' : A.myFirst ≤ b ∧ b < A.myFirst + A.myNb) (h : A.order a = A.order b) : a = b := by
  have hla : a - A.myFirst < A.myOrder.length := by rw [hwf.1]; omega
  have hlb : b - A.myFirst < A.myOrder.length := by rw [hwf.1]; omega
  unfold OrderedAlphabet.order at h
  rw [List.getD_eq_getElem _ _ hla, List.getD_eq_getElem _ _ hlb] at h
  have := (List.Nodup.getElem_inj_iff hb.2).1 h
  omega

theorem charAt_mem (w : List Nat) (k : Nat) (hk : k < w.length) : charAt w k ∈ w := by
  unfold charAt
  rw [List.getD_eq_getElem _ _ hk]
  exact List.getElem_mem hk

/-- The branch `i = s` of the loop: when `w[i] < w[j]`, the whole factor
`w[s .. j]` becomes the block, and each of its proper suffixes is greater. -/
theorem suffixGreater_reset (A : OrderedAlphabet) (w : List Nat) (s i j : Nat)
    (hsi : s ≤ i) (hij : i < j) (hp : Periodic w s i j)
    (hsg : A.SuffixGreater w s (j - i))
    (hlt : A.order (charAt w i) < A.order (charAt w j)) :
    A.SuffixGreater w s (j + 1 - s) := by
  intro d hd0 hdp
  have hpm := periodic_add_mul w s i j (le_of_lt hij) hp
  have hmod : d % (j - i) < j - i := Nat.mod_lt _ (by omega)
  have hdiv : d % (j - i) + d / (j - i) * (j - i) = d := Nat.mod_add_div' d (j - i)
  have hjd : s + d + (j - s - d) = j := by omega
  by_cases hz : d % (j - i) = 0
  · -- the suffix starts at a multiple of the period
    have ha : d / (j - i) ≠ 0 := by
      intro h0
      rw [h0, Nat.zero_mul] at hdiv
      omega
    obtain ⟨a, ha'⟩ := Nat.exists_eq_succ_of_ne_zero ha
    have hsucc : d / (j - i) * (j - i) = a * (j - i) + (j - i) := by
      rw [ha', Nat.succ_mul]
    refine ⟨j - s - d, by omega, ?_, ?_⟩
    · intro t' ht'
      have h1 := hpm (d / (j - i)) t' (by omega)
      have e : s + t' + d / (j - i) * (j - i) = s + d + t' := by omega
      rw [e] at h1
      exact h1
    · have h1 := hpm a (j - s - d) (by omega)
      have e : s + (j - s - d) + a * (j - i) = i := by omega
      rw [e] at h1
      rw [hjd, ← h1]
      exact hlt
  · obtain ⟨t0, ht0, heq0, hlt0⟩ := hsg (d % (j - i)) (by omega) hmod
    by_cases hcase : s + d + t0 < j
    · -- the first difference of the old block is met before position `j`
      refine ⟨t0, by omega, ?_, ?_⟩
      · intro t' ht'
        have h1 := hpm (d / (j - i)) (d % (j - i) + t') (by omega)
        have e : s + (d % (j - i) + t') + d / (j - i) * (j - i) = s + d + t' := by omega
        rw [e] at h1
        rw [h1, ← Nat.add_assoc]
        exact heq0 t' ht'
      · have h1 := hpm (d / (j - i)) (d % (j - i) + t0) (by omega)
        have e : s + (d % (j - i) + t0) + d / (j - i) * (j - i) = s + d + t0 := by omega
        rw [e] at h1
        rw [h1, ← Nat.add_assoc]
        exact hlt0
    · -- position `j` is met first
      have ha : d / (j - i) ≠ 0 := by
        intro h0
        rw [h0, Nat.zero_mul] at hdiv
        omega
      obtain ⟨a, ha'⟩ := Nat.exists_eq_succ_of_ne_zero ha
      have hsucc : d / (j - i) * (j - i) = a * (j - i) + (j - i) := by
        rw [ha', Nat.succ_mul]
      have hi : charAt w i = charAt w (s + d % (j - i) + (j - s - d)) := by
        have h1 := hpm a (d % (j - i) + (j - s - d)) (by omega)
        have e : s + (d % (j - i) + (j - s - d)) + a * (j - i) = i := by omega
        rw [e] at h1
        rw [h1, ← Nat.add_assoc]
      refine ⟨j - s - d, by omega, ?_, ?_⟩
      · intro t' ht'
        have h1 := hpm (d / (j - i)) (d % (j - i) + t') (by omega)
        have e : s + (d % (j - i) + t') + d / (j - i) * (j - i) = s + d + t' := by omega
        rw [e] at h1
        rw [h1, ← Nat.add_assoc]
        exact heq0 t' (by omega)
      · rw [hjd]
        rcases Nat.lt_or_ge (j - s - d) t0 with hlt' | hge
        · rw [← heq0 (j - s - d) hlt', ← hi]
          exact hlt
        · have e : j - s - d = t0 := by omega
          rw [e] at hi
          rw [e]
          rw [hi] at hlt
          exact lt_trans hlt0 hlt

/-- The invariant of the loop of `firstLyndonFactor`. -/
theorem lyndonLoop_spec (A : OrderedAlphabet) (w : List Nat) (s e : Nat)
    (hse : s < e) :
    ∃ i j, A.lyndonLoop w s e (e - s) s (s + 1) = some (i, j) ∧
      s ≤ i ∧ i < j ∧ j ≤ e ∧ Periodic w s i j ∧
      ¬ (j < e ∧ A.order (charAt w i) ≤ A.order (charAt w j)) ∧
      (A.WellFormed → A.IsBijection → A.InAlphabet w → e ≤ w.length →
        A.SuffixGreater w s (j - i)) := by
  have h := lyndonLoop_induct A w s e
    (fun i j => s ≤ i ∧ i < j ∧ j ≤ e ∧ Periodic w s i j ∧
      (A.WellFormed → A.IsBijection → A.InAlphabet w → e ≤ w.length →
        A.SuffixGreater w s (j - i)))
    (by
      rintro i j ⟨h1, h2, _, h4, h5⟩ hje _ heq
      refine ⟨by omega, by omega, by omega, ?_, ?_⟩
      · intro t ht1 ht2
        have e1 : j + 1 - (i + 1) = j - i := by omega
        rw [e1]
        rcases Nat.lt_or_ge t i with hlt | hge
        · exact h4 t ht1 hlt
        · have e2 : t = i := by omega
          rw [e2, heq]
          congr 1
          omega
      · intro a b c d
        have e1 : j + 1 - (i + 1) = j - i := by omega
        rw [e1]
        exact h5 a b c d)
    (by
      rintro i j ⟨h1, h2, _, h4, h5⟩ hje hle hne
      refine ⟨le_refl s, by omega, by omega, ?_, ?_⟩
      · intro t ht1 ht2
        omega
      · intro hwf hb hin hlen
        have hlt : A.order (charAt w i) < A.order (charAt w j) := by
          rcases Nat.lt_or_ge (A.order (charAt w i)) (A.order (charAt w j)) with h | h
          · exact h
          · exact absurd (order_injective A hwf hb _ _
              (hin _ (charAt_mem w i (by omega))) (hin _ (charAt_mem w j (by omega)))
              (le_antisymm hle h)) hne
        exact suffixGreater_reset A w s i j h1 h2 h4 (h5 hwf hb hin hlen) hlt)
    (e - s) s (s + 1) (by omega)
    ⟨le_refl s, by omega, by omega, fun t h1 h2 => by omega,
      fun _ _ _ _ d h1 h2 => by omega⟩
  obtain ⟨i, j, h1, ⟨h2, h3, h4, h5, h6⟩, h7⟩ := h
  exact ⟨i, j, h1, h2, h3, h4, h5, h7, h6⟩

/-! ## The factor descriptor `(len, nb)` -/

theorem getElem?_eq_charAt (w : List Nat) (k : Nat) (hk : k < w.length) :
    w[k]? = some (charAt w k) := by
  unfold charAt
  rw [List.getD_eq_getElem _ _ hk, List.getElem?_eq_getElem hk]

theorem length_flatten_replicate (u : List Nat) (nb : Nat) :
    (List.replicate nb u).flatten.length = nb * u.length := by
  induction nb with
  | zero => simp
  | succ nb ih => rw [List.replicate_succ, List.flatten_cons, List.length_append, ih, Nat.succ_mul]; omega

theorem getElem?_flatten_replicate (u : List Nat) (nb k : Nat) (hk : k < nb * u.length) :
    (List.replicate nb u).flatten[k]? = u[k % u.length]? := by
  induction nb generalizing k with
  | zero => simp at hk
  | succ nb ih =>
    rw [List.replicate_succ, List.flatten_cons]
    rcases Nat.lt_or_ge k u.length with hlt | hge
    · rw [List.getElem?_append_left hlt, Nat.mod_eq_of_lt hlt]
    · rw [List.getElem?_append_right hge, ih (k - u.length) (by rw [Nat.succ_mul] at hk; omega)]
      congr 1
      conv_rhs => rw [← Nat.sub_add_cancel hge]
      rw [Nat.add_mod_right]

/-- The result of `firstLyndonFactor` in terms of the cursors at the exit of
its loop. -/
theorem firstLyndonFactor_spec (A : OrderedAlphabet) (w : List Nat) (s e : Nat)
    (hse : s < e) :
    ∃ i j, A.firstLyndonFactor w s e = some (j - i, (j - s) / (j - i)) ∧
      s ≤ i ∧ i < j ∧ j ≤ e ∧ Periodic w s i j ∧
      ¬ (j < e ∧ A.order (charAt w i) ≤ A.order (charAt w j)) ∧
      (A.WellFormed → A.IsBijection → A.InAlphabet w → e ≤ w.length →
        A.SuffixGreater w s (j - i)) := by
  obtain ⟨i, j, h1, h2, h3, h4, h5, h6, h7⟩ := lyndonLoop_spec A w s e hse
  refine ⟨i, j, ?_, h2, h3, h4, h5, h6, h7⟩
  unfold OrderedAlphabet.firstLyndonFactor
  rw [h1]
  simp only
  rw [if_neg (by omega)]

/-- The number of repetitions is at least one and the repetitions fit before `j`. -/
theorem repetitions_bound (s i j : Nat) (hsi : s ≤ i) (hij : i < j) :
    1 ≤ (j - s) / (j - i) ∧ (j - i) * ((j - s) / (j - i)) ≤ j - s ∧
    j - s < (j - i) * ((j - s) / (j - i) + 1) := by
  have hpos : 0 < j - i := by omega
  refine ⟨?_, Nat.mul_div_le _ _, Nat.lt_mul_div_succ _ hpos⟩
  exact (Nat.one_le_div_iff hpos).2 (by omega)

/-- A periodic factor is a power of its first period. -/
theorem periodic_copies (w : List Nat) (s i j : Nat) (hsi : s ≤ i) (hij : i < j)
    (hp : Periodic w s i j) (hj : j ≤ w.length) (k : Nat) (hk : s + (j - i) * k ≤ j) :
    (w.drop s).take ((j - i) * k) = (List.replicate k ((w.drop s).take (j - i))).flatten := by
  have hlen : ((w.drop s).take (j - i)).length = j - i := by
    rw [List.length_take, List.length_drop]; omega
  apply List.ext_getElem?
  intro x
  rcases Nat.lt_or_ge x ((j - i) * k) with hlt | hge
  · have hmod : x % (j - i) < j - i := Nat.mod_lt _ (by omega)
    rw [getElem?_flatten_replicate _ _ _ (by rw [hlen, Nat.mul_comm]; exact hlt), hlen,
      List.getElem?_take_of_lt hlt, List.getElem?_take_of_lt hmod, List.getElem?_drop,
      List.getElem?_drop, getElem?_eq_charAt _ _ (by omega), getElem?_eq_charAt _ _ (by omega),
      periodic_mod w s i j hij hp x (by omega)]
  · rw [List.getElem?_eq_none (by rw [List.length_take]; omega),
      List.getElem?_eq_none (by rw [length_flatten_replicate, hlen, Nat.mul_comm]; exact hge)]

/-- C7: for all indices `s < e ≤ |w|`, `firstLyndonFactor` returns `(len, nb)`
with `len ≥ 1`, `nb ≥ 1` and `s + len * nb ≤ e` such that the substring of `w` of
length `len * nb` starting at `s` is `nb` concatenated copies of its prefix of
length `len`. (Holds for every alphabet and word; no assumption on the order
is needed.) -/
theorem C7_factorization_identity (A : OrderedAlphabet) (w : List Nat) (s e : Nat)
    (hse : s < e) (he : e ≤ w.length) :
    ∃ len nb, A.firstLyndonFactor w s e = some (len, nb) ∧
      1 ≤ len ∧ 1 ≤ nb ∧ s + len * nb ≤ e ∧
      (w.drop s).take (len * nb) = (List.replicate nb ((w.drop s).take len)).flatten := by
  obtain ⟨i, j, h1, h2, h3, h4, h5, _, _⟩ := firstLyndonFactor_spec A w s e hse
  obtain ⟨b1, b2, _⟩ := repetitions_bound s i j h2 h3
  exact ⟨j - i, (j - s) / (j - i), h1, by omega, b1, by omega,
    periodic_copies w s i j h2 h3 h5 (by omega) _ (by omega)⟩

/-- Witness of C7 on the word `abab` with `a < b`. -/
theorem C7_factorization_identity_witness :
    ∃ len nb, OrderedAlphabet.firstLyndonFactor ⟨97, 2, [0, 1]⟩ [97, 98, 97, 98] 0 4
        = some (len, nb) ∧
      1 ≤ len ∧ 1 ≤ nb ∧ 0 + len * nb ≤ 4 ∧
      (List.drop 0 [97, 98, 97, 98]).take (len * nb)
        = (List.replicate nb ((List.drop 0 [97, 98, 97, 98]).take len)).flatten :=
  C7_factorization_identity ⟨97, 2, [0, 1]⟩ [97, 98, 97, 98] 0 4 (by decide) (by decide)

/-- No further copy of the block follows the repetitions counted by the loop. -/
theorem copies_le (A : OrderedAlphabet) (w : List Nat) (s e i j : Nat)
    (hsi : s ≤ i) (hij : i < j) (hp : Periodic w s i j) (he : e ≤ w.length)
    (hexit : ¬ (j < e ∧ A.order (charAt w i) ≤ A.order (charAt w j)))
    (k : Nat) (hk : s + (j - i) * k ≤ e)
    (hcopies : (w.drop s).take ((j - i) * k)
      = (List.replicate k ((w.drop s).take (j - i))).flatten) :
    k ≤ (j - s) / (j - i) := by
  by_contra hcon
  obtain ⟨_, _, b3⟩ := repetitions_bound s i j hsi hij
  have hmul : (j - i) * ((j - s) / (j - i) + 1) ≤ (j - i) * k :=
    Nat.mul_le_mul_left _ (by omega)
  have hje : j < e := by omega
  have hlen : ((w.drop s).take (j - i)).length = j - i := by
    rw [List.length_take, List.length_drop]; omega
  have hx : j - s < (j - i) * k := by omega
  have hmod : (j - s) % (j - i) < j - i := Nat.mod_lt _ (by omega)
  have h1 : ((w.drop s).take ((j - i) * k))[j - s]? = some (charAt w j) := by
    rw [List.getElem?_take_of_lt hx, List.getElem?_drop, getElem?_eq_charAt _ _ (by omega)]
    congr 2
    omega
  have h2 : (List.replicate k ((w.drop s).take (j - i))).flatten[j - s]?
      = some (charAt w (s + (j - s) % (j - i))) := by
    rw [getElem?_flatten_replicate _ _ _ (by rw [hlen, Nat.mul_comm]; exact hx), hlen,
      List.getElem?_take_of_lt hmod, List.getElem?_drop, getElem?_eq_charAt _ _ (by omega)]
  have h3 : charAt w i = charAt w (s + (j - s) % (j - i)) := by
    have h := periodic_mod w s i j hij hp (i - s) (by omega)
    have e1 : s + (i - s) = i := by omega
    have e2 : (i - s) % (j - i) = (j - s) % (j - i) := by
      have e3 : j - s = (i - s) + (j - i) := by omega
      rw [e3, Nat.add_mod_right]
    rw [e1, e2] at h
    exact h
  rw [hcopies, h2, ← h3] at h1
  have heq : charAt w i = charAt w j := Option.some.inj h1
  exact hexit ⟨hje, by rw [heq]⟩

/-- C9: for all `s < e ≤ |w|`, the `nb` returned by `firstLyndonFactor` is the
number of times the block appears consecutively from `s`: `w[s .. s + nb*len)`
fits before `e` and is `nb` copies of `w[s .. s+len)`, and every `k` such that
`s + k*len ≤ e` and `w[s .. s + k*len)` is `k` copies of the block satisfies
`k ≤ nb`. With `a < b`, `("abab", 0, 4)` returns `len = 2, nb = 2` and
`("aab", 0, 3)` returns `len = 3, nb = 1`. -/
theorem C9_number_of_repetitions :
    (∀ (A : OrderedAlphabet) (w : List Nat) (s e : Nat), s < e → e ≤ w.length →
      ∃ len nb, A.firstLyndonFactor w s e = some (len, nb) ∧
        (s + len * nb ≤ e ∧
          (w.drop s).take (len * nb) = (List.replicate nb ((w.drop s).take len)).flatten) ∧
        ∀ k, s + len * k ≤ e →
          (w.drop s).take (len * k) = (List.replicate k ((w.drop s).take len)).flatten →
          k ≤ nb) ∧
    OrderedAlphabet.firstLyndonFactor ⟨97, 2, [0, 1]⟩ [97, 98, 97, 98] 0 4 = some (2, 2) ∧
    OrderedAlphabet.firstLyndonFactor ⟨97, 2, [0, 1]⟩ [97, 97, 98] 0 3 = some (3, 1) := by
  refine ⟨?_, by decide, by decide⟩
  intro A w s e hse he
  obtain ⟨i, j, h1, h2, h3, h4, h5, h6, _⟩ := firstLyndonFactor_spec A w s e hse
  obtain ⟨_, b2, _⟩ := repetitions_bound s i j h2 h3
  exact ⟨j - i, (j - s) / (j - i), h1,
    ⟨by omega, periodic_copies w s i j h2 h3 h5 (by omega) _ (by omega)⟩,
    fun k hk hc => copies_le A w s e i j h2 h3 h5 he h6 k hk hc⟩

/-- Witness of C9 on the word `aab` with `a < b`. -/
theorem C9_number_of_repetitions_witness :
    ∃ len nb, OrderedAlphabet.firstLyndonFactor ⟨97, 2, [0, 1]⟩ [97, 97, 98] 0 3
        = some (len, nb) ∧
      (0 + len * nb ≤ 3 ∧
        (List.drop 0 [97, 97, 98]).take (len * nb)
          = (List.replicate nb ((List.drop 0 [97, 97, 98]).take len)).flatten) ∧
      ∀ k, 0 + len * k ≤ 3 →
        (List.drop 0 [97, 97, 98]).take (len * k)
          = (List.replicate k ((List.drop 0 [97, 97, 98]).take len)).flatten →
        k ≤ nb :=
  C9_number_of_repetitions.1 ⟨97, 2, [0, 1]⟩ [97, 97, 98] 0 3 (by decide) (by decide)

/-! ## The lexicographic order and Lyndon words -/

theorem charAt_cons_succ (a : Nat) (x : List Nat) (k : Nat) :
    charAt (a :: x) (k + 1) = charAt x k := rfl

theorem charAt_cons_zero (a : Nat) (x : List Nat) : charAt (a :: x) 0 = a := rfl

/-- Two words whose first difference is at position `t`, where `x` has the
smaller letter: `x` is smaller than `y` and `y` is not smaller than `x`. -/
theorem lexLt_first_diff (A : OrderedAlphabet) :
    ∀ (t : Nat) (x y : List Nat), t < x.length → t < y.length →
      (∀ t', t' < t → A.order (charAt x t') = A.order (charAt y t')) →
      A.order (charAt x t) < A.order (charAt y t) →
      A.lexLt x y = true ∧ A.lexLt y x = false := by
  intro t
  induction t with
  | zero =>
    intro x y hx hy _ hlt
    cases x with
    | nil => simp at hx
    | cons a x =>
      cases y with
      | nil => simp at hy
      | cons b y =>
        rw [charAt_cons_zero, charAt_cons_zero] at hlt
        constructor
        · simp only [OrderedAlphabet.lexLt, if_pos hlt]
        · simp only [OrderedAlphabet.lexLt, if_neg (Nat.lt_asymm hlt), if_pos hlt]
  | succ t ih =>
    intro x y hx hy heq hlt
    cases x with
    | nil => simp at hx
    | cons a x =>
      cases y with
      | nil => simp at hy
      | cons b y =>
        have h0 := heq 0 (Nat.succ_pos _)
        rw [charAt_cons_zero, charAt_cons_zero] at h0
        have hrec := ih x y (by simpa using hx) (by simpa using hy)
          (fun t' ht' => by simpa [charAt_cons_succ] using heq (t' + 1) (by omega))
          (by simpa [charAt_cons_succ] using hlt)
        constructor
        · simp only [OrderedAlphabet.lexLt, h0, Nat.lt_irrefl, if_false]
          exact hrec.1
        · simp only [OrderedAlphabet.lexLt, h0, Nat.lt_irrefl, if_false]
          exact hrec.2

/-- A word is not smaller than a word that agrees with it up to its end. -/
theorem lexLt_agree (A : OrderedAlphabet) :
    ∀ (x y : List Nat), y.length ≤ x.length →
      (∀ t', t' < y.length → A.order (charAt x t') = A.order (charAt y t')) →
      A.lexLt x y = false := by
  intro x
  induction x with
  | nil =>
    intro y hy _
    cases y with
    | nil => rfl
    | cons b y => simp at hy
  | cons a x ih =>
    intro y hy heq
    cases y with
    | nil => rfl
    | cons b y =>
      have h0 := heq 0 (by simp)
      rw [charAt_cons_zero, charAt_cons_zero] at h0
      simp only [OrderedAlphabet.lexLt, h0, Nat.lt_irrefl, if_false]
      exact ih y (by simpa using hy)
        (fun t' ht' => by
          simpa [charAt_cons_succ] using heq (t' + 1) (by simp; omega))

theorem charAt_take_drop (w : List Nat) (s L k : Nat) (hk : k < L) :
    charAt ((w.drop s).take L) k = charAt w (s + k) := by
  unfold charAt
  rw [List.getD_eq_getElem?_getD, List.getD_eq_getElem?_getD, List.getElem?_take_of_lt hk,
    List.getElem?_drop]

theorem charAt_rotation_left (u : List Nat) (d k : Nat) (hk : k + d < u.length) :
    charAt (u.drop d ++ u.take d) k = charAt u (d + k) := by
  unfold charAt
  rw [List.getD_eq_getElem?_getD, List.getD_eq_getElem?_getD,
    List.getElem?_append_left (by rw [List.length_drop]; omega), List.getElem?_drop]

theorem charAt_rotation_right (u : List Nat) (d k : Nat) (hd : d ≤ u.length)
    (hk1 : u.length ≤ k + d) (hk2 : k < u.length) :
    charAt (u.drop d ++ u.take d) k = charAt u (k + d - u.length) := by
  unfold charAt
  rw [List.getD_eq_getElem?_getD, List.getD_eq_getElem?_getD,
    List.getElem?_append_right (by rw [List.length_drop]; omega), List.length_drop,
    List.getElem?_take_of_lt (by omega)]
  congr 2
  omega

theorem length_take_drop (w : List Nat) (s L : Nat) (h : s + L ≤ w.length) :
    ((w.drop s).take L).length = L := by
  rw [List.length_take, List.length_drop]; omega

theorem length_rotation (u : List Nat) (d : Nat) :
    (u.drop d ++ u.take d).length = u.length := by
  rw [List.length_append, List.length_drop, List.length_take]; omega

/-- The block found by the loop is a Lyndon word. -/
theorem block_isLyndon (A : OrderedAlphabet) (w : List Nat) (s p : Nat)
    (hp : 0 < p) (hlen : s + p ≤ w.length) (hsg : A.SuffixGreater w s p) :
    A.IsLyndon ((w.drop s).take p) := by
  have hl := length_take_drop w s p hlen
  refine ⟨fun h => by rw [h] at hl; simp at hl; omega, ?_⟩
  intro d hd hd0
  rw [hl] at hd
  obtain ⟨t, ht, heq, hlt⟩ := hsg d hd0 hd
  refine (lexLt_first_diff A t _ _ (by omega) (by rw [length_rotation]; omega) ?_ ?_).1
  · intro t' ht'
    rw [charAt_rotation_left _ _ _ (by omega), charAt_take_drop _ _ _ _ (by omega),
      charAt_take_drop _ _ _ _ (by omega), ← Nat.add_assoc, heq t' ht']
  · rw [charAt_rotation_left _ _ _ (by omega), charAt_take_drop _ _ _ _ (by omega),
      charAt_take_drop _ _ _ _ (by omega), ← Nat.add_assoc]
    exact hlt

/-- A prefix of `w[s .. e)` longer than the block found by the loop is not a
Lyndon word: its rotation by the length of the block is not greater. -/
theorem longer_not_isLyndon (A : OrderedAlphabet) (w : List Nat) (s e i j : Nat)
    (hsi : s ≤ i) (hij : i < j) (he : e ≤ w.length)
    (hp : Periodic w s i j)
    (hexit : ¬ (j < e ∧ A.order (charAt w i) ≤ A.order (charAt w j)))
    (hsg : A.SuffixGreater w s (j - i))
    (L : Nat) (hL1 : j - i < L) (hL2 : s + L ≤ e) :
    ¬ A.IsLyndon ((w.drop s).take L) := by
  rintro ⟨_, hall⟩
  have hl := length_take_drop w s L (by omega)
  have hrot := hall (j - i) (by rw [hl]; exact hL1) (by omega)
  have hv : ∀ k, k < L → charAt ((w.drop s).take L) k = charAt w (s + k) :=
    fun k hk => charAt_take_drop w s L k hk
  have hR1 : ∀ k, k + (j - i) < L →
      charAt (((w.drop s).take L).drop (j - i) ++ ((w.drop s).take L).take (j - i)) k
        = charAt w (s + k + (j - i)) := by
    intro k hk
    rw [charAt_rotation_left _ _ _ (by rw [hl]; exact hk), hv _ (by omega)]
    congr 1
    omega
  have hR2 : ∀ k, L ≤ k + (j - i) → k < L →
      charAt (((w.drop s).take L).drop (j - i) ++ ((w.drop s).take L).take (j - i)) k
        = charAt w (s + (k + (j - i) - L)) := by
    intro k hk1 hk2
    rw [charAt_rotation_right _ _ _ (by rw [hl]; omega) (by rw [hl]; exact hk1)
      (by rw [hl]; exact hk2), hl, hv _ (by omega)]
  have hlR := length_rotation ((w.drop s).take L) (j - i)
  have hfalse : A.lexLt ((w.drop s).take L)
      (((w.drop s).take L).drop (j - i) ++ ((w.drop s).take L).take (j - i)) = false := by
    rcases Nat.lt_or_ge (j - s) L with hlong | hshort
    · -- the prefix goes beyond position `j`, where the scan stopped on a smaller letter
      have hje : j < e := by omega
      have hlt : A.order (charAt w j) < A.order (charAt w i) := by
        rcases Nat.lt_or_ge (A.order (charAt w j)) (A.order (charAt w i)) with h | h
        · exact h
        · exact absurd ⟨hje, h⟩ hexit
      refine (lexLt_first_diff A (i - s) _ _ (by rw [hlR, hl]; omega) (by rw [hl]; omega)
        ?_ ?_).2
      · intro t' ht'
        rw [hR1 t' (by omega), hv t' (by omega), ← hp (s + t') (by omega) (by omega)]
      · rw [hR1 (i - s) (by omega), hv (i - s) (by omega)]
        have e1 : s + (i - s) + (j - i) = j := by omega
        have e2 : s + (i - s) = i := by omega
        rw [e1, e2]
        exact hlt
    · -- the prefix lies inside the periodic factor `w[s .. j)`
      have hpm := periodic_add_mul w s i j (le_of_lt hij) hp
      have hmod : (L - (j - i)) % (j - i) < j - i := Nat.mod_lt _ (by omega)
      have hdiv : (L - (j - i)) % (j - i) + (L - (j - i)) / (j - i) * (j - i) = L - (j - i) :=
        Nat.mod_add_div' _ _
      have hleft : ∀ t', t' + (j - i) < L →
          charAt (((w.drop s).take L).drop (j - i) ++ ((w.drop s).take L).take (j - i)) t'
            = charAt ((w.drop s).take L) t' := by
        intro t' ht'
        rw [hR1 t' ht', hv t' (by omega), ← hp (s + t') (by omega) (by omega)]
      by_cases hz : (L - (j - i)) % (j - i) = 0
      · refine lexLt_agree A _ _ (by rw [hlR]) ?_
        intro t' ht'
        rw [hlR, hl] at ht'
        rcases Nat.lt_or_ge (t' + (j - i)) L with h1 | h1
        · rw [hleft t' h1]
        · rw [hR2 t' h1 ht', hv t' ht']
          have h2 := hpm ((L - (j - i)) / (j - i)) (t' + (j - i) - L) (by omega)
          have e1 : s + (t' + (j - i) - L) + (L - (j - i)) / (j - i) * (j - i) = s + t' := by
            omega
          rw [e1] at h2
          rw [h2]
      · obtain ⟨t0, ht0, heq0, hlt0⟩ := hsg ((L - (j - i)) % (j - i)) (by omega) hmod
        refine (lexLt_first_diff A (L - (j - i) + t0) _ _ (by rw [hlR, hl]; omega)
          (by rw [hl]; omega) ?_ ?_).2
        · intro t' ht'
          rcases Nat.lt_or_ge (t' + (j - i)) L with h1 | h1
          · rw [hleft t' h1]
          · rw [hR2 t' h1 (by omega), hv t' (by omega)]
            have h2 := hpm ((L - (j - i)) / (j - i))
              ((L - (j - i)) % (j - i) + (t' + (j - i) - L)) (by omega)
            have e1 : s + ((L - (j - i)) % (j - i) + (t' + (j - i) - L))
                + (L - (j - i)) / (j - i) * (j - i) = s + t' := by omega
            rw [e1, ← Nat.add_assoc, heq0 _ (by omega)] at h2
            rw [h2]
        · rw [hR2 _ (by omega) (by omega), hv _ (by omega)]
          have h2 := hpm ((L - (j - i)) / (j - i)) ((L - (j - i)) % (j - i) + t0) (by omega)
          have e1 : s + ((L - (j - i)) % (j - i) + t0)
              + (L - (j - i)) / (j - i) * (j - i) = s + (L - (j - i) + t0) := by omega
          have e2 : L - (j - i) + t0 + (j - i) - L = t0 := by omega
          rw [e1] at h2
          rw [h2, e2, ← Nat.add_assoc]
          exact hlt0
  rw [hfalse] at hrot
  exact Bool.noConfusion hrot

/-- C8: for an alphabet with bijective order, a word `w` over the alphabet and
`s < e ≤ |w|`, the block `w[s .. s+len)` returned by `firstLyndonFactor` is the
first Lyndon factor of `w[s .. e)`: it is a prefix of `w[s .. e)` that is a
Lyndon word (strictly smaller, in the lexicographic order induced by the
ranks, than each of its proper rotations), and no longer prefix of `w[s .. e)`
is a Lyndon word. With `a < b`, `w = "abab"`, `s = 0`, `e = 4` the result is
`len = 2` (block `"ab"`). -/
theorem C8_first_lyndon_factor :
    (∀ (A : OrderedAlphabet) (w : List Nat) (s e : Nat),
      A.WellFormed → A.IsBijection → A.InAlphabet w → s < e → e ≤ w.length →
      ∃ len nb, A.firstLyndonFactor w s e = some (len, nb) ∧ s + len ≤ e ∧
        A.IsLyndon ((w.drop s).take len) ∧
        ∀ L, len < L → s + L ≤ e → ¬ A.IsLyndon ((w.drop s).take L)) ∧
    (∃ nb, OrderedAlphabet.firstLyndonFactor ⟨97, 2, [0, 1]⟩ [97, 98, 97, 98] 0 4
      = some (2, nb)) ∧
    OrderedAlphabet.IsLyndon ⟨97, 2, [0, 1]⟩ [97, 98] := by
  refine ⟨?_, ⟨2, by decide⟩, by decide⟩
  intro A w s e hwf hb hin hse he
  obtain ⟨i, j, h1, h2, h3, h4, h5, h6, h7⟩ := firstLyndonFactor_spec A w s e hse
  have hsg := h7 hwf hb hin he
  exact ⟨j - i, (j - s) / (j - i), h1, by omega,
    block_isLyndon A w s (j - i) (by omega) (by omega) hsg,
    fun L hL1 hL2 => longer_not_isLyndon A w s e i j h2 h3 he h5 h6 hsg L hL1 hL2⟩

/-- Witness of C8 on the word `aabab` with `a < b`, scanned from position 1. -/
theorem C8_first_lyndon_factor_witness :
    ∃ len nb, OrderedAlphabet.firstLyndonFactor ⟨97, 2, [0, 1]⟩ [97, 97, 98, 97, 98] 1 5
        = some (len, nb) ∧ 1 + len ≤ 5 ∧
      OrderedAlphabet.IsLyndon ⟨97, 2, [0, 1]⟩ ((List.drop 1 [97, 97, 98, 97, 98]).take len) ∧
      ∀ L, len < L → 1 + L ≤ 5 →
        ¬ OrderedAlphabet.IsLyndon ⟨97, 2, [0, 1]⟩
          ((List.drop 1 [97, 97, 98, 97, 98]).take L) :=
  C8_first_lyndon_factor.1 ⟨97, 2, [0, 1]⟩ [97, 97, 98, 97, 98] 1 5
    (by decide) (by decide) (by decide) (by decide) (by decide)


/-! ## Arithmetic of Christoffel words -/

/-- The integer part of `k B / n` from that of `k b / n1`, for `B n1 = b n + 1`. -/
theorem floor_left (a b c d k : Nat) (h : a * d = b * c + 1) (hk : k ≤ a + b) :
    (k * (b + d)) / (a + c + (b + d)) = (k * b) / (a + b) := by
  have ha : 1 ≤ a := by
    rcases Nat.eq_zero_or_pos a with h0 | h0
    · rw [h0] at h; simp at h
    · exact h0
  have hd : 1 ≤ d := by
    rcases Nat.eq_zero_or_pos d with h0 | h0
    · rw [h0] at h; simp at h
    · exact h0
  have hn1 : 0 < a + b := by omega
  have hlo : (k * b) / (a + b) * (a + b) ≤ k * b := Nat.div_mul_le_self _ _
  have hhi : k * b < ((k * b) / (a + b) + 1) * (a + b) := by
    have := Nat.lt_mul_div_succ (k * b) hn1
    rw [Nat.mul_comm (a + b)] at this
    exact this
  set f := (k * b) / (a + b) with hf
  have key : (b + d) * (a + b) = b * (a + c + (b + d)) + 1 := by nlinarith
  apply Nat.div_eq_of_lt_le
  · -- f * n ≤ k * B
    have h1 : f * (a + c + (b + d)) * (a + b) ≤ k * (b + d) * (a + b) := by nlinarith
    exact Nat.le_of_mul_le_mul_right h1 hn1
  · have h1 : k * (b + d) * (a + b) < (f + 1) * (a + c + (b + d)) * (a + b) := by nlinarith
    exact Nat.lt_of_mul_lt_mul_right h1

theorem floor_right (a b c d k : Nat) (h : a * d = b * c + 1) (hk : k ≤ c + d) :
    ((a + b + k) * (b + d)) / (a + c + (b + d)) = b + (k * d) / (c + d) := by
  have ha : 1 ≤ a := by
    rcases Nat.eq_zero_or_pos a with h0 | h0
    · rw [h0] at h; simp at h
    · exact h0
  have hd : 1 ≤ d := by
    rcases Nat.eq_zero_or_pos d with h0 | h0
    · rw [h0] at h; simp at h
    · exact h0
  have hn2 : 0 < c + d := by omega
  have hlo : (k * d) / (c + d) * (c + d) ≤ k * d := Nat.div_mul_le_self _ _
  have hhi : k * d < ((k * d) / (c + d) + 1) * (c + d) := by
    have := Nat.lt_mul_div_succ (k * d) hn2
    rw [Nat.mul_comm (c + d)] at this
    exact this
  set g := (k * d) / (c + d) with hg
  apply Nat.div_eq_of_lt_le
  · have h1 : (b + g) * (a + c + (b + d)) * (c + d) ≤ (a + b + k) * (b + d) * (c + d) := by
      nlinarith
    exact Nat.le_of_mul_le_mul_right h1 hn2
  · have h1 : (a + b + k) * (b + d) * (c + d) < (b + g + 1) * (a + c + (b + d)) * (c + d) := by
      nlinarith
    exact Nat.lt_of_mul_lt_mul_right h1
/-- The first letters of the Christoffel word of the mediant slope are those of
the Christoffel word of the lower slope. -/
theorem chrLetter_concat_left (a b c d k : Nat) (h : a * d = b * c + 1) (hk : k < a + b) :
    chrLetter (a + c) (b + d) k = chrLetter a b k := by
  unfold chrLetter
  rw [floor_left a b c d k h (by omega), floor_left a b c d (k + 1) h (by omega)]

/-- The last letters of the Christoffel word of the mediant slope are those of
the Christoffel word of the upper slope. -/
theorem chrLetter_concat_right (a b c d k : Nat) (h : a * d = b * c + 1) (hk : k < c + d) :
    chrLetter (a + c) (b + d) (a + b + k) = chrLetter c d k := by
  unfold chrLetter
  have e : a + b + k + 1 = a + b + (k + 1) := by omega
  rw [e, floor_right a b c d k h (by omega), floor_right a b c d (k + 1) h (by omega)]
  have e2 : b + (k + 1) * d / (c + d) = b + k * d / (c + d) + 1 ↔
      (k + 1) * d / (c + d) = k * d / (c + d) + 1 := by omega
  simp only [e2]

/-- The concatenation of two Christoffel words whose slopes are Farey
neighbours is the Christoffel word of the mediant slope. -/
theorem chrFn_concat (f g h : Nat → Nat) (a b c d : Nat) (hdet : a * d = b * c + 1)
    (hf : ChrFn f a b) (hg : ChrFn g c d)
    (hleft : ∀ k, k < a + b → h k = f k)
    (hright : ∀ k, k < c + d → h (a + b + k) = g k) :
    ChrFn h (a + c) (b + d) := by
  intro k hk
  rcases Nat.lt_or_ge k (a + b) with h1 | h1
  · rw [hleft k h1, hf k h1, chrLetter_concat_left a b c d k hdet h1]
  · have e : k = a + b + (k - (a + b)) := by omega
    rw [e, hright _ (by omega), hg _ (by omega),
      chrLetter_concat_right a b c d _ hdet (by omega)]

/-- Powers: if the block `u` of length `p` is the Christoffel word `(a, b)`, the
word `y` of length `c + d` made of a prefix of `u` and a letter of rank 2 is the
Christoffel word `(c, d)`, and `a d - b c = 1`, then `u^k y` is the Christoffel
word `(k a + c, k b + d)`. -/
theorem chrFn_power (f : Nat → Nat) (a b c d m : Nat) (hdet : a * d = b * c + 1)
    (hf : ChrFn f a b) (hy : ChrFn (rankY f (c + d)) c d)
    (hper : ∀ t, t + (a + b) < m → f (t + (a + b)) = f t) :
    ∀ k, c + d + k * (a + b) ≤ m + 1 →
      ChrFn (rankY f (c + d + k * (a + b))) (k * a + c) (k * b + d) := by
  have hd : 1 ≤ d := by
    rcases Nat.eq_zero_or_pos d with h0 | h0
    · rw [h0] at hdet; simp at hdet
    · exact h0
  intro k
  induction k with
  | zero =>
    intro _
    simpa using hy
  | succ k ih =>
    intro hk
    have e1 : (k + 1) * (a + b) = k * (a + b) + (a + b) := Nat.succ_mul _ _
    have hprev := ih (by omega)
    have hdet' : a * (k * b + d) = b * (k * a + c) + 1 := by nlinarith
    have hc := chrFn_concat f (rankY f (c + d + k * (a + b)))
      (rankY f (c + d + (k + 1) * (a + b))) a b (k * a + c) (k * b + d) hdet' hf hprev
      (by
        intro t ht
        unfold rankY
        rw [if_neg (by omega)])
      (by
        intro t ht
        unfold rankY
        have hlen : k * a + c + (k * b + d) = c + d + k * (a + b) := by ring
        rw [hlen] at ht
        by_cases hlast : t + 1 = c + d + k * (a + b)
        · rw [if_pos hlast, if_pos (by omega)]
        · rw [if_neg hlast, if_neg (by omega)]
          have := hper t (by omega)
          rw [← this]
          congr 1
          omega)
    have e2 : a + (k * a + c) = (k + 1) * a + c := by ring
    have e3 : b + (k * b + d) = (k + 1) * b + d := by ring
    rw [e2, e3] at hc
    exact hc

theorem coprime_of_det (a b c d : Nat) (h : a * d = b * c + 1) : Nat.Coprime a b := by
  have h1 : Nat.gcd a b ∣ a * d := Dvd.dvd.mul_right (Nat.gcd_dvd_left a b) d
  have h2 : Nat.gcd a b ∣ b * c := Dvd.dvd.mul_right (Nat.gcd_dvd_right a b) c
  rw [h] at h1
  have h3 : Nat.gcd a b ∣ 1 := (Nat.dvd_add_right h2).1 h1
  exact Nat.dvd_one.1 h3

theorem chrLetter_range (a b k : Nat) : chrLetter a b k = 1 ∨ chrLetter a b k = 2 := by
  unfold chrLetter
  split
  · right; rfl
  · left; rfl
/-! ## The loop of `duvalPP` -/

/-- Induction principle for the loop of `duvalPP`: a property `P` of the
cursors and counters kept by the two branches that continue holds at the
normal exit, and a property `Q` established where the loop is left through
`return false` holds of the position reported. -/
theorem duvalLoop_induct (A : OrderedAlphabet) (w : List Nat) (s e : Nat)
    (P : Nat → Nat → Nat → Nat → Prop) (Q : Nat → Prop)
    (hEq : ∀ i j p q, P i j p q → j < e → A.order (charAt w i) ≤ A.order (charAt w j) →
      charAt w i = charAt w j → P (i + 1) (j + 1) p (if j + 1 = s + q then uadd q p else q))
    (hNe : ∀ i j p q, P i j p q → j < e → A.order (charAt w i) ≤ A.order (charAt w j) →
      charAt w i ≠ charAt w j → j + 1 = s + q → A.order (charAt w j) = 2 →
      P s (j + 1) q (uadd q (usub q p)))
    (hRej : ∀ i j p q, P i j p q → j < e → A.order (charAt w i) ≤ A.order (charAt w j) →
      charAt w i ≠ charAt w j → (j + 1 ≠ s + q ∨ A.order (charAt w j) ≠ 2) → Q j) :
    ∀ fuel i j p q, e - j ≤ fuel → P i j p q →
      (∃ j', A.duvalLoop w s e fuel i j p q = some (.notChristoffel j') ∧ Q j') ∨
      (∃ i' j' p' q', A.duvalLoop w s e fuel i j p q = some (.done i' j' p' q') ∧
        P i' j' p' q' ∧ ¬ (j' < e ∧ A.order (charAt w i') ≤ A.order (charAt w j'))) := by
  intro fuel
  induction fuel with
  | zero =>
    intro i j p q hf hP
    have hc : ¬ (j < e ∧ A.order (charAt w i) ≤ A.order (charAt w j)) := fun h => by omega
    refine Or.inr ⟨i, j, p, q, ?_, hP, hc⟩
    simp only [OrderedAlphabet.duvalLoop, OrderedAlphabet.lessOrEqual, decide_eq_true_eq]
    rw [if_neg hc]
  | succ fuel ih =>
    intro i j p q hf hP
    by_cases hc : j < e ∧ A.order (charAt w i) ≤ A.order (charAt w j)
    · by_cases heq : charAt w i = charAt w j
      · have hstep : A.duvalLoop w s e (fuel + 1) i j p q
            = A.duvalLoop w s e fuel (i + 1) (j + 1) p
                (if j + 1 = s + q then uadd q p else q) := by
          simp only [OrderedAlphabet.duvalLoop, OrderedAlphabet.lessOrEqual,
            OrderedAlphabet.equal, decide_eq_true_eq]
          rw [if_pos hc, if_pos heq]
        rw [hstep]
        exact ih _ _ _ _ (by omega) (hEq i j p q hP hc.1 hc.2 heq)
      · by_cases hrej : j + 1 ≠ s + q ∨ A.order (charAt w j) ≠ 2
        · refine Or.inl ⟨j, ?_, hRej i j p q hP hc.1 hc.2 heq hrej⟩
          simp only [OrderedAlphabet.duvalLoop, OrderedAlphabet.lessOrEqual,
            OrderedAlphabet.equal, decide_eq_true_eq]
          rw [if_pos hc, if_neg heq, if_pos hrej]
        · have hstep : A.duvalLoop w s e (fuel + 1) i j p q
              = A.duvalLoop w s e fuel s (j + 1) q (uadd q (usub q p)) := by
            simp only [OrderedAlphabet.duvalLoop, OrderedAlphabet.lessOrEqual,
              OrderedAlphabet.equal, decide_eq_true_eq]
            rw [if_pos hc, if_neg heq, if_neg hrej]
          rw [hstep]
          have h1 : j + 1 = s + q := by
            by_contra h; exact hrej (Or.inl h)
          have h2 : A.order (charAt w j) = 2 := by
            by_contra h; exact hrej (Or.inr h)
          exact ih _ _ _ _ (by omega) (hNe i j p q hP hc.1 hc.2 heq h1 h2)
    · refine Or.inr ⟨i, j, p, q, ?_, hP, hc⟩
      simp only [OrderedAlphabet.duvalLoop, OrderedAlphabet.lessOrEqual, decide_eq_true_eq]
      rw [if_neg hc]

/-- The branch `++i` of the loop of `duvalPP` keeps the invariant. -/
theorem duvalInv_equal (A : OrderedAlphabet) (w : List Nat) (s e i j p q : Nat)
    (hinv : A.DuvalInv w s e i j p q) (hje : j < e) (heq : charAt w i = charAt w j) :
    A.DuvalInv w s e (i + 1) (j + 1) p (if j + 1 = s + q then uadd q p else q) := by
  obtain ⟨h1, h2, _, h4, hp, hq, hex⟩ := hinv
  have e1 : j + 1 - (i + 1) = j - i := by omega
  have hq' : (if j + 1 = s + q then uadd q p else q) < uintSize := by
    split
    · exact Nat.mod_lt _ (by unfold uintSize; omega)
    · exact hq
  have b1 : s ≤ i + 1 := by omega
  have b2 : i + 1 < j + 1 := by omega
  have b3 : j + 1 ≤ e := by omega
  have b4 : Periodic w s (i + 1) (j + 1) := by
    intro t ht1 ht2
    rw [e1]
    rcases Nat.lt_or_ge t i with hlt | hge
    · exact h4 t ht1 hlt
    · have e2 : t = i := by omega
      rw [e2, heq]
      congr 1
      omega
  obtain ⟨a, b, hab, hcop, hchr, hcase⟩ := hex
  refine ⟨b1, b2, b3, b4, hp, hq', a, b, by rw [e1]; exact hab, hcop, hchr, ?_⟩
  · rcases hcase with hA | hB | ⟨hpe, c, d, k, hy, hdet, hcd, hk, hqe, hq1, hq2⟩
    · exact Or.inl ⟨hA.1, by omega⟩
    · refine Or.inr (Or.inl ?_)
      rw [if_neg (by omega)]
      omega
    · by_cases hcp : j + 1 = s + q
      · rw [if_pos hcp]
        by_cases hwrap : q + p < uintSize
        · have hu : uadd q p = q + p := Nat.mod_eq_of_lt hwrap
          rw [hu]
          have hmul : (k + 1) * p = k * p + p := Nat.succ_mul _ _
          exact Or.inr (Or.inr ⟨by omega, c, d, k + 1, hy, hdet, hcd, by omega, by omega,
            by omega, by omega⟩)
        · refine Or.inr (Or.inl ?_)
          unfold uadd
          unfold uintSize at hwrap hp hq ⊢
          omega
      · rw [if_neg hcp]
        exact Or.inr (Or.inr ⟨by omega, c, d, k, hy, hdet, hcd, hk, hqe, by omega, by omega⟩)

/-- The determinant of the new block `u^(k+1) y` and the new word `u^k y`. -/
theorem det_step (a b c d k : Nat) (h : a * d = b * c + 1) :
    ((k + 1) * a + c) * (k * b + d) = ((k + 1) * b + d) * (k * a + c) + 1 := by
  zify at h ⊢
  linear_combination h

/-- The branch `p = q; q += q - tmp; i = s` of the loop of `duvalPP` keeps the
invariant: the factor `w[s .. j]` is the new block, a Christoffel word. -/
theorem duvalInv_mismatch (A : OrderedAlphabet) (w : List Nat) (s e i j p q : Nat)
    (hwf : A.WellFormed) (hb : A.IsBijection) (hin : A.InAlphabet w) (he : e ≤ w.length)
    (hinv : A.DuvalInv w s e i j p q) (hje : j < e)
    (hne : charAt w i ≠ charAt w j) (hcp : j + 1 = s + q)
    (hr2 : A.order (charAt w j) = 2) :
    A.DuvalInv w s e s (j + 1) q (uadd q (usub q p)) := by
  obtain ⟨h1, h2, _, h4, hp, hq, hex⟩ := hinv
  have hq'' : uadd q (usub q p) < uintSize := Nat.mod_lt _ (by unfold uintSize; omega)
  have b2 : s < j + 1 := by omega
  have b3 : j + 1 ≤ e := by omega
  have b4 : Periodic w s s (j + 1) := fun t ht1 ht2 => by omega
  have hiw : i < w.length := by omega
  have hjw : j < w.length := by omega
  obtain ⟨a, b, hab, hcop, hchr, hcase⟩ := hex
  rcases hcase with hA | hB | ⟨hpe, c, d, k, hy, hdet, hcd, hk, hqe, hq1, hq2⟩
  · exfalso
    have hi : charAt w i = charAt w s := by
      have h := periodic_mod w s i j h2 h4 (i - s) (by omega)
      have e1 : s + (i - s) = i := by omega
      rw [hA.2, Nat.mod_one, e1] at h
      exact h
    exact hne (order_injective A hwf hb _ _ (hin _ (charAt_mem w i hiw))
      (hin _ (charAt_mem w j hjw)) (by rw [hi, hA.1, hr2]))
  · exfalso
    omega
  · have hpab : p = a + b := by omega
    subst hpab
    obtain ⟨k0, rfl⟩ : ∃ k0, k = k0 + 1 := ⟨k - 1, by omega⟩
    have hmul : (k0 + 1) * (a + b) = k0 * (a + b) + (a + b) := Nat.succ_mul _ _
    have hper : ∀ t, t + (a + b) < j - s →
        A.rankAt w s (t + (a + b)) = A.rankAt w s t := by
      intro t ht
      unfold OrderedAlphabet.rankAt
      have h := h4 (s + t) (by omega) (by omega)
      rw [h]
      congr 2
      omega
    have hpow1 := chrFn_power (A.rankAt w s) a b c d (j - s) hdet hchr hy hper (k0 + 1)
      (by omega)
    have hpow0 := chrFn_power (A.rankAt w s) a b c d (j - s) hdet hchr hy hper k0
      (by omega)
    have hsum1 : (k0 + 1) * a + c + ((k0 + 1) * b + d) = c + d + (k0 + 1) * (a + b) := by
      ring
    have hsum0 : k0 * a + c + (k0 * b + d) = c + d + k0 * (a + b) := by ring
    have hnew : ChrFn (A.rankAt w s) ((k0 + 1) * a + c) ((k0 + 1) * b + d) := by
      intro t ht
      rw [← hpow1 t ht]
      unfold rankY
      split
      · next hlast =>
        unfold OrderedAlphabet.rankAt
        have e1 : s + t = j := by omega
        rw [e1, hr2]
      · rfl
    have hdet' := det_step a b c d k0 hdet
    refine ⟨le_refl s, b2, b3, b4, hq, hq'', (k0 + 1) * a + c, (k0 + 1) * b + d,
      by omega, coprime_of_det _ _ _ _ hdet', hnew, ?_⟩
    by_cases hwrap : q + (q - (a + b)) < uintSize
    · have hu : uadd q (usub q (a + b)) = q + (q - (a + b)) := by
        unfold uadd usub
        unfold uintSize at hwrap hp hq ⊢
        omega
      rw [hu]
      refine Or.inr (Or.inr ⟨by omega, k0 * a + c, k0 * b + d, 1, ?_, hdet', by omega,
        le_refl 1, by omega, by omega, by omega⟩)
      rw [hsum0]
      exact hpow0
    · refine Or.inr (Or.inl ?_)
      unfold uadd usub
      unfold uintSize at hwrap hp hq ⊢
      omega

/-! ## From the invariant to Christoffel words -/

/-- The number of letters of rank 2 among the first `m` letters of a
Christoffel word is `⌊m b / (a + b)⌋`. -/
theorem countP_take_chr (A : OrderedAlphabet) (u : List Nat) (a b : Nat)
    (hlen : u.length = a + b)
    (hchr : ∀ k, k < u.length → A.order (charAt u k) = chrLetter a b k) :
    ∀ m, m ≤ u.length →
      (u.take m).countP (fun c => decide (A.order c = 2)) = (m * b) / (a + b) := by
  intro m
  induction m with
  | zero => intro _; simp
  | succ m ih =>
    intro hm
    have hm' : m < u.length := by omega
    have hn : 0 < a + b := by omega
    have hmono : (m * b) / (a + b) ≤ ((m + 1) * b) / (a + b) :=
      Nat.div_le_div_right (Nat.mul_le_mul_right _ (by omega))
    have hup : ((m + 1) * b) / (a + b) ≤ (m * b) / (a + b) + 1 := by
      have h1 : (m + 1) * b ≤ m * b + (a + b) := by rw [Nat.succ_mul]; omega
      have h2 := Nat.div_le_div_right (c := a + b) h1
      rw [Nat.add_div_right _ hn] at h2
      exact h2
    rw [List.take_succ, getElem?_eq_charAt u m hm', List.countP_append, ih (by omega)]
    simp only [Option.toList, List.countP_singleton, decide_eq_true_eq]
    rw [hchr m hm']
    unfold chrLetter
    by_cases hc : ((m + 1) * b) / (a + b) = (m * b) / (a + b) + 1
    · rw [if_pos hc, if_pos rfl, hc]
    · rw [if_neg hc, if_neg (by decide)]
      omega

/-- The block of a scan whose ranks follow the Christoffel word `(a, b)`, with
`a` and `b` coprime, is a Christoffel word. -/
theorem isChristoffel_of_chrFn (A : OrderedAlphabet) (w : List Nat) (s a b : Nat)
    (hlen : s + (a + b) ≤ w.length) (hcop : Nat.Coprime a b)
    (hchr : ChrFn (A.rankAt w s) a b) :
    A.IsChristoffel ((w.drop s).take (a + b)) := by
  have hl := length_take_drop w s (a + b) hlen
  have hpos : 0 < a + b := by
    rcases Nat.eq_zero_or_pos (a + b) with h0 | h0
    · have ha : a = 0 := by omega
      have hb : b = 0 := by omega
      rw [ha, hb] at hcop
      simp at hcop
    · exact h0
  have hk : ∀ k, k < ((w.drop s).take (a + b)).length →
      A.order (charAt ((w.drop s).take (a + b)) k) = chrLetter a b k := by
    intro k hk
    rw [hl] at hk
    rw [charAt_take_drop w s (a + b) k hk]
    exact hchr k hk
  have hranks : ∀ c ∈ (w.drop s).take (a + b), A.order c = 1 ∨ A.order c = 2 := by
    intro c hc
    obtain ⟨k, hk', rfl⟩ := List.mem_iff_getElem.1 hc
    have h := hk k hk'
    unfold charAt at h
    rw [List.getD_eq_getElem _ _ hk'] at h
    rw [h]
    exact chrLetter_range a b k
  have hc2 : ((w.drop s).take (a + b)).countP (fun c => decide (A.order c = 2)) = b := by
    have h := countP_take_chr A _ a b hl hk (a + b) (by rw [hl])
    rw [List.take_of_length_le (by rw [hl]), Nat.mul_div_cancel_left _ hpos] at h
    exact h
  have hc1 : ((w.drop s).take (a + b)).countP (fun c => decide (A.order c = 1)) = a := by
    have h := List.length_eq_countP_add_countP (p := fun c => decide (A.order c = 2))
      ((w.drop s).take (a + b))
    have hcongr : ((w.drop s).take (a + b)).countP (fun c => decide (A.order c = 1))
        = ((w.drop s).take (a + b)).countP (fun c => decide ¬ (decide (A.order c = 2) = true)) := by
      apply List.countP_congr
      intro c hc
      rcases hranks c hc with h1 | h2
      · simp [h1]
      · simp [h2]
    rw [hcongr]
    rw [hl, hc2] at h
    omega
  refine ⟨hranks, ?_, ?_⟩
  · rw [hc1, hc2]; exact hcop
  · rw [hc1, hc2]; exact hk

/-- In a bijective alphabet the letter of rank `order c` is `c`. -/
theorem letter_order (A : OrderedAlphabet) (hwf : A.WellFormed) (hb : A.IsBijection)
    (c : Nat) (hc : A.myFirst ≤ c ∧ c < A.myFirst + A.myNb) : A.letter (A.order c) = c := by
  have hl : c - A.myFirst < A.myOrder.length := by rw [hwf.1]; omega
  unfold OrderedAlphabet.letter OrderedAlphabet.order toChar
  rw [List.getD_eq_getElem _ _ hl, List.indexOf_getElem hb.2 _ hl,
    Nat.mod_eq_of_lt (by have := hwf.2; omega)]
  omega

/-- The invariant holds when the loop of `duvalPP` is entered. -/
theorem duvalInv_init (A : OrderedAlphabet) (w : List Nat) (s e : Nat) (hse : s < e)
    (hpre : A.order (charAt w s) = 1 ∨ A.order (charAt w s) = 2) :
    A.DuvalInv w s e s (s + 1) 1 2 := by
  have e1 : s + 1 - s = 1 := by omega
  refine ⟨le_refl s, by omega, by omega, fun t h1 h2 => by omega,
    by unfold uintSize; omega, by unfold uintSize; omega, ?_⟩
  rcases hpre with h1 | h2
  · refine ⟨1, 0, by omega, by decide, ?_, Or.inr (Or.inr ⟨by omega, 0, 1, 1, ?_, by decide,
      by decide, by decide, by decide, by omega, by omega⟩)⟩
    · intro k hk
      have hk0 : k = 0 := by omega
      subst hk0
      unfold OrderedAlphabet.rankAt
      rw [Nat.add_zero, h1]
      decide
    · intro k hk
      have hk0 : k = 0 := by omega
      subst hk0
      unfold rankY
      rw [if_pos rfl]
      decide
  · refine ⟨0, 1, by omega, by decide, ?_, Or.inl ⟨h2, by omega⟩⟩
    intro k hk
    have hk0 : k = 0 := by omega
    subst hk0
    unfold OrderedAlphabet.rankAt
    rw [Nat.add_zero, h2]
    decide

/-- The loop of `duvalPP` ends, either through `return false` or at its normal
exit, where the invariant holds. -/
theorem duvalLoop_spec (A : OrderedAlphabet) (w : List Nat) (s e : Nat)
    (hwf : A.WellFormed) (hb : A.IsBijection) (hin : A.InAlphabet w)
    (hse : s < e) (he : e ≤ w.length)
    (hpre : A.order (charAt w s) = 1 ∨ A.order (charAt w s) = 2) :
    (∃ j', A.duvalLoop w s e (e - s) s (s + 1) 1 2 = some (.notChristoffel j')) ∨
    (∃ i' j' p' q', A.duvalLoop w s e (e - s) s (s + 1) 1 2 = some (.done i' j' p' q') ∧
      A.DuvalInv w s e i' j' p' q' ∧
      ¬ (j' < e ∧ A.order (charAt w i') ≤ A.order (charAt w j'))) := by
  have h := duvalLoop_induct A w s e (fun i j p q => A.DuvalInv w s e i j p q)
    (fun _ => True)
    (fun i j p q hP hje _ heq => duvalInv_equal A w s e i j p q hP hje heq)
    (fun i j p q hP hje _ hne hcp hr2 =>
      duvalInv_mismatch A w s e i j p q hwf hb hin he hP hje hne hcp hr2)
    (fun _ _ _ _ _ _ _ _ _ => trivial)
    (e - s) s (s + 1) 1 2 (by omega) (duvalInv_init A w s e hse hpre)
  rcases h with ⟨j', h1, _⟩ | h
  · exact Or.inl ⟨j', h1⟩
  · exact Or.inr h

/-- C10: for an alphabet with `n ≥ 3` and bijective order, a word `w` over the
alphabet and `s < e ≤ |w|` with `rank(w[s])` in `{1, 2}`, `duvalPP` returns,
and whenever it returns `true` the block `w[s .. s+len)` is a Christoffel word
over the letters of rank 1 and 2: it contains only these two letters, their
numbers of occurrences `#a1` and `#a2` are coprime, and it is the lower
Christoffel word of slope `#a2 / #a1` (a single letter of rank 1 or 2 is
one). -/
theorem C10_duvalPP_christoffel (A : OrderedAlphabet) (w : List Nat) (s e : Nat)
    (hwf : A.WellFormed) (hn : 3 ≤ A.myNb) (hb : A.IsBijection) (hin : A.InAlphabet w)
    (hse : s < e) (he : e ≤ w.length)
    (hpre : A.order (charAt w s) = 1 ∨ A.order (charAt w s) = 2) :
    (∃ r, A.duvalPP w s e = some r) ∧
    ∀ len nb, A.duvalPP w s e = some (true, len, nb) →
      1 ≤ len ∧ s + len ≤ e ∧ A.IsChristoffel ((w.drop s).take len) ∧
      ∀ c ∈ (w.drop s).take len, c = A.letter 1 ∨ c = A.letter 2 := by
  have _ := hn
  rcases duvalLoop_spec A w s e hwf hb hin hse he hpre with ⟨j', h1⟩ | ⟨i', j', p', q', h1, hinv, _⟩
  · have hres : A.duvalPP w s e = some (false, j', 0) := by
      unfold OrderedAlphabet.duvalPP
      rw [if_pos hpre, h1]
    refine ⟨⟨_, hres⟩, ?_⟩
    intro len nb h
    rw [hres] at h
    simp at h
  · obtain ⟨b1, b2, b3, _, _, _, a, b, hab, hcop, hchr, _⟩ := hinv
    have hres : A.duvalPP w s e = some (true, j' - i', (j' - s) / (j' - i')) := by
      unfold OrderedAlphabet.duvalPP
      rw [if_pos hpre, h1]
      simp only
      rw [if_neg (by omega)]
    refine ⟨⟨_, hres⟩, ?_⟩
    intro len nb h
    rw [hres] at h
    have hlen : j' - i' = len := by
      have := Option.some.inj h
      exact (Prod.mk.inj (Prod.mk.inj this).2).1
    rw [← hlen, ← hab]
    have hchris := isChristoffel_of_chrFn A w s a b (by omega) hcop hchr
    refine ⟨by omega, by omega, hchris, ?_⟩
    intro c hc
    have hcw : c ∈ w := List.mem_of_mem_drop (List.mem_of_mem_take hc)
    have hl := letter_order A hwf hb c (hin c hcw)
    rcases hchris.1 c hc with h1 | h2
    · left; rw [← h1, hl]
    · right; rw [← h2, hl]

/-- Witness of C10 on the alphabet `0 < 1 < 2 < 3` and the word `12122`, whose
block `12122` is the Christoffel word of slope `3 / 2`. -/
theorem C10_duvalPP_christoffel_witness :
    OrderedAlphabet.duvalPP ⟨48, 4, [0, 1, 2, 3]⟩ [49, 50, 49, 50, 50] 0 5
      = some (true, 5, 1) ∧
    OrderedAlphabet.IsChristoffel ⟨48, 4, [0, 1, 2, 3]⟩
      ((List.drop 0 [49, 50, 49, 50, 50]).take 5) :=
  ⟨by decide,
    ((C10_duvalPP_christoffel ⟨48, 4, [0, 1, 2, 3]⟩ [49, 50, 49, 50, 50] 0 5
      (by decide) (by decide) (by decide) (by decide) (by decide) (by decide)
      (by decide)).2 5 1 (by decide)).2.2.1⟩

/-! ## `duvalPP` and `firstLyndonFactor` scan in lockstep -/

/-- While it does not leave through `return false`, the loop of `duvalPP` moves
its cursors as the loop of `firstLyndonFactor` does. -/
theorem duvalLoop_lockstep (A : OrderedAlphabet) (w : List Nat) (s e : Nat) :
    ∀ fuel i j p q i' j' p' q',
      A.duvalLoop w s e fuel i j p q = some (.done i' j' p' q') →
      A.lyndonLoop w s e fuel i j = some (i', j') := by
  intro fuel
  induction fuel with
  | zero =>
    intro i j p q i' j' p' q' h
    simp only [OrderedAlphabet.duvalLoop] at h
    simp only [OrderedAlphabet.lyndonLoop]
    split at h
    · exact absurd h (by simp)
    · next hc =>
      rw [if_neg hc]
      simp only [Option.some.injEq, DuvalExit.done.injEq] at h
      obtain ⟨h1, h2, _, _⟩ := h
      rw [h1, h2]
  | succ fuel ih =>
    intro i j p q i' j' p' q' h
    simp only [OrderedAlphabet.duvalLoop] at h
    simp only [OrderedAlphabet.lyndonLoop]
    split at h
    · next hc =>
      rw [if_pos hc]
      split at h
      · next heq =>
        rw [if_pos heq]
        exact ih _ _ _ _ _ _ _ _ h
      · next heq =>
        rw [if_neg heq]
        split at h
        · exact absurd h (by simp)
        · exact ih _ _ _ _ _ _ _ _ h
    · next hc =>
      rw [if_neg hc]
      simp only [Option.some.injEq, DuvalExit.done.injEq] at h
      obtain ⟨h1, h2, _, _⟩ := h
      rw [h1, h2]

/-- The result of `duvalPP` when it returns `true`, from the exit of its loop. -/
theorem duvalPP_true (A : OrderedAlphabet) (w : List Nat) (s e len nb : Nat)
    (h : A.duvalPP w s e = some (true, len, nb)) :
    (A.order (charAt w s) = 1 ∨ A.order (charAt w s) = 2) ∧
    ∃ i j p q, A.duvalLoop w s e (e - s) s (s + 1) 1 2 = some (.done i j p q) ∧
      i < j ∧ len = j - i ∧ nb = (j - s) / (j - i) := by
  unfold OrderedAlphabet.duvalPP at h
  split at h
  · next hpre =>
    refine ⟨hpre, ?_⟩
    split at h
    · exact absurd h (by simp)
    · exact absurd h (by simp)
    · next i j p q hloop =>
      split at h
      · exact absurd h (by simp)
      · next hij =>
        simp only [Option.some.injEq, Prod.mk.injEq, true_and] at h
        exact ⟨i, j, p, q, hloop, by omega, h.1.symm, h.2.symm⟩
  · exact absurd h (by simp)

/-- C19: whenever `duvalPP` returns `true`, its `(len, nb)` is the `(len, nb)`
returned by `firstLyndonFactor` on the same `(w, s, e)` (for every alphabet,
word and indices). -/
theorem C19_duvalPP_same_factor (A : OrderedAlphabet) (w : List Nat) (s e len nb : Nat)
    (h : A.duvalPP w s e = some (true, len, nb)) :
    A.firstLyndonFactor w s e = some (len, nb) := by
  obtain ⟨_, i, j, p, q, hloop, hij, hlen, hnb⟩ := duvalPP_true A w s e len nb h
  have hl := duvalLoop_lockstep A w s e _ _ _ _ _ _ _ _ _ hloop
  unfold OrderedAlphabet.firstLyndonFactor
  rw [hl]
  simp only
  rw [if_neg (by omega), hlen, hnb]

/-- Witness of C19 on the alphabet `0 < 1 < 2 < 3` and the word `121220`. -/
theorem C19_duvalPP_same_factor_witness :
    OrderedAlphabet.duvalPP ⟨48, 4, [0, 1, 2, 3]⟩ [49, 50, 49, 50, 50, 48] 0 6
      = some (true, 5, 1) ∧
    OrderedAlphabet.firstLyndonFactor ⟨48, 4, [0, 1, 2, 3]⟩ [49, 50, 49, 50, 50, 48] 0 6
      = some (5, 1) :=
  ⟨by decide,
    C19_duvalPP_same_factor ⟨48, 4, [0, 1, 2, 3]⟩ [49, 50, 49, 50, 50, 48] 0 6 5 1
      (by decide)⟩

/-! ## The word is restored by `nextEdge` -/

/-- Writing a letter at the position `s` and then the former letter again
leaves the word as it was. -/
theorem set_restore (w : List Nat) (s a : Nat) : (w.set s a).set s (charAt w s) = w := by
  rw [List.set_set]
  apply List.ext_getElem?
  intro k
  rw [List.getElem?_set]
  split
  · next h =>
    subst h
    split
    · next hs => rw [getElem?_eq_charAt w s hs]
    · next hs => rw [List.getElem?_eq_none (by omega)]
  · rfl

/-- C14: if a call of `nextEdge` returns, the word after the call is the word
before the call, whatever the number of convexity-change patches applied in
between (for every alphabet, word, start and recursion depth). -/
theorem C14_nextEdge_restores_word (fuel : Nat) (A : OrderedAlphabet) (w : List Nat)
    (s : Nat) (cvx : Bool) (r : EdgeResult) (h : nextEdge fuel A w s cvx = some r) :
    r.w = w := by
  induction fuel generalizing A w cvx r with
  | zero => simp [nextEdge] at h
  | succ fuel ih =>
    simp only [nextEdge] at h
    split at h
    · exact absurd h (by simp)
    · split at h
      · exact absurd h (by simp)
      · next r' hr' =>
        have hw := ih _ _ _ _ hr'
        simp only [Option.some.injEq] at h
        rw [← h]
        show r'.w.set s (charAt w s) = w
        rw [hw]
        exact set_restore w s _
    · split at h
      · simp only [Option.some.injEq] at h
        rw [← h]
      · simp only [Option.some.injEq] at h
        rw [← h]

/-- Witness of C14 on the alphabet `0 < 1 < 2 < 3` and the cyclic word `13`: the
call goes through a convexity change, which patches `w[0]`, and returns. -/
theorem C14_nextEdge_restores_word_witness :
    nextEdge 2 ⟨48, 4, [0, 1, 2, 3]⟩ [49, 51] 0 false
      = some ⟨1, 0, 0, ⟨48, 4, [0, 3, 2, 1]⟩, [49, 51], 1, true⟩ ∧
    (⟨1, 0, 0, ⟨48, 4, [0, 3, 2, 1]⟩, [49, 51], 1, true⟩ : EdgeResult).w = [49, 51] :=
  ⟨by decide,
    C14_nextEdge_restores_word 2 ⟨48, 4, [0, 1, 2, 3]⟩ [49, 51] 0 false _ (by decide)⟩

/-! ## The convexity flag -/

/-- C16: `nextEdge` flips `cvx` once for each level of its recursion at which
`duvalPPMod` reported `false`: for a returning call, the number `d` of these
levels is defined, `cvx` on return is `cvx` at entry when `d` is even and its
negation when `d` is odd, and when `duvalPPMod(w, s, s)` reports `true` at entry
`d = 0` and `cvx` on return is `cvx` at entry. -/
theorem C16_nextEdge_cvx (fuel : Nat) (A : OrderedAlphabet) (w : List Nat)
    (s : Nat) (cvx : Bool) (r : EdgeResult) (h : nextEdge fuel A w s cvx = some r) :
    ∃ d, convexityChanges fuel A w s = some d ∧
      r.cvx = (if d % 2 = 1 then !cvx else cvx) ∧
      (∀ len nb, A.duvalPPMod w s s = some (true, len, nb) → d = 0 ∧ r.cvx = cvx) := by
  induction fuel generalizing A w cvx r with
  | zero => simp [nextEdge] at h
  | succ fuel ih =>
    simp only [nextEdge] at h
    simp only [convexityChanges]
    split at h
    · exact absurd h (by simp)
    · next len nb hd =>
      split at h
      · exact absurd h (by simp)
      · next r' hr' =>
        obtain ⟨d, hd1, hd2, _⟩ := ih _ _ _ _ hr'
        simp only [Option.some.injEq] at h
        refine ⟨d + 1, ?_, ?_, ?_⟩
        · rw [hd1]; rfl
        · rw [← h]
          show r'.cvx = _
          rw [hd2]
          rcases Nat.mod_two_eq_zero_or_one d with h0 | h1
          · have e : (d + 1) % 2 = 1 := by omega
            rw [e, if_pos rfl, if_neg (by omega)]
          · have e : (d + 1) % 2 ≠ 1 := by omega
            rw [if_neg e, if_pos h1, Bool.not_not]
        · intro len' nb' h'
          rw [hd] at h'
          simp at h'
    · next len nb hd =>
      have hc : r.cvx = cvx := by
        split at h
        · simp only [Option.some.injEq] at h
          rw [← h]
        · simp only [Option.some.injEq] at h
          rw [← h]
      exact ⟨0, rfl, by simpa using hc, fun _ _ _ => ⟨rfl, hc⟩⟩

/-- Witness of C16 on the cyclic word `13`: one convexity change, `cvx` flipped. -/
theorem C16_nextEdge_cvx_witness :
    ∃ d, convexityChanges 2 ⟨48, 4, [0, 1, 2, 3]⟩ [49, 51] 0 = some d ∧
      (⟨1, 0, 0, ⟨48, 4, [0, 3, 2, 1]⟩, [49, 51], 1, true⟩ : EdgeResult).cvx
        = (if d % 2 = 1 then !false else false) ∧
      (∀ len nb, OrderedAlphabet.duvalPPMod ⟨48, 4, [0, 1, 2, 3]⟩ [49, 51] 0 0
          = some (true, len, nb) →
        d = 0 ∧ (⟨1, 0, 0, ⟨48, 4, [0, 3, 2, 1]⟩, [49, 51], 1, true⟩ : EdgeResult).cvx
          = false) :=
  C16_nextEdge_cvx 2 ⟨48, 4, [0, 1, 2, 3]⟩ [49, 51] 0 false _ (by decide)

/-! ## The full revolution of the cyclic variants

When the cyclic scan comes back to `e = s`, the length `j >= i ? j - i : j +
modulo - i` and the count `(j + modulo - s) % modulo` are computed from `j = s`:
the count is `0` instead of `modulo`, and the length is `0` when `i = s`. -/

/-- The linear `duvalPP` never returns `true` with `nb = 0`. -/
theorem duvalPP_nb_pos (A : OrderedAlphabet) (w : List Nat) (s e len nb : Nat) (hse : s < e)
    (h : A.duvalPP w s e = some (true, len, nb)) : 1 ≤ len ∧ 1 ≤ nb := by
  obtain ⟨_, i, j, p, q, hloop, hij, hlen, hnb⟩ := duvalPP_true A w s e len nb h
  have hl := duvalLoop_lockstep A w s e _ _ _ _ _ _ _ _ _ hloop
  obtain ⟨i', j', h1, h2, h3, _, _, _, _⟩ := lyndonLoop_spec A w s e hse
  rw [hl] at h1
  simp only [Option.some.injEq, Prod.mk.injEq] at h1
  obtain ⟨rfl, rfl⟩ := h1
  obtain ⟨b1, _, _⟩ := repetitions_bound s i j h2 h3
  rw [hlen, hnb]
  exact ⟨by omega, b1⟩

/-- C11 (failing input): on the alphabet `0 < 1 < 2 < 3` and the cyclic word `11`,
whose letters have rank 1, the full-revolution call `duvalPPMod(w, 0, 0)`
returns `true` with `len = 1` and `nb = 0`. -/
theorem C11_duvalPPMod_true_with_nb_zero :
    (⟨48, 4, [0, 1, 2, 3]⟩ : OrderedAlphabet).WellFormed ∧
    (⟨48, 4, [0, 1, 2, 3]⟩ : OrderedAlphabet).IsBijection ∧
    (⟨48, 4, [0, 1, 2, 3]⟩ : OrderedAlphabet).InAlphabet [49, 49] ∧
    (⟨48, 4, [0, 1, 2, 3]⟩ : OrderedAlphabet).order (charAt [49, 49] 0) = 1 ∧
    OrderedAlphabet.duvalPPMod ⟨48, 4, [0, 1, 2, 3]⟩ [49, 49] 0 0 = some (true, 1, 0) :=
  ⟨by decide, by decide, by decide, by decide, by decide⟩

/-- C13 (failing input): on the alphabet `0 < 1 < 2 < 3` and the cyclic word `12`,
the loop of `firstLyndonFactorMod(w, 0, 0)` ends after one iteration with
`i = j = 0`, so that `len = 0` and the division that computes `nb` is by zero;
the same happens on the one-letter word `1`, and in `duvalPPMod` on both words. -/
theorem C13_cyclic_len_zero :
    (⟨48, 4, [0, 1, 2, 3]⟩ : OrderedAlphabet).IsBijection ∧
    (⟨48, 4, [0, 1, 2, 3]⟩ : OrderedAlphabet).InAlphabet [49, 50] ∧
    OrderedAlphabet.lyndonModLoop ⟨48, 4, [0, 1, 2, 3]⟩ [49, 50] 0 0 2 0 1 = some (0, 0) ∧
    cyclicLen 2 0 0 = 0 ∧
    OrderedAlphabet.firstLyndonFactorMod ⟨48, 4, [0, 1, 2, 3]⟩ [49, 50] 0 0 = none ∧
    OrderedAlphabet.firstLyndonFactorMod ⟨48, 4, [0, 1, 2, 3]⟩ [49] 0 0 = none ∧
    OrderedAlphabet.duvalModLoop ⟨48, 4, [0, 1, 2, 3]⟩ [49, 50] 0 0 2 0 1 1 2
      = some (.done 0 0 2 3) ∧
    OrderedAlphabet.duvalPPMod ⟨48, 4, [0, 1, 2, 3]⟩ [49, 50] 0 0 = none ∧
    OrderedAlphabet.duvalPPMod ⟨48, 4, [0, 1, 2, 3]⟩ [49] 0 0 = none :=
  ⟨by decide, by decide, by decide, by decide, by decide, by decide, by decide, by decide,
    by decide⟩

/-- C18 (failing input): on the alphabet `0 < 1 < 2 < 3` and the cyclic word `11`,
`duvalPPMod(w, 0, 0)` returns `true` with `len = 1` and `nb = 0` and
`rank(w[0]) = 1`: `nextEdge` takes the quadrant-change branch and computes
`nb_a2 = nb - 1` on `nb = 0`, which wraps around to `2 ^ 64 - 1`. -/
theorem C18_quadrant_change_wraps :
    OrderedAlphabet.duvalPPMod ⟨48, 4, [0, 1, 2, 3]⟩ [49, 49] 0 0 = some (true, 1, 0) ∧
    (⟨48, 4, [0, 1, 2, 3]⟩ : OrderedAlphabet).order (charAt [49, 49] 0) = 1 ∧
    (nextEdge 1 ⟨48, 4, [0, 1, 2, 3]⟩ [49, 49] 0 false).map (fun r => (r.l, r.nb_a1, r.nb_a2))
      = some (0, 0, 18446744073709551615) :=
  ⟨by decide, by decide, by decide⟩

/-! ## Where `duvalPP` and `duvalPPMod` return `false` -/

/-- Induction principle for the loop of `duvalPPMod`: when the loop returns, a
property `P` of the cursors and counters kept by the two branches that
continue holds at the normal exit, and a property `Q` established where the
loop is left through `return false` holds of the position reported. -/
theorem duvalModLoop_induct (A : OrderedAlphabet) (w : List Nat) (s e : Nat)
    (P : Nat → Nat → Nat → Nat → Prop) (Q : Nat → Prop)
    (hEq : ∀ i j p q, P i j p q → j ≠ e → A.lessOrEqual (charAt w i) (charAt w j) = true →
      A.equal (charAt w i) (charAt w j) = true →
      P (ModuloComputer.next w.length i) (ModuloComputer.next w.length j) p
        (if j = ModuloComputer.cast w.length (ssub (s + q) 1) then uadd q p else q))
    (hNe : ∀ i j p q, P i j p q → j ≠ e → A.lessOrEqual (charAt w i) (charAt w j) = true →
      A.equal (charAt w i) (charAt w j) = false →
      ¬ (j ≠ ModuloComputer.cast w.length (ssub (s + q) 1) ∨ A.order (charAt w j) ≠ 2) →
      P s (ModuloComputer.next w.length j) q (uadd q (usub q p)))
    (hRej : ∀ i j p q, P i j p q → j ≠ e → A.lessOrEqual (charAt w i) (charAt w j) = true →
      A.equal (charAt w i) (charAt w j) = false →
      (j ≠ ModuloComputer.cast w.length (ssub (s + q) 1) ∨ A.order (charAt w j) ≠ 2) → Q j) :
    ∀ fuel i j p q, P i j p q →
      (∀ j', A.duvalModLoop w s e fuel i j p q = some (.notChristoffel j') → Q j') ∧
      (∀ i' j' p' q', A.duvalModLoop w s e fuel i j p q = some (.done i' j' p' q') →
        P i' j' p' q' ∧
        ¬ (j' ≠ e ∧ A.lessOrEqual (charAt w i') (charAt w j') = true)) := by
  intro fuel
  induction fuel with
  | zero =>
    intro i j p q hP
    simp only [OrderedAlphabet.duvalModLoop]
    by_cases hc : j ≠ e ∧ A.lessOrEqual (charAt w i) (charAt w j) = true
    · rw [if_pos hc]
      exact ⟨fun _ h => absurd h (by simp), fun _ _ _ _ h => absurd h (by simp)⟩
    · rw [if_neg hc]
      refine ⟨fun _ h => absurd h (by simp), fun i' j' p' q' h => ?_⟩
      simp only [Option.some.injEq, DuvalExit.done.injEq] at h
      obtain ⟨rfl, rfl, rfl, rfl⟩ := h
      exact ⟨hP, hc⟩
  | succ fuel ih =>
    intro i j p q hP
    simp only [OrderedAlphabet.duvalModLoop]
    by_cases hc : j ≠ e ∧ A.lessOrEqual (charAt w i) (charAt w j) = true
    · rw [if_pos hc]
      by_cases heq : A.equal (charAt w i) (charAt w j) = true
      · rw [if_pos heq]
        exact ih _ _ _ _ (hEq i j p q hP hc.1 hc.2 heq)
      · rw [if_neg heq]
        have heq' : A.equal (charAt w i) (charAt w j) = false := by
          simpa using heq
        by_cases hrej : j ≠ ModuloComputer.cast w.length (ssub (s + q) 1) ∨
            A.order (charAt w j) ≠ 2
        · rw [if_pos hrej]
          refine ⟨fun j' h => ?_, fun _ _ _ _ h => absurd h (by simp)⟩
          simp only [Option.some.injEq, DuvalExit.notChristoffel.injEq] at h
          subst h
          exact hRej i j p q hP hc.1 hc.2 heq' hrej
        · rw [if_neg hrej]
          exact ih _ _ _ _ (hNe i j p q hP hc.1 hc.2 heq' hrej)
    · rw [if_neg hc]
      refine ⟨fun _ h => absurd h (by simp), fun i' j' p' q' h => ?_⟩
      simp only [Option.some.injEq, DuvalExit.done.injEq] at h
      obtain ⟨rfl, rfl, rfl, rfl⟩ := h
      exact ⟨hP, hc⟩

theorem next_lt (m i : Nat) (hm : 0 < m) : ModuloComputer.next m i < m :=
  Nat.mod_lt _ hm

/-- Two letters of the word that differ and are in order have ranks in strict
order. -/
theorem order_lt_of_ne (A : OrderedAlphabet) (w : List Nat) (hwf : A.WellFormed)
    (hb : A.IsBijection) (hin : A.InAlphabet w) (i j : Nat) (hi : i < w.length)
    (hj : j < w.length) (hle : A.lessOrEqual (charAt w i) (charAt w j) = true)
    (hne : A.equal (charAt w i) (charAt w j) = false) :
    charAt w i ≠ charAt w j ∧ A.order (charAt w i) < A.order (charAt w j) := by
  have hne' : charAt w i ≠ charAt w j := by
    simpa [OrderedAlphabet.equal] using hne
  have hle' : A.order (charAt w i) ≤ A.order (charAt w j) := by
    simpa [OrderedAlphabet.lessOrEqual] using hle
  refine ⟨hne', ?_⟩
  rcases Nat.lt_or_ge (A.order (charAt w i)) (A.order (charAt w j)) with h | h
  · exact h
  · exact absurd (order_injective A hwf hb _ _ (hin _ (charAt_mem w i hi))
      (hin _ (charAt_mem w j hj)) (le_antisymm hle' h)) hne'

/-- The position where the loop of `duvalPP` is left through `return false`. -/
theorem duvalLoop_rejected (A : OrderedAlphabet) (w : List Nat) (s e : Nat)
    (hwf : A.WellFormed) (hb : A.IsBijection) (hin : A.InAlphabet w)
    (hse : s < e) (he : e ≤ w.length) (j' : Nat)
    (h : A.duvalLoop w s e (e - s) s (s + 1) 1 2 = some (.notChristoffel j')) :
    s < j' ∧ j' < e ∧ ∃ i p q, DuvalReach A w s e i j' p q ∧ s ≤ i ∧ i < j' ∧
      charAt w i ≠ charAt w j' ∧ A.order (charAt w i) < A.order (charAt w j') ∧
      (j' + 1 ≠ s + q ∨ A.order (charAt w j') ≠ 2) := by
  have hind := duvalLoop_induct A w s e
    (fun i j p q => DuvalReach A w s e i j p q ∧ s ≤ i ∧ i < j ∧ j ≤ e)
    (fun j => s < j ∧ j < e ∧ ∃ i p q, DuvalReach A w s e i j p q ∧ s ≤ i ∧ i < j ∧
      charAt w i ≠ charAt w j ∧ A.order (charAt w i) < A.order (charAt w j) ∧
      (j + 1 ≠ s + q ∨ A.order (charAt w j) ≠ 2))
    (by
      rintro i j p q ⟨hr, h1, h2, _⟩ hje hle heq
      exact ⟨DuvalReach.equal i j p q hr hje
        (by simpa [OrderedAlphabet.lessOrEqual] using hle)
        (by simpa [OrderedAlphabet.equal] using heq), by omega, by omega, by omega⟩)
    (by
      rintro i j p q ⟨hr, h1, h2, _⟩ hje hle hne hcp hr2
      exact ⟨DuvalReach.mediant i j p q hr hje
        (by simpa [OrderedAlphabet.lessOrEqual] using hle)
        (by simpa [OrderedAlphabet.equal] using hne)
        (by rintro (h | h); exact h hcp; exact h hr2), le_refl s, by omega, by omega⟩)
    (by
      rintro i j p q ⟨hr, h1, h2, _⟩ hje hle hne hrej
      have hlt := order_lt_of_ne A w hwf hb hin i j (by omega) (by omega)
        (by simpa [OrderedAlphabet.lessOrEqual] using hle)
        (by simpa [OrderedAlphabet.equal] using hne)
      exact ⟨by omega, hje, i, p, q, hr, h1, h2, hlt.1, hlt.2, hrej⟩)
    (e - s) s (s + 1) 1 2 (by omega)
    ⟨DuvalReach.start, le_refl s, by omega, by omega⟩
  rcases hind with ⟨j'', h1, h2⟩ | ⟨i', j'', p', q', h1, _⟩
  · rw [h] at h1
    simp only [Option.some.injEq, DuvalExit.notChristoffel.injEq] at h1
    subst h1
    exact h2
  · rw [h] at h1
    simp at h1

/-- The position where the loop of `duvalPPMod` is left through `return false`. -/
theorem duvalModLoop_rejected (A : OrderedAlphabet) (w : List Nat) (s e : Nat)
    (hwf : A.WellFormed) (hb : A.IsBijection) (hin : A.InAlphabet w)
    (hs : s < w.length) (j' : Nat)
    (h : A.duvalModLoop w s e w.length s (ModuloComputer.next w.length s) 1 2
      = some (.notChristoffel j')) :
    j' < w.length ∧ ∃ i p q, DuvalModReach A w s e i j' p q ∧ i < w.length ∧
      charAt w i ≠ charAt w j' ∧ A.order (charAt w i) < A.order (charAt w j') ∧
      (j' ≠ ModuloComputer.cast w.length (ssub (s + q) 1) ∨ A.order (charAt w j') ≠ 2) := by
  have hm : 0 < w.length := by omega
  have hind := duvalModLoop_induct A w s e
    (fun i j p q => DuvalModReach A w s e i j p q ∧ i < w.length ∧ j < w.length)
    (fun j => j < w.length ∧ ∃ i p q, DuvalModReach A w s e i j p q ∧ i < w.length ∧
      charAt w i ≠ charAt w j ∧ A.order (charAt w i) < A.order (charAt w j) ∧
      (j ≠ ModuloComputer.cast w.length (ssub (s + q) 1) ∨ A.order (charAt w j) ≠ 2))
    (by
      rintro i j p q ⟨hr, _, _⟩ hje hle heq
      exact ⟨DuvalModReach.equal i j p q hr hje hle heq, next_lt _ _ hm, next_lt _ _ hm⟩)
    (by
      rintro i j p q ⟨hr, _, _⟩ hje hle hne hacc
      exact ⟨DuvalModReach.mediant i j p q hr hje hle hne hacc, hs, next_lt _ _ hm⟩)
    (by
      rintro i j p q ⟨hr, h1, h2⟩ hje hle hne hrej
      have hlt := order_lt_of_ne A w hwf hb hin i j h1 h2 hle hne
      exact ⟨h2, i, p, q, hr, h1, hlt.1, hlt.2, hrej⟩)
    w.length s (ModuloComputer.next w.length s) 1 2
    ⟨DuvalModReach.start, hs, next_lt _ _ hm⟩
  exact hind.1 j' h

/-- C12: for an alphabet with bijective order and a word `w` over it, whenever
`duvalPP` (with `s < e ≤ |w|`) or `duvalPPMod` (with `s < |w|`) returns `false`,
`nb` is reported as `0` and `len` is the position `j` of the scanned letter at
which the failing mismatch was found: the loop was in a state `(i, j, p, q)`
with `w[i] ≠ w[j]`, `rank(w[i]) < rank(w[j])` and (`j` is not the expected
position, `j + 1 ≠ s + q`, in the cyclic form `j ≠ (s + q - 1) mod |w|`, or
`rank(w[j]) ≠ 2`); for `duvalPP` this `j` satisfies `s < j < e`. -/
theorem C12_false_reports_mismatch (A : OrderedAlphabet) (w : List Nat) (s e : Nat)
    (hwf : A.WellFormed) (hb : A.IsBijection) (hin : A.InAlphabet w) (hs : s < w.length) :
    (s < e → e ≤ w.length → ∀ len nb, A.duvalPP w s e = some (false, len, nb) →
      nb = 0 ∧ s < len ∧ len < e ∧ ∃ i p q, DuvalReach A w s e i len p q ∧
        s ≤ i ∧ i < len ∧ charAt w i ≠ charAt w len ∧
        A.order (charAt w i) < A.order (charAt w len) ∧
        (len + 1 ≠ s + q ∨ A.order (charAt w len) ≠ 2)) ∧
    (∀ len nb, A.duvalPPMod w s e = some (false, len, nb) →
      nb = 0 ∧ len < w.length ∧ ∃ i p q, DuvalModReach A w s e i len p q ∧
        i < w.length ∧ charAt w i ≠ charAt w len ∧
        A.order (charAt w i) < A.order (charAt w len) ∧
        (len ≠ ModuloComputer.cast w.length (ssub (s + q) 1) ∨
          A.order (charAt w len) ≠ 2)) := by
  constructor
  · intro hse he len nb h
    unfold OrderedAlphabet.duvalPP at h
    split at h
    · split at h
      · exact absurd h (by simp)
      · next j' hloop =>
        simp only [Option.some.injEq, Prod.mk.injEq, true_and] at h
        obtain ⟨rfl, rfl⟩ := h
        have hr := duvalLoop_rejected A w s e hwf hb hin hse he j' hloop
        exact ⟨rfl, hr.1, hr.2.1, hr.2.2⟩
      · split at h
        · exact absurd h (by simp)
        · simp at h
    · exact absurd h (by simp)
  · intro len nb h
    unfold OrderedAlphabet.duvalPPMod at h
    split at h
    · split at h
      · exact absurd h (by simp)
      · next j' hloop =>
        simp only [Option.some.injEq, Prod.mk.injEq, true_and] at h
        obtain ⟨rfl, rfl⟩ := h
        have hr := duvalModLoop_rejected A w s e hwf hb hin hs j' hloop
        exact ⟨rfl, hr.1, hr.2⟩
      · split at h
        · exact absurd h (by simp)
        · simp at h
    · exact absurd h (by simp)

/-- Witness of C12 on the alphabet `0 < 1 < 2 < 3` and the word `1122`: the
linear and the cyclic scans both return `false` with `len = 3`. -/
theorem C12_false_reports_mismatch_witness :
    OrderedAlphabet.duvalPP ⟨48, 4, [0, 1, 2, 3]⟩ [49, 49, 50, 50] 0 4 = some (false, 3, 0) ∧
    OrderedAlphabet.duvalPPMod ⟨48, 4, [0, 1, 2, 3]⟩ [49, 49, 50, 50] 0 0
      = some (false, 3, 0) ∧
    (0 = 0 ∧ 0 < 3 ∧ 3 < 4 ∧ ∃ i p q,
      DuvalReach ⟨48, 4, [0, 1, 2, 3]⟩ [49, 49, 50, 50] 0 4 i 3 p q ∧
        0 ≤ i ∧ i < 3 ∧ charAt [49, 49, 50, 50] i ≠ charAt [49, 49, 50, 50] 3 ∧
        (⟨48, 4, [0, 1, 2, 3]⟩ : OrderedAlphabet).order (charAt [49, 49, 50, 50] i)
          < (⟨48, 4, [0, 1, 2, 3]⟩ : OrderedAlphabet).order (charAt [49, 49, 50, 50] 3) ∧
        (3 + 1 ≠ 0 + q ∨
          (⟨48, 4, [0, 1, 2, 3]⟩ : OrderedAlphabet).order (charAt [49, 49, 50, 50] 3) ≠ 2)) :=
  ⟨by decide, by decide,
    (C12_false_reports_mismatch ⟨48, 4, [0, 1, 2, 3]⟩ [49, 49, 50, 50] 0 4
      (by decide) (by decide) (by decide) (by decide)).1 (by decide) (by decide) 3 0
      (by decide)⟩

/-! ## The cyclic scan of `duvalPPMod(w, s, s)` -/

theorem mod_of_lt_two_mul (x m : Nat) (h : x < 2 * m) :
    x % m = if x < m then x else x - m := by
  split
  · next hlt => exact Nat.mod_eq_of_lt hlt
  · next hge =>
    rw [Nat.mod_eq_sub_mod (by omega), Nat.mod_eq_of_lt (by omega)]

/-- The cyclic cursors of `duvalPPMod(w, s, s)` are the residues of linear
cursors `I`, `J` with `s ≤ I < J ≤ s + |w|`, moving on the unrolled word
`t ↦ w[t mod |w|]`: the factor read has period `J - I` and its letters have
rank 1 or 2. -/
theorem duvalModLoop_scan (A : OrderedAlphabet) (w : List Nat) (s : Nat)
    (hs : s < w.length)
    (hpre : A.order (charAt w s) = 1 ∨ A.order (charAt w s) = 2) (i j p q : Nat)
    (h : A.duvalModLoop w s s w.length s (ModuloComputer.next w.length s) 1 2
      = some (.done i j p q)) :
    ∃ I J, s ≤ I ∧ I < J ∧ J ≤ s + w.length ∧ i = I % w.length ∧ j = J % w.length ∧
      (∀ t, s ≤ t → t < I →
        charAt w (t % w.length) = charAt w ((t + (J - I)) % w.length)) ∧
      (∀ t, s ≤ t → t < J →
        A.order (charAt w (t % w.length)) = 1 ∨ A.order (charAt w (t % w.length)) = 2) := by
  have hm : 0 < w.length := by omega
  have hsm : s % w.length = s := Nat.mod_eq_of_lt hs
  have hwrap : (s + w.length) % w.length = s := by
    rw [Nat.add_mod_right, hsm]
  have hind := duvalModLoop_induct A w s s
    (fun i j _ _ => ∃ I J, s ≤ I ∧ I < J ∧ J ≤ s + w.length ∧ i = I % w.length ∧
      j = J % w.length ∧
      (∀ t, s ≤ t → t < I →
        charAt w (t % w.length) = charAt w ((t + (J - I)) % w.length)) ∧
      (∀ t, s ≤ t → t < J →
        A.order (charAt w (t % w.length)) = 1 ∨ A.order (charAt w (t % w.length)) = 2))
    (fun _ => True)
    (by
      rintro i j p q ⟨I, J, h1, h2, h3, hi, hj, hper, hrk⟩ hje _ heq
      have heq' : charAt w i = charAt w j := by
        simpa [OrderedAlphabet.equal] using heq
      have hJ : J < s + w.length := by
        rcases Nat.lt_or_ge J (s + w.length) with h | h
        · exact h
        · have e : J = s + w.length := by omega
          rw [e, hwrap] at hj
          exact absurd hj hje
      refine ⟨I + 1, J + 1, by omega, by omega, by omega, ?_, ?_, ?_, ?_⟩
      · rw [hi]; exact Nat.mod_add_mod _ _ _
      · rw [hj]; exact Nat.mod_add_mod _ _ _
      · intro t ht1 ht2
        have e1 : J + 1 - (I + 1) = J - I := by omega
        rw [e1]
        rcases Nat.lt_or_ge t I with hlt | hge
        · exact hper t ht1 hlt
        · have e2 : t = I := by omega
          have e3 : I + (J - I) = J := by omega
          rw [e2, e3, ← hi, ← hj]
          exact heq'
      · intro t ht1 ht2
        rcases Nat.lt_or_ge t J with hlt | hge
        · exact hrk t ht1 hlt
        · have e2 : t = J := by omega
          rw [e2, ← hj, ← heq', hi]
          exact hrk I h1 h2)
    (by
      rintro i j p q ⟨I, J, h1, h2, h3, hi, hj, hper, hrk⟩ hje _ _ hacc
      have hr2 : A.order (charAt w j) = 2 := by
        by_contra hne
        exact hacc (Or.inr hne)
      have hJ : J < s + w.length := by
        rcases Nat.lt_or_ge J (s + w.length) with h | h
        · exact h
        · have e : J = s + w.length := by omega
          rw [e, hwrap] at hj
          exact absurd hj hje
      refine ⟨s, J + 1, le_refl s, by omega, by omega, hsm.symm, ?_, ?_, ?_⟩
      · rw [hj]; exact Nat.mod_add_mod _ _ _
      · intro t ht1 ht2
        omega
      · intro t ht1 ht2
        rcases Nat.lt_or_ge t J with hlt | hge
        · exact hrk t ht1 hlt
        · have e2 : t = J := by omega
          rw [e2, ← hj, hr2]
          exact Or.inr rfl)
    (fun _ _ _ _ _ _ _ _ _ => trivial)
    w.length s (ModuloComputer.next w.length s) 1 2
    ⟨s, s + 1, le_refl s, by omega, by omega, hsm.symm, rfl,
      fun t h1 h2 => by omega,
      fun t h1 h2 => by
        have e : t = s := by omega
        rw [e, hsm]
        exact hpre⟩
  exact (hind.2 i j p q h).1

/-- The values `len` and `nb` computed by `duvalPPMod(w, s, s)` from the cyclic
cursors, in terms of the linear cursors. -/
theorem cyclic_len_nb (m s I J : Nat) (hs : s < m) (h1 : s ≤ I) (h2 : I < J)
    (h3 : J ≤ s + m) (hlen : cyclicLen m (I % m) (J % m) ≠ 0) :
    cyclicLen m (I % m) (J % m) = J - I ∧
    ((J % m + m - s) % m = J - s ∨ (J % m + m - s) % m = 0) := by
  have hI := mod_of_lt_two_mul I m (by omega)
  have hJ := mod_of_lt_two_mul J m (by omega)
  have hlen' : cyclicLen m (I % m) (J % m) = J - I := by
    unfold cyclicLen at hlen ⊢
    rw [hI, hJ] at hlen ⊢
    by_cases hIm : I < m
    · by_cases hJm : J < m
      · rw [if_pos hIm, if_pos hJm] at hlen ⊢
        rw [if_pos (by omega)]
      · rw [if_pos hIm, if_neg hJm] at hlen ⊢
        by_cases hge : J - m ≥ I
        · rw [if_pos hge] at hlen
          omega
        · rw [if_neg hge]
          omega
    · have hJm : ¬ J < m := by omega
      rw [if_neg hIm, if_neg hJm] at hlen ⊢
      rw [if_pos (by omega)]
      omega
  refine ⟨hlen', ?_⟩
  rw [hJ]
  by_cases hJm : J < m
  · left
    rw [if_pos hJm]
    have e : J + m - s = (J - s) + m := by omega
    rw [e, Nat.add_mod_right, Nat.mod_eq_of_lt (by omega)]
  · rw [if_neg hJm]
    have e : J - m + m - s = J - s := by omega
    rw [e]
    rcases Nat.lt_or_ge (J - s) m with h | h
    · left; exact Nat.mod_eq_of_lt h
    · right
      have e2 : J - s = m := by omega
      rw [e2, Nat.mod_self]

/-! ## The standard convex case of `nextEdge` -/

theorem cyclicRead_length (w : List Nat) (s l : Nat) : (cyclicRead w s l).length = l := by
  simp [cyclicRead]

theorem getElem?_cyclicRead (w : List Nat) (s l k : Nat) (hk : k < l) :
    (cyclicRead w s l)[k]? = some (charAt w ((s + k) % w.length)) := by
  simp [cyclicRead, List.getElem?_map, List.getElem?_range hk]

theorem charAt_cyclicRead (w : List Nat) (s l k : Nat) (hk : k < l) :
    charAt (cyclicRead w s l) k = charAt w ((s + k) % w.length) := by
  unfold charAt
  rw [List.getD_eq_getElem?_getD, getElem?_cyclicRead w s l k hk]
  rfl

theorem cyclicRead_succ (w : List Nat) (s l : Nat) :
    cyclicRead w s (l + 1)
      = charAt w (s % w.length) :: cyclicRead w (ModuloComputer.next w.length s) l := by
  apply List.ext_getElem?
  intro k
  cases k with
  | zero =>
    rw [getElem?_cyclicRead w s (l + 1) 0 (by omega), Nat.add_zero, List.getElem?_cons_zero]
  | succ k =>
    rw [List.getElem?_cons_succ]
    rcases Nat.lt_or_ge k l with hlt | hge
    · rw [getElem?_cyclicRead w s (l + 1) (k + 1) (by omega),
        getElem?_cyclicRead w _ l k hlt]
      unfold ModuloComputer.next
      rw [Nat.mod_add_mod]
      congr 3
      omega
    · rw [List.getElem?_eq_none (by rw [cyclicRead_length]; omega),
        List.getElem?_eq_none (by rw [cyclicRead_length]; omega)]

/-- The counting loop of `nextEdge` counts the occurrences of `a2` among the
`len` letters read cyclically from `ss`. -/
theorem countLoop_eq (w : List Nat) (a2 : Nat) :
    ∀ len ss acc, ss < w.length →
      countLoop w a2 len ss acc
        = acc + (cyclicRead w ss len).countP (fun x => decide (x = a2)) := by
  intro len
  induction len with
  | zero => intro ss acc _; simp [countLoop, cyclicRead]
  | succ len ih =>
    intro ss acc hss
    have hm : 0 < w.length := by omega
    rw [cyclicRead_succ, List.countP_cons, Nat.mod_eq_of_lt hss]
    simp only [countLoop]
    rw [ih _ _ (next_lt _ _ hm)]
    by_cases hc : charAt w ss = a2
    · rw [if_pos hc]
      simp only [hc, decide_True, if_true]
      omega
    · rw [if_neg hc]
      simp only [hc, decide_False]
      simp

theorem take_drop_cyclicRead (w : List Nat) (N s n : Nat) (h : s + n ≤ N) :
    ((cyclicRead w 0 N).drop s).take n = cyclicRead w s n := by
  apply List.ext_getElem?
  intro k
  rcases Nat.lt_or_ge k n with hlt | hge
  · rw [List.getElem?_take_of_lt hlt, List.getElem?_drop,
      getElem?_cyclicRead w 0 N (s + k) (by omega), getElem?_cyclicRead w s n k hlt,
      Nat.zero_add]
  · rw [List.getElem?_eq_none (by rw [List.length_take]; omega),
      List.getElem?_eq_none (by rw [cyclicRead_length]; omega)]

theorem countP_flatten_replicate (p : Nat → Bool) (u : List Nat) (nb : Nat) :
    (List.replicate nb u).flatten.countP p = nb * u.countP p := by
  induction nb with
  | zero => simp
  | succ nb ih =>
    rw [List.replicate_succ, List.flatten_cons, List.countP_append, ih, Nat.succ_mul]
    omega

/-- In a bijective alphabet the letter of rank `r < n` has rank `r`. -/
theorem order_letter (A : OrderedAlphabet) (hwf : A.WellFormed) (hb : A.IsBijection)
    (r : Nat) (hr : r < A.myNb) : A.order (A.letter r) = r := by
  obtain ⟨h1, h2, _⟩ := letter_of_rank A hwf hb r hr
  unfold OrderedAlphabet.order OrderedAlphabet.letter toChar
  rw [Nat.mod_eq_of_lt (by have := hwf.2; omega)]
  have e : A.myFirst + List.indexOf r A.myOrder - A.myFirst = List.indexOf r A.myOrder := by
    omega
  rw [e, List.getD_eq_getElem?_getD, h2]
  rfl

/-- What a `true` result of `duvalPPMod(w, s, s)` says of the word: with linear
cursors `s ≤ I < J ≤ s + |w|` on the unrolled word, `len = J - I`, the `len * nb`
letters counted lie before `J`, the factor read has period `len` and its
letters have rank 1 or 2. -/
theorem duvalPPMod_true_scan (A : OrderedAlphabet) (w : List Nat) (s len nb : Nat)
    (hs : s < w.length) (hd : A.duvalPPMod w s s = some (true, len, nb)) :
    ∃ I J, s ≤ I ∧ I < J ∧ J ≤ s + w.length ∧ len = J - I ∧ len * nb ≤ J - s ∧
      (∀ t, s ≤ t → t < I →
        charAt w (t % w.length) = charAt w ((t + (J - I)) % w.length)) ∧
      (∀ t, s ≤ t → t < J →
        A.order (charAt w (t % w.length)) = 1 ∨ A.order (charAt w (t % w.length)) = 2) := by
  unfold OrderedAlphabet.duvalPPMod at hd
  split at hd
  · next hpre =>
    split at hd
    · exact absurd hd (by simp)
    · exact absurd hd (by simp)
    · next i j p q hloop =>
      split at hd
      · exact absurd hd (by simp)
      · next hlen =>
        simp only [Option.some.injEq, Prod.mk.injEq, true_and] at hd
        obtain ⟨hl, hnb⟩ := hd
        obtain ⟨I, J, h1, h2, h3, hi, hj, hper, hrk⟩ :=
          duvalModLoop_scan A w s hs hpre i j p q hloop
        rw [hi, hj] at hlen hl hnb
        obtain ⟨c1, c2⟩ := cyclic_len_nb w.length s I J hs h1 h2 h3 hlen
        rw [c1] at hl hnb
        refine ⟨I, J, h1, h2, h3, hl.symm, ?_, hper, hrk⟩
        rw [← hl, ← hnb]
        rcases c2 with c2 | c2
        · rw [c2]
          exact Nat.mul_div_le _ _
        · rw [c2, Nat.zero_div]
          omega
  · exact absurd hd (by simp)

/-- The letters counted by `nextEdge` in its standard case: `nb` copies of the
block of `len` letters, all of rank 1 or 2 and in the word. -/
theorem standard_case_letters (A : OrderedAlphabet) (w : List Nat) (s len nb : Nat)
    (hs : s < w.length) (hd : A.duvalPPMod w s s = some (true, len, nb)) :
    cyclicRead w s (len * nb) = (List.replicate nb (cyclicRead w s len)).flatten ∧
    ∀ x ∈ cyclicRead w s len, x ∈ w ∧ (A.order x = 1 ∨ A.order x = 2) := by
  obtain ⟨I, J, h1, h2, h3, hl, hnb, hper, hrk⟩ := duvalPPMod_true_scan A w s len nb hs hd
  have hm : 0 < w.length := by omega
  have hW : ∀ k, k < s + w.length →
      charAt (cyclicRead w 0 (s + w.length)) k = charAt w (k % w.length) := by
    intro k hk
    rw [charAt_cyclicRead w 0 _ k hk, Nat.zero_add]
  have hper' : Periodic (cyclicRead w 0 (s + w.length)) s I J := by
    intro t ht1 ht2
    rw [hW t (by omega), hW _ (by omega)]
    exact hper t ht1 ht2
  have hcopies := periodic_copies (cyclicRead w 0 (s + w.length)) s I J h1 h2 hper'
    (by rw [cyclicRead_length]; exact h3) nb (by rw [← hl]; omega)
  rw [← hl, take_drop_cyclicRead w _ s _ (by omega),
    take_drop_cyclicRead w _ s _ (by omega)] at hcopies
  refine ⟨hcopies, ?_⟩
  intro x hx
  obtain ⟨k, hk, rfl⟩ := List.mem_iff_getElem.1 hx
  rw [cyclicRead_length] at hk
  have hget : (cyclicRead w s len)[k] = charAt w ((s + k) % w.length) := by
    have h := getElem?_cyclicRead w s len k hk
    rw [List.getElem?_eq_getElem (by rw [cyclicRead_length]; exact hk)] at h
    exact Option.some.inj h
  rw [hget]
  exact ⟨charAt_mem w _ (Nat.mod_lt _ hm), hrk (s + k) (by omega) (by omega)⟩

/-- C17: standard convex case of `nextEdge`. When `duvalPPMod(w, s, s)` returns
`true` with `(len, nb)` and not (`len == 1` and `rank(w[s]) == 1`), `nextEdge`
returns `l = len * nb`, leaves the alphabet and `cvx` unchanged, and returns
`nb_a1 = (len - count_a2) * nb` and `nb_a2 = count_a2 * nb`, where `count_a2` is
the number of occurrences of the letter of rank 2 among the `len` letters read
cyclically from `s`; hence `nb_a1 + nb_a2 = l`, and `nb_a1`, `nb_a2` are the
numbers of letters of rank 1 and of rank 2 among the `l` letters of the edge
read cyclically from `s`. -/
theorem C17_standard_convex_case (fuel : Nat) (A : OrderedAlphabet) (w : List Nat)
    (s : Nat) (cvx : Bool) (len nb : Nat)
    (hwf : A.WellFormed) (hn : 3 ≤ A.myNb) (hb : A.IsBijection) (hin : A.InAlphabet w)
    (hs : s < w.length) (hsz : w.length < sizeSize)
    (hd : A.duvalPPMod w s s = some (true, len, nb))
    (hstd : ¬ (len = 1 ∧ A.order (charAt w s) = 1)) :
    ∃ r, nextEdge (fuel + 1) A w s cvx = some r ∧
      r.l = len * nb ∧ r.alphabet = A ∧ r.cvx = cvx ∧
      (cyclicRead w s len).countP (fun x => decide (x = A.letter 2)) ≤ len ∧
      r.nb_a1 = (len - (cyclicRead w s len).countP (fun x => decide (x = A.letter 2))) * nb ∧
      r.nb_a2 = (cyclicRead w s len).countP (fun x => decide (x = A.letter 2)) * nb ∧
      r.nb_a1 + r.nb_a2 = r.l ∧
      r.nb_a1 = (cyclicRead w s (len * nb)).countP (fun x => decide (A.order x = 1)) ∧
      r.nb_a2 = (cyclicRead w s (len * nb)).countP (fun x => decide (A.order x = 2)) := by
  obtain ⟨hcopies, hletters⟩ := standard_case_letters A w s len nb hs hd
  obtain ⟨I, J, h1, h2, h3, hl, _, _, _⟩ := duvalPPMod_true_scan A w s len nb hs hd
  have hlenm : len ≤ w.length := by omega
  have hcl := cyclicRead_length w s len
  have hc_le : (cyclicRead w s len).countP (fun x => decide (x = A.letter 2)) ≤ len := by
    have := List.countP_le_length (fun x => decide (x = A.letter 2)) (l := cyclicRead w s len)
    rw [hcl] at this
    exact this
  -- on the block, being the letter of rank 2 is having rank 2
  have h2eq : (cyclicRead w s len).countP (fun x => decide (A.order x = 2))
      = (cyclicRead w s len).countP (fun x => decide (x = A.letter 2)) := by
    apply List.countP_congr
    intro x hx
    simp only [decide_eq_true_eq]
    constructor
    · intro h
      rw [← h, letter_order A hwf hb x (hin x (hletters x hx).1)]
    · intro h
      rw [h]
      exact order_letter A hwf hb 2 (by omega)
  have h1eq : (cyclicRead w s len).countP (fun x => decide (A.order x = 1))
      = len - (cyclicRead w s len).countP (fun x => decide (x = A.letter 2)) := by
    have h := List.length_eq_countP_add_countP (p := fun x => decide (A.order x = 2))
      (cyclicRead w s len)
    have hcongr : (cyclicRead w s len).countP (fun x => decide (A.order x = 1))
        = (cyclicRead w s len).countP (fun x => decide ¬ (decide (A.order x = 2) = true)) := by
      apply List.countP_congr
      intro x hx
      rcases (hletters x hx).2 with h1 | h2
      · simp [h1]
      · simp [h2]
    rw [hcongr]
    rw [hcl, h2eq] at h
    omega
  have hssub : ssub len ((cyclicRead w s len).countP (fun x => decide (x = A.letter 2)))
      = len - (cyclicRead w s len).countP (fun x => decide (x = A.letter 2)) := by
    unfold ssub
    unfold sizeSize at hsz ⊢
    omega
  refine ⟨⟨len * nb,
    (len - (cyclicRead w s len).countP (fun x => decide (x = A.letter 2))) * nb,
    (cyclicRead w s len).countP (fun x => decide (x = A.letter 2)) * nb, A, w,
    ModuloComputer.cast w.length (s + len * nb), cvx⟩, ?_, rfl, rfl, rfl, hc_le, rfl, rfl,
    ?_, ?_, ?_⟩
  · simp only [nextEdge, hd]
    rw [if_neg hstd, countLoop_eq w _ len s 0 hs, Nat.zero_add, hssub]
  · show (len - _) * nb + _ * nb = len * nb
    rw [← Nat.add_mul]
    congr 1
    omega
  · show (len - _) * nb = _
    rw [hcopies, countP_flatten_replicate, h1eq, Nat.mul_comm]
  · show _ * nb = _
    rw [hcopies, countP_flatten_replicate, h2eq, Nat.mul_comm]

/-- Witness of C17 on the alphabet `0 < 1 < 2 < 3` and the cyclic word `1212203`:
the edge from `s = 0` is the block `12122`, with 2 letters of rank 1 and 3
letters of rank 2. -/
theorem C17_standard_convex_case_witness :
    OrderedAlphabet.duvalPPMod ⟨48, 4, [0, 1, 2, 3]⟩ [49, 50, 49, 50, 50, 48, 51] 0 0
      = some (true, 5, 1) ∧
    ∃ r, nextEdge 1 ⟨48, 4, [0, 1, 2, 3]⟩ [49, 50, 49, 50, 50, 48, 51] 0 false = some r ∧
      r.l = 5 * 1 ∧ r.alphabet = ⟨48, 4, [0, 1, 2, 3]⟩ ∧ r.cvx = false ∧
      (cyclicRead [49, 50, 49, 50, 50, 48, 51] 0 5).countP
        (fun x => decide (x = OrderedAlphabet.letter ⟨48, 4, [0, 1, 2, 3]⟩ 2)) ≤ 5 ∧
      r.nb_a1 = (5 - (cyclicRead [49, 50, 49, 50, 50, 48, 51] 0 5).countP
        (fun x => decide (x = OrderedAlphabet.letter ⟨48, 4, [0, 1, 2, 3]⟩ 2))) * 1 ∧
      r.nb_a2 = (cyclicRead [49, 50, 49, 50, 50, 48, 51] 0 5).countP
        (fun x => decide (x = OrderedAlphabet.letter ⟨48, 4, [0, 1, 2, 3]⟩ 2)) * 1 ∧
      r.nb_a1 + r.nb_a2 = r.l ∧
      r.nb_a1 = (cyclicRead [49, 50, 49, 50, 50, 48, 51] 0 (5 * 1)).countP
        (fun x => decide (OrderedAlphabet.order ⟨48, 4, [0, 1, 2, 3]⟩ x = 1)) ∧
      r.nb_a2 = (cyclicRead [49, 50, 49, 50, 50, 48, 51] 0 (5 * 1)).countP
        (fun x => decide (OrderedAlphabet.order ⟨48, 4, [0, 1, 2, 3]⟩ x = 2)) :=
  ⟨by decide,
    C17_standard_convex_case 0 ⟨48, 4, [0, 1, 2, 3]⟩ [49, 50, 49, 50, 50, 48, 51] 0 false 5 1
      (by decide) (by decide) (by decide) (by decide) (by decide)
      (by unfold sizeSize; decide) (by decide) (by decide)⟩

/-! ## Prefixes of Christoffel words -/

/-- The Christoffel pattern is periodic. -/
theorem chrLetter_add_period (a b k : Nat) (hn : 0 < a + b) :
    chrLetter a b (k + (a + b)) = chrLetter a b k := by
  unfold chrLetter
  have e1 : (k + (a + b) + 1) * b = (k + 1) * b + (a + b) * b := by ring
  have e2 : (k + (a + b)) * b = k * b + (a + b) * b := by ring
  rw [e1, e2, Nat.add_mul_div_left _ _ hn, Nat.add_mul_div_left _ _ hn]
  have e3 : (k + 1) * b / (a + b) + b = k * b / (a + b) + b + 1 ↔
      (k + 1) * b / (a + b) = k * b / (a + b) + 1 := by omega
  simp only [e3]

/-- One step of the integer parts `⌊k b / (a + b)⌋`. -/
theorem floor_step (a b k : Nat) (hn : 0 < a + b) :
    ((k + 1) * b) / (a + b)
      = (k * b) / (a + b) + (if chrLetter a b k = 2 then 1 else 0) := by
  have hmono : (k * b) / (a + b) ≤ ((k + 1) * b) / (a + b) :=
    Nat.div_le_div_right (Nat.mul_le_mul_right _ (by omega))
  have hup : ((k + 1) * b) / (a + b) ≤ (k * b) / (a + b) + 1 := by
    have h1 : (k + 1) * b ≤ k * b + (a + b) := by rw [Nat.succ_mul]; omega
    have h2 := Nat.div_le_div_right (c := a + b) h1
    rw [Nat.add_div_right _ hn] at h2
    exact h2
  unfold chrLetter
  by_cases hc : ((k + 1) * b) / (a + b) = (k * b) / (a + b) + 1
  · rw [if_pos hc, if_pos rfl, hc]
  · rw [if_neg hc, if_neg (by decide)]
    omega

/-- Two Christoffel patterns that agree on the positions below `m` have the
same integer parts up to `m`. -/
theorem floor_agree (a b a' b' m : Nat) (hn : 0 < a + b) (hn' : 0 < a' + b')
    (h : ∀ k, k < m → chrLetter a' b' k = chrLetter a b k) :
    ∀ t, t ≤ m → (t * b') / (a' + b') = (t * b) / (a + b) := by
  intro t
  induction t with
  | zero => intro _; simp
  | succ t ih =>
    intro ht
    rw [floor_step a' b' t hn', floor_step a b t hn, ih (by omega), h t (by omega)]

/-- A function whose first `a + b` values follow the Christoffel pattern and
which has period `a + b` below `m` follows the pattern below `m`. -/
theorem chrFn_extend (f : Nat → Nat) (a b m : Nat) (hn : 0 < a + b) (hf : ChrFn f a b)
    (hper : ∀ t, t + (a + b) < m → f (t + (a + b)) = f t) :
    ∀ k, k < m → f k = chrLetter a b k := by
  intro k
  induction k using Nat.strong_induction_on with
  | _ k ih =>
    intro hk
    rcases Nat.lt_or_ge k (a + b) with hlt | hge
    · exact hf k hlt
    · have e : k = (k - (a + b)) + (a + b) := by omega
      rw [e, hper _ (by omega), chrLetter_add_period _ _ _ hn]
      exact ih _ (by omega) (by omega)

/-- The arithmetic of a mismatch off the checkpoints: the integer parts of a
slope `n2 / N` cannot agree with those of `b / p` at `t0` (where `t0 b ≡ -1`
modulo `p`) and at `δ < p` and exceed them at `t0 + δ`. -/
theorem no_early_mismatch (p b N n2 t0 δ E : Nat) (hN : 0 < N)
    (ht0 : t0 * b + 1 = E * p) (hδ0 : 0 < δ) (hδ : δ < p) (hcop : Nat.Coprime p b)
    (h1 : (t0 * n2) / N = (t0 * b) / p) (h2 : (δ * n2) / N = (δ * b) / p)
    (h3 : ((t0 + δ) * n2) / N = ((t0 + δ) * b) / p + 1) : False := by
  have hp : 0 < p := by omega
  have hE : 1 ≤ E := by
    rcases Nat.eq_zero_or_pos E with h0 | h0
    · rw [h0] at ht0; simp at ht0
    · exact h0
  -- the remainder of `δ b` modulo `p` is not zero
  have hrem : 1 ≤ (δ * b) % p := by
    rcases Nat.eq_zero_or_pos ((δ * b) % p) with h0 | h0
    · exfalso
      have hdvd : p ∣ δ * b := Nat.dvd_of_mod_eq_zero h0
      have hdvd' : p ∣ δ := hcop.dvd_of_dvd_mul_right hdvd
      have := Nat.le_of_dvd hδ0 hdvd'
      omega
    · exact h0
  have hremlt : (δ * b) % p < p := Nat.mod_lt _ hp
  have hdm : (δ * b) % p + (δ * b) / p * p = δ * b := Nat.mod_add_div' _ _
  -- the integer parts for the slope `b / p`
  have hG0 : (t0 * b) / p = E - 1 := by
    apply Nat.div_eq_of_lt_le
    · have e : (E - 1) * p = E * p - p := by rw [Nat.sub_mul, Nat.one_mul]
      omega
    · have e : (E - 1 + 1) * p = E * p := by rw [Nat.sub_add_cancel hE]
      omega
  have hGT : ((t0 + δ) * b) / p = E + (δ * b) / p := by
    have e : (t0 + δ) * b = t0 * b + δ * b := Nat.add_mul _ _ _
    apply Nat.div_eq_of_lt_le
    · have e2 : (E + (δ * b) / p) * p = E * p + (δ * b) / p * p := Nat.add_mul _ _ _
      omega
    · have e2 : (E + (δ * b) / p + 1) * p = E * p + (δ * b) / p * p + p := by ring
      omega
  -- the three inequalities for the slope `n2 / N`
  have i1 : t0 * n2 < E * N := by
    have : (t0 * n2) / N < E := by rw [h1, hG0]; omega
    exact (Nat.div_lt_iff_lt_mul hN).1 this
  have i2 : δ * n2 < ((δ * b) / p + 1) * N := by
    have : (δ * n2) / N < (δ * b) / p + 1 := by rw [h2]; omega
    exact (Nat.div_lt_iff_lt_mul hN).1 this
  have i3 : (E + (δ * b) / p + 1) * N ≤ (t0 + δ) * n2 := by
    have : E + (δ * b) / p + 1 ≤ ((t0 + δ) * n2) / N := by rw [h3, hGT]
    exact (Nat.le_div_iff_mul_le hN).1 this
  have e3 : (t0 + δ) * n2 = t0 * n2 + δ * n2 := Nat.add_mul _ _ _
  have e4 : (E + (δ * b) / p + 1) * N = E * N + ((δ * b) / p + 1) * N := by ring
  omega

/-! ## The loop of `duvalPP` on words of fewer than `2 ^ 32` letters -/

theorem duvalInvQ_init (A : OrderedAlphabet) (w : List Nat) (s e : Nat) (hse : s < e)
    (hpre : A.order (charAt w s) = 1 ∨ A.order (charAt w s) = 2) :
    A.DuvalInvQ w s e s (s + 1) 1 2 := by
  have e1 : s + 1 - s = 1 := by omega
  refine ⟨le_refl s, by omega, by omega, fun t h1 h2 => by omega, by omega, ?_⟩
  rcases hpre with h1 | h2
  · refine Or.inr ⟨1, 0, 0, 1, 1, rfl, ?_, ?_, by decide, by decide, by decide, by decide,
      by omega, by omega⟩
    · intro k hk
      have hk0 : k = 0 := by omega
      subst hk0
      unfold OrderedAlphabet.rankAt
      rw [Nat.add_zero, h1]
      decide
    · intro k hk
      have hk0 : k = 0 := by omega
      subst hk0
      unfold rankY
      rw [if_pos rfl]
      decide
  · exact Or.inl ⟨h2, by omega⟩

theorem duvalInvQ_equal (A : OrderedAlphabet) (w : List Nat) (s e i j p q : Nat)
    (hlen : e - s < uintSize)
    (hinv : A.DuvalInvQ w s e i j p q) (hje : j < e) (heq : charAt w i = charAt w j) :
    A.DuvalInvQ w s e (i + 1) (j + 1) p (if j + 1 = s + q then uadd q p else q) := by
  obtain ⟨h1, h2, _, h4, hp, hcase⟩ := hinv
  revert hcase
  have e1 : j + 1 - (i + 1) = j - i := by omega
  have b1 : s ≤ i + 1 := by omega
  have b2 : i + 1 < j + 1 := by omega
  have b3 : j + 1 ≤ e := by omega
  have b4 : Periodic w s (i + 1) (j + 1) := by
    intro t ht1 ht2
    rw [e1]
    rcases Nat.lt_or_ge t i with hlt | hge
    · exact h4 t ht1 hlt
    · have e2 : t = i := by omega
      rw [e2, heq]
      congr 1
      omega
  have b5 : p = j + 1 - (i + 1) := by omega
  intro hcase
  refine ⟨b1, b2, b3, b4, b5, ?_⟩
  rcases hcase with hA | ⟨a, b, c, d, k, hab, hchr, hy, hdet, hcd, hk, hq, hq1, hq2⟩
  · exact Or.inl ⟨hA.1, by omega⟩
  · have hmul : (k + 1) * p = k * p + p := Nat.succ_mul _ _
    by_cases hcp : j + 1 = s + (c + d + k * p)
    · have hqQ : q = c + d + k * p := by
        rw [hq]
        exact Nat.mod_eq_of_lt (by omega)
      rw [if_pos (by omega)]
      refine Or.inr ⟨a, b, c, d, k + 1, hab, hchr, hy, hdet, hcd, by omega, ?_, by omega,
        by omega⟩
      unfold uadd
      rw [hqQ, hmul]
      congr 1
      omega
    · have hne : j + 1 ≠ s + q := by
        unfold uintSize at hlen hq
        omega
      rw [if_neg hne]
      exact Or.inr ⟨a, b, c, d, k, hab, hchr, hy, hdet, hcd, hk, hq, by omega, by omega⟩

theorem duvalInvQ_mismatch (A : OrderedAlphabet) (w : List Nat) (s e i j p q : Nat)
    (hwf : A.WellFormed) (hb : A.IsBijection) (hin : A.InAlphabet w) (he : e ≤ w.length)
    (hinv : A.DuvalInvQ w s e i j p q) (hje : j < e)
    (hne : charAt w i ≠ charAt w j) (hcp : j + 1 = s + q)
    (hr2 : A.order (charAt w j) = 2) :
    A.DuvalInvQ w s e s (j + 1) q (uadd q (usub q p)) := by
  obtain ⟨h1, h2, _, h4, hp, hcase⟩ := hinv
  revert hcase
  have b2 : s < j + 1 := by omega
  have b3 : j + 1 ≤ e := by omega
  have b4 : Periodic w s s (j + 1) := fun t ht1 ht2 => by omega
  have hiw : i < w.length := by omega
  have hjw : j < w.length := by omega
  intro hcase
  rcases hcase with hA | ⟨a, b, c, d, k, hab, hchr, hy, hdet, hcd, hk, hq, hq1, hq2⟩
  · exfalso
    have hi : charAt w i = charAt w s := by
      have h := periodic_mod w s i j h2 h4 (i - s) (by omega)
      have e1 : s + (i - s) = i := by omega
      rw [hA.2, Nat.mod_one, e1] at h
      exact h
    exact hne (order_injective A hwf hb _ _ (hin _ (charAt_mem w i hiw))
      (hin _ (charAt_mem w j hjw)) (by rw [hi, hA.1, hr2]))
  · have hqQ : q = c + d + k * p := by
      unfold uintSize at hq
      omega
    have hpab : p = a + b := by omega
    subst hpab
    obtain ⟨k0, rfl⟩ : ∃ k0, k = k0 + 1 := ⟨k - 1, by omega⟩
    have hmul : (k0 + 1) * (a + b) = k0 * (a + b) + (a + b) := Nat.succ_mul _ _
    have hper : ∀ t, t + (a + b) < j - s →
        A.rankAt w s (t + (a + b)) = A.rankAt w s t := by
      intro t ht
      unfold OrderedAlphabet.rankAt
      have h := h4 (s + t) (by omega) (by omega)
      rw [h]
      congr 2
      omega
    have hpow1 := chrFn_power (A.rankAt w s) a b c d (j - s) hdet hchr hy hper (k0 + 1)
      (by omega)
    have hpow0 := chrFn_power (A.rankAt w s) a b c d (j - s) hdet hchr hy hper k0
      (by omega)
    have hsum1 : (k0 + 1) * a + c + ((k0 + 1) * b + d) = c + d + (k0 + 1) * (a + b) := by
      ring
    have hsum0 : k0 * a + c + (k0 * b + d) = c + d + k0 * (a + b) := by ring
    have hnew : ChrFn (A.rankAt w s) ((k0 + 1) * a + c) ((k0 + 1) * b + d) := by
      intro t ht
      rw [← hpow1 t ht]
      unfold rankY
      split
      · next hlast =>
        unfold OrderedAlphabet.rankAt
        have e1 : s + t = j := by omega
        rw [e1, hr2]
      · rfl
    have hdet' := det_step a b c d k0 hdet
    have hone : 1 * q = q := Nat.one_mul q
    refine ⟨le_refl s, b2, b3, b4, by omega, Or.inr ⟨(k0 + 1) * a + c, (k0 + 1) * b + d,
      k0 * a + c, k0 * b + d, 1, by omega, hnew, ?_, hdet', by omega, le_refl 1, ?_,
      by omega, by omega⟩⟩
    · rw [hsum0]
      exact hpow0
    · unfold uadd usub
      unfold uintSize at hq ⊢
      omega

/-- The block of the loop of `firstLyndonFactor` never gets shorter. -/
theorem lyndonLoop_block_grows (A : OrderedAlphabet) (w : List Nat) (s e : Nat)
    (fuel i j : Nat) (hf : e - j ≤ fuel) (hsi : s ≤ i) (hij : i < j) (hje : j ≤ e) :
    ∃ i' j', A.lyndonLoop w s e fuel i j = some (i', j') ∧ s ≤ i' ∧ i' < j' ∧ j' ≤ e ∧
      j - i ≤ j' - i' := by
  have h := lyndonLoop_induct A w s e
    (fun i' j' => s ≤ i' ∧ i' < j' ∧ j' ≤ e ∧ j - i ≤ j' - i')
    (by
      rintro i' j' ⟨h1, h2, _, h4⟩ hje' _ _
      exact ⟨by omega, by omega, by omega, by omega⟩)
    (by
      rintro i' j' ⟨h1, h2, _, h4⟩ hje' _ _
      exact ⟨le_refl s, by omega, by omega, by omega⟩)
    fuel i j hf ⟨hsi, hij, hje, le_refl _⟩
  obtain ⟨i', j', h1, h2, _⟩ := h
  exact ⟨i', j', h1, h2⟩

/-- Up to the position where `duvalPP` returns `false`, its loop and the loop of
`firstLyndonFactor` move the cursors in the same way; the loop of
`firstLyndonFactor` then goes on from the cursors `(s, j + 1)`. -/
theorem duvalLoop_rejected_lockstep (A : OrderedAlphabet) (w : List Nat) (s e : Nat) :
    ∀ fuel i j p q j', A.duvalLoop w s e fuel i j p q = some (.notChristoffel j') →
      ∃ f', f' + (j' + 1) = fuel + j ∧
        A.lyndonLoop w s e fuel i j = A.lyndonLoop w s e f' s (j' + 1) := by
  intro fuel
  induction fuel with
  | zero =>
    intro i j p q j' h
    simp only [OrderedAlphabet.duvalLoop] at h
    split at h
    · exact absurd h (by simp)
    · exact absurd h (by simp)
  | succ fuel ih =>
    intro i j p q j' h
    simp only [OrderedAlphabet.duvalLoop] at h
    simp only [OrderedAlphabet.lyndonLoop]
    split at h
    · next hc =>
      rw [if_pos hc]
      split at h
      · next heq =>
        rw [if_pos heq]
        obtain ⟨f', h1, h2⟩ := ih _ _ _ _ _ h
        exact ⟨f', by omega, h2⟩
      · next heq =>
        rw [if_neg heq]
        split at h
        · simp only [Option.some.injEq, DuvalExit.notChristoffel.injEq] at h
          subst h
          exact ⟨fuel, by omega, rfl⟩
        · obtain ⟨f', h1, h2⟩ := ih _ _ _ _ _ h
          exact ⟨f', by omega, h2⟩
    · exact absurd h (by simp)

/-- The ranks of a Christoffel block of the word follow the Christoffel pattern
of its numbers of letters of rank 1 and 2. -/
theorem chrFn_of_isChristoffel (A : OrderedAlphabet) (w : List Nat) (s L : Nat)
    (hL : s + L ≤ w.length) (h : A.IsChristoffel ((w.drop s).take L)) :
    ∃ n1 n2, n1 + n2 = L ∧ ChrFn (A.rankAt w s) n1 n2 := by
  obtain ⟨hranks, _, hpat⟩ := h
  have hl := length_take_drop w s L hL
  have hsum : ((w.drop s).take L).countP (fun x => decide (A.order x = 1))
      + ((w.drop s).take L).countP (fun x => decide (A.order x = 2)) = L := by
    have h := List.length_eq_countP_add_countP (p := fun x => decide (A.order x = 2))
      ((w.drop s).take L)
    have hcongr : ((w.drop s).take L).countP (fun x => decide (A.order x = 1))
        = ((w.drop s).take L).countP (fun x => decide ¬ (decide (A.order x = 2) = true)) := by
      apply List.countP_congr
      intro x hx
      rcases hranks x hx with h1 | h2
      · simp [h1]
      · simp [h2]
    rw [hcongr]
    rw [hl] at h
    omega
  refine ⟨((w.drop s).take L).countP (fun x => decide (A.order x = 1)),
    ((w.drop s).take L).countP (fun x => decide (A.order x = 2)), hsum, ?_⟩
  · intro k hk
    have hkL : k < L := by omega
    have := hpat k (by rw [hl]; exact hkL)
    rw [charAt_take_drop w s L k hkL] at this
    exact this

theorem checkpoint_residue (a b c d k : Nat) (h : a * d = b * c + 1) :
    (c + d + k * (a + b)) * b + 1 = (d + k * b) * (a + b) := by
  zify at h ⊢
  linear_combination (-1 : ℤ) * h

theorem period_det (a b c d : Nat) (h : a * d = b * c + 1) :
    (a + b) * d = b * (c + d) + 1 := by
  zify at h ⊢
  linear_combination h


/-- While the counter `q` follows its unwrapped value: in a state of the loop of
`duvalPP` where the scan meets a
greater letter and the loop returns `false`, no Christoffel word over the
letters of rank 1 and 2 has the factor `w[s .. j]` as a prefix. -/
theorem rejected_not_christoffel (A : OrderedAlphabet) (w : List Nat) (s e i j p q : Nat)
    (hwf : A.WellFormed) (hb : A.IsBijection) (hin : A.InAlphabet w) (he : e ≤ w.length)
    (hlen : e - s < uintSize)
    (hinv : A.DuvalInvQ w s e i j p q) (hje : j < e)
    (hne : charAt w i ≠ charAt w j)
    (hle : A.order (charAt w i) ≤ A.order (charAt w j))
    (hrej : j + 1 ≠ s + q ∨ A.order (charAt w j) ≠ 2)
    (n1 n2 : Nat) (hN : j + 1 - s ≤ n1 + n2) (hF : ChrFn (A.rankAt w s) n1 n2) : False := by
  obtain ⟨h1, h2, _, h4, hp, hcase⟩ := hinv
  revert hcase
  have hlt : A.order (charAt w i) < A.order (charAt w j) := by
    rcases Nat.lt_or_ge (A.order (charAt w i)) (A.order (charAt w j)) with h | h
    · exact h
    · exact absurd (order_injective A hwf hb _ _ (hin _ (charAt_mem w i (by omega)))
        (hin _ (charAt_mem w j (by omega))) (le_antisymm hle h)) hne
  have hri : A.rankAt w s (i - s) = A.order (charAt w i) := by
    unfold OrderedAlphabet.rankAt
    congr 2
    omega
  have hrj : A.rankAt w s (j - s) = A.order (charAt w j) := by
    unfold OrderedAlphabet.rankAt
    congr 2
    omega
  have hFi := hF (i - s) (by omega)
  have hFj := hF (j - s) (by omega)
  rw [hri] at hFi
  rw [hrj] at hFj
  have hi1 : A.order (charAt w i) = 1 := by
    rcases chrLetter_range n1 n2 (i - s) with h | h <;>
      rcases chrLetter_range n1 n2 (j - s) with h' | h' <;> omega
  have hj2 : A.order (charAt w j) = 2 := by
    rcases chrLetter_range n1 n2 (i - s) with h | h <;>
      rcases chrLetter_range n1 n2 (j - s) with h' | h' <;> omega
  have hcp : j + 1 ≠ s + q := by
    rcases hrej with h | h
    · exact h
    · exact absurd hj2 h
  have hn' : 0 < n1 + n2 := by omega
  intro hcase
  rcases hcase with hA | ⟨a, b, c, d, k, hab, hchr, hy, hdet, hcd, hk, hq, hq1, hq2⟩
  · have hi : charAt w i = charAt w s := by
      have h := periodic_mod w s i j h2 h4 (i - s) (by omega)
      have e1 : s + (i - s) = i := by omega
      rw [hA.2, Nat.mod_one, e1] at h
      exact h
    rw [hi, hA.1] at hi1
    omega
  · have hpab : p = a + b := by omega
    subst hpab
    obtain ⟨k0, rfl⟩ : ∃ k0, k = k0 + 1 := ⟨k - 1, by omega⟩
    have hmul : (k0 + 1) * (a + b) = k0 * (a + b) + (a + b) := Nat.succ_mul _ _
    have hn : 0 < a + b := by omega
    -- the checkpoint is still ahead
    have hQ : j + 1 - s < c + d + (k0 + 1) * (a + b) := by
      rcases Nat.lt_or_ge (j + 1 - s) (c + d + (k0 + 1) * (a + b)) with h | h
      · exact h
      · exfalso
        have hQeq : c + d + (k0 + 1) * (a + b) = j + 1 - s := by omega
        have hsmall : c + d + (k0 + 1) * (a + b) < uintSize := by omega
        rw [Nat.mod_eq_of_lt hsmall] at hq
        omega
    have hper : ∀ t, t + (a + b) < j - s →
        A.rankAt w s (t + (a + b)) = A.rankAt w s t := by
      intro t ht
      unfold OrderedAlphabet.rankAt
      have h := h4 (s + t) (by omega) (by omega)
      rw [h]
      congr 2
      omega
    have hext := chrFn_extend (A.rankAt w s) a b (j - s) hn hchr hper
    have hagree : ∀ t, t < j - s → chrLetter n1 n2 t = chrLetter a b t := by
      intro t ht
      rw [← hF t (by omega), hext t ht]
    have hfa := floor_agree a b n1 n2 (j - s) hn hn' hagree
    have hm2 : chrLetter n1 n2 (j - s) = 2 := by rw [← hFj, hj2]
    have hm1 : chrLetter a b (j - s) = 1 := by
      have e1 : j - s = (i - s) + (a + b) := by omega
      rw [e1, chrLetter_add_period _ _ _ hn, ← hext (i - s) (by omega), hri, hi1]
    have hs1 := floor_step n1 n2 (j - s) hn'
    have hs2 := floor_step a b (j - s) hn
    rw [hm2, if_pos rfl, hfa (j - s) (le_refl _)] at hs1
    rw [hm1, if_neg (by decide), Nat.add_zero] at hs2
    have hsplit : j - s + 1 = (c + d + k0 * (a + b)) + (j + 1 - s - (c + d + k0 * (a + b))) := by
      omega
    rw [hsplit] at hs1 hs2
    exact no_early_mismatch (a + b) b (n1 + n2) n2 (c + d + k0 * (a + b))
      (j + 1 - s - (c + d + k0 * (a + b))) (d + k0 * b) hn'
      (checkpoint_residue a b c d k0 hdet) (by omega) (by omega)
      (coprime_of_det (a + b) b (c + d) d (period_det a b c d hdet))
      (hfa _ (by omega)) (hfa _ (by omega)) (by rw [hs1, hs2])

/-- Where the counters of `duvalPP` cannot wrap around, `false` is returned as
documented: for an alphabet with `n ≥ 3` and bijective order, a word `w`
over the alphabet and `s < e ≤ |w|` with `rank(w[s])` in `{1, 2}`, when the
window `w[s .. e)` has fewer than `2 ^ 32` letters and `duvalPP` returns
`false`, `firstLyndonFactor` returns a length `len'` on the same arguments and
the first Lyndon factor `w[s .. s + len')` is not a Christoffel word over the
letters of rank 1 and 2. -/
theorem duvalPP_false_not_christoffel (A : OrderedAlphabet) (w : List Nat) (s e : Nat)
    (hwf : A.WellFormed) (hn : 3 ≤ A.myNb) (hb : A.IsBijection) (hin : A.InAlphabet w)
    (hse : s < e) (he : e ≤ w.length)
    (hpre : A.order (charAt w s) = 1 ∨ A.order (charAt w s) = 2)
    (hlen : e - s < uintSize) (len nb : Nat)
    (h : A.duvalPP w s e = some (false, len, nb)) :
    ∃ len' nb', A.firstLyndonFactor w s e = some (len', nb') ∧ s + len' ≤ e ∧
      ¬ A.IsChristoffel ((w.drop s).take len') := by
  have _ := hn
  have hloop := duvalLoop_induct A w s e (fun i j p q => A.DuvalInvQ w s e i j p q)
    (fun j => s ≤ j ∧ j < e ∧
      ∀ n1 n2, j + 1 - s ≤ n1 + n2 → ChrFn (A.rankAt w s) n1 n2 → False)
    (fun i j p q hP hje _ heq => duvalInvQ_equal A w s e i j p q hlen hP hje heq)
    (fun i j p q hP hje _ hne hcp hr2 =>
      duvalInvQ_mismatch A w s e i j p q hwf hb hin he hP hje hne hcp hr2)
    (fun i j p q hP hje hle hne hrej =>
      ⟨by have := hP.1; have := hP.2.1; omega, hje, fun n1 n2 hN hF =>
        rejected_not_christoffel A w s e i j p q hwf hb hin he hlen hP hje hne hle hrej
          n1 n2 hN hF⟩)
    (e - s) s (s + 1) 1 2 (by omega) (duvalInvQ_init A w s e hse hpre)
  unfold OrderedAlphabet.duvalPP at h
  rw [if_pos hpre] at h
  rcases hloop with ⟨j', h1, hsj, hje, hQ⟩ | ⟨i', j', p', q', h1, _, _⟩
  · obtain ⟨f', hf', hlock⟩ := duvalLoop_rejected_lockstep A w s e _ _ _ _ _ _ h1
    obtain ⟨i2, j2, hl, b1, b2, b3, b4⟩ :=
      lyndonLoop_block_grows A w s e f' s (j' + 1) (by omega) (le_refl s) (by omega) (by omega)
    refine ⟨j2 - i2, (j2 - s) / (j2 - i2), ?_, by omega, ?_⟩
    · unfold OrderedAlphabet.firstLyndonFactor
      rw [hlock, hl]
      simp only
      rw [if_neg (by omega)]
    · intro hC
      obtain ⟨n1, n2, hsum, hF⟩ := chrFn_of_isChristoffel A w s (j2 - i2) (by omega) hC
      exact hQ n1 n2 (by omega) hF
  · rw [h1] at h
    simp only at h
    split at h
    · exact absurd h (by simp)
    · exact absurd h (by simp)

/-- An instance on the alphabet `0 < 1 < 2 < 3` and the word `1122`:
`duvalPP` returns `false` at the second `2`, and the first Lyndon factor `1122`
is not a Christoffel word. -/
theorem duvalPP_false_not_christoffel_example :
    OrderedAlphabet.duvalPP ⟨48, 4, [0, 1, 2, 3]⟩ [49, 49, 50, 50] 0 4 = some (false, 3, 0) ∧
    ∃ len' nb', OrderedAlphabet.firstLyndonFactor ⟨48, 4, [0, 1, 2, 3]⟩ [49, 49, 50, 50] 0 4
        = some (len', nb') ∧ 0 + len' ≤ 4 ∧
      ¬ OrderedAlphabet.IsChristoffel ⟨48, 4, [0, 1, 2, 3]⟩
        ((List.drop 0 [49, 49, 50, 50]).take len') :=
  ⟨by decide,
    duvalPP_false_not_christoffel ⟨48, 4, [0, 1, 2, 3]⟩ [49, 49, 50, 50] 0 4
      (by decide) (by decide) (by decide) (by decide) (by decide) (by decide)
      (by decide) (by decide) 3 0 (by decide)⟩

/-! ## A word of `2 ^ 32` letters on which the counter `q` of `duvalPP` wraps around -/

/-- C21: every returning call of `nextEdge` on a word of length `m ≥ 1` advances
`s` by the returned edge length modulo `m`: with `s` the position at entry and
`l` the returned length, the position on return is `(s + l) mod m`, whether the
call went through the convexity-change branch (any number of times), the
quadrant-change branch or the standard convex branch. -/
theorem C21_nextEdge_advances (fuel : Nat) (A : OrderedAlphabet) (w : List Nat)
    (s : Nat) (cvx : Bool) (r : EdgeResult) (hm : 1 ≤ w.length)
    (h : nextEdge fuel A w s cvx = some r) :
    r.s = (s + r.l) % w.length := by
  induction fuel generalizing A w cvx r with
  | zero => simp [nextEdge] at h
  | succ fuel ih =>
    simp only [nextEdge] at h
    split at h
    · exact absurd h (by simp)
    · split at h
      · exact absurd h (by simp)
      · next r' hr' =>
        have hs := ih _ _ _ _ (by rw [List.length_set]; exact hm) hr'
        rw [List.length_set] at hs
        simp only [Option.some.injEq] at h
        rw [← h]
        exact hs
    · split at h
      · simp only [Option.some.injEq] at h
        rw [← h]
        rfl
      · simp only [Option.some.injEq] at h
        rw [← h]
        rfl

/-- Witness of C21 on the alphabet `0 < 1 < 2 < 3`: the cyclic word `1212203`
from `s = 0` (standard convex branch, `l = 5`, `s = 5`), the cyclic word `110`
from `s = 0` (quadrant change, `l = 2`, `s = 2`) and the cyclic word `13` from
`s = 0` (convexity change, `l = 1`, `s = 1`). -/
theorem C21_nextEdge_advances_witness :
    (nextEdge 5 ⟨48, 4, [0, 1, 2, 3]⟩ [49, 50, 49, 50, 50, 48, 51] 0 false
      = some ⟨5, 2, 3, ⟨48, 4, [0, 1, 2, 3]⟩, [49, 50, 49, 50, 50, 48, 51], 5, false⟩ ∧
      (⟨5, 2, 3, ⟨48, 4, [0, 1, 2, 3]⟩, [49, 50, 49, 50, 50, 48, 51], 5, false⟩ : EdgeResult).s
        = (0 + 5) % 7) ∧
    (nextEdge 1 ⟨48, 4, [0, 1, 2, 3]⟩ [49, 49, 48] 0 false
      = some ⟨2, 0, 1, ⟨48, 4, [1, 2, 3, 0]⟩, [49, 49, 48], 2, false⟩ ∧
      (⟨2, 0, 1, ⟨48, 4, [1, 2, 3, 0]⟩, [49, 49, 48], 2, false⟩ : EdgeResult).s
        = (0 + 2) % 3) ∧
    (nextEdge 2 ⟨48, 4, [0, 1, 2, 3]⟩ [49, 51] 0 false
      = some ⟨1, 0, 0, ⟨48, 4, [0, 3, 2, 1]⟩, [49, 51], 1, true⟩ ∧
      (⟨1, 0, 0, ⟨48, 4, [0, 3, 2, 1]⟩, [49, 51], 1, true⟩ : EdgeResult).s = (0 + 1) % 2) :=
  ⟨⟨by decide,
    C21_nextEdge_advances 5 ⟨48, 4, [0, 1, 2, 3]⟩ [49, 50, 49, 50, 50, 48, 51] 0 false _
      (by decide) (by decide)⟩,
   ⟨by decide,
    C21_nextEdge_advances 1 ⟨48, 4, [0, 1, 2, 3]⟩ [49, 49, 48] 0 false _
      (by decide) (by decide)⟩,
   ⟨by decide,
    C21_nextEdge_advances 2 ⟨48, 4, [0, 1, 2, 3]⟩ [49, 51] 0 false _ (by decide) (by decide)⟩⟩

/-! ## The retry of the convexity-change branch -/

theorem duvalBound_init (s e : Nat) (hse : s < e) : DuvalBound s e s (s + 1) 1 2 := by
  unfold DuvalBound
  omega

/-- The branch `++i` keeps the counters below `2 ^ 32` on a window of at most
`2 ^ 31` letters (`2 (e - s) ≤ 2 ^ 32`). -/
theorem duvalBound_equal (s e i j p q : Nat) (hsmall : 2 * (e - s) ≤ uintSize)
    (h : DuvalBound s e i j p q) (hje : j < e) :
    DuvalBound s e (i + 1) (j + 1) p (if j + 1 = s + q then uadd q p else q) := by
  unfold DuvalBound at h ⊢
  unfold uadd
  unfold uintSize at hsmall ⊢
  split <;> omega

/-- The branch `i = s` keeps the counters below `2 ^ 32` on a window of at most
`2 ^ 31` letters. -/
theorem duvalBound_mismatch (s e i j p q : Nat) (hsmall : 2 * (e - s) ≤ uintSize)
    (h : DuvalBound s e i j p q) (hje : j < e) (hcp : j + 1 = s + q) :
    DuvalBound s e s (j + 1) q (uadd q (usub q p)) := by
  unfold DuvalBound at h ⊢
  unfold uadd usub
  unfold uintSize at hsmall ⊢
  omega

/-- The cyclic test `j == mc.cast(s + q - 1)` is the linear test `j + 1 == s + q`
while the checkpoint is at most a period ahead of the cursor. -/
theorem cyclic_test_iff (m s e i j p q : Nat) (hem : e < m) (hsz : 2 * m ≤ sizeSize)
    (h : DuvalBound s e i j p q) (hje : j < e) :
    j = ModuloComputer.cast m (ssub (s + q) 1) ↔ j + 1 = s + q := by
  unfold DuvalBound at h
  have hx : ssub (s + q) 1 = s + q - 1 := by
    unfold sizeSize at hsz
    unfold ssub sizeSize
    omega
  unfold ModuloComputer.cast
  rw [hx, mod_of_lt_two_mul (s + q - 1) m (by omega)]
  split <;> omega

theorem duvalModLoop_succ (A : OrderedAlphabet) (w : List Nat) (s e fuel i j p q : Nat) :
    A.duvalModLoop w s e (fuel + 1) i j p q
    = if j ≠ e ∧ A.lessOrEqual (charAt w i) (charAt w j) = true then
        if A.equal (charAt w i) (charAt w j) = true then
          A.duvalModLoop w s e fuel (ModuloComputer.next w.length i)
            (ModuloComputer.next w.length j) p
            (if j = ModuloComputer.cast w.length (ssub (s + q) 1) then uadd q p else q)
        else if j ≠ ModuloComputer.cast w.length (ssub (s + q) 1) ∨
            A.order (charAt w j) ≠ 2 then
          some (.notChristoffel j)
        else A.duvalModLoop w s e fuel s (ModuloComputer.next w.length j) q
          (uadd q (usub q p))
      else some (.done i j p q) := by
  simp only [OrderedAlphabet.duvalModLoop]

theorem duvalLoop_succ (A : OrderedAlphabet) (w : List Nat) (s e fuel i j p q : Nat) :
    A.duvalLoop w s e (fuel + 1) i j p q
    = if j < e ∧ A.lessOrEqual (charAt w i) (charAt w j) = true then
        if A.equal (charAt w i) (charAt w j) = true then
          A.duvalLoop w s e fuel (i + 1) (j + 1) p (if j + 1 = s + q then uadd q p else q)
        else if j + 1 ≠ s + q ∨ A.order (charAt w j) ≠ 2 then some (.notChristoffel j)
        else A.duvalLoop w s e fuel s (j + 1) q (uadd q (usub q p))
      else some (.done i j p q) := by
  simp only [OrderedAlphabet.duvalLoop]

/-- The loop of `duvalPPMod` stops where its condition fails, whatever the fuel. -/
theorem duvalModLoop_exit (A : OrderedAlphabet) (w : List Nat) (s e fuel i j p q : Nat)
    (h : ¬ (j ≠ e ∧ A.lessOrEqual (charAt w i) (charAt w j) = true)) :
    A.duvalModLoop w s e fuel i j p q = some (.done i j p q) := by
  cases fuel with
  | zero =>
    simp only [OrderedAlphabet.duvalModLoop]
    rw [if_neg h]
  | succ fuel => rw [duvalModLoop_succ, if_neg h]

/-- The loop of `duvalPP` stops where its condition fails, whatever the fuel. -/
theorem duvalLoop_exit (A : OrderedAlphabet) (w : List Nat) (s e fuel i j p q : Nat)
    (h : ¬ (j < e ∧ A.lessOrEqual (charAt w i) (charAt w j) = true)) :
    A.duvalLoop w s e fuel i j p q = some (.done i j p q) := by
  cases fuel with
  | zero =>
    simp only [OrderedAlphabet.duvalLoop]
    rw [if_neg h]
  | succ fuel => rw [duvalLoop_succ, if_neg h]

/-- On a window `s < e < |w|` of at most `2 ^ 31` letters, in a word whose
positions fit in half of a `size_t`, the loop of `duvalPPMod` and the loop of
`duvalPP` go through the same states and leave in the same way. -/
theorem duvalModLoop_eq_duvalLoop (A : OrderedAlphabet) (w : List Nat) (s e : Nat)
    (hem : e < w.length) (hsmall : 2 * (e - s) ≤ uintSize) (hsz : 2 * w.length ≤ sizeSize) :
    ∀ f1 f2 i j p q, e - j ≤ f1 → e - j ≤ f2 → DuvalBound s e i j p q →
      A.duvalModLoop w s e f2 i j p q = A.duvalLoop w s e f1 i j p q := by
  intro f1
  induction f1 with
  | zero =>
    intro f2 i j p q h1 _ hB
    have hj : j = e := by
      have := hB.2.2.1
      omega
    rw [duvalModLoop_exit A w s e f2 i j p q (fun h => h.1 hj),
      duvalLoop_exit A w s e 0 i j p q (fun h => by omega)]
  | succ f1 ih =>
    intro f2 i j p q h1 h2 hB
    have hij := hB.2.1
    have hje' := hB.2.2.1
    by_cases hc : j < e ∧ A.lessOrEqual (charAt w i) (charAt w j) = true
    · obtain ⟨f2, rfl⟩ : ∃ f, f2 = f + 1 := ⟨f2 - 1, by omega⟩
      have hc' : j ≠ e ∧ A.lessOrEqual (charAt w i) (charAt w j) = true :=
        ⟨by omega, hc.2⟩
      have hni : ModuloComputer.next w.length i = i + 1 := by
        unfold ModuloComputer.next
        exact Nat.mod_eq_of_lt (by omega)
      have hnj : ModuloComputer.next w.length j = j + 1 := by
        unfold ModuloComputer.next
        exact Nat.mod_eq_of_lt (by omega)
      have htest := cyclic_test_iff w.length s e i j p q hem hsz hB hc.1
      rw [duvalModLoop_succ, duvalLoop_succ, if_pos hc', if_pos hc, hni, hnj]
      by_cases heq : A.equal (charAt w i) (charAt w j) = true
      · rw [if_pos heq, if_pos heq]
        have hq : (if j = ModuloComputer.cast w.length (ssub (s + q) 1) then uadd q p else q)
            = (if j + 1 = s + q then uadd q p else q) := by
          by_cases ht : j + 1 = s + q
          · rw [if_pos ht, if_pos (htest.2 ht)]
          · rw [if_neg ht, if_neg (fun h => ht (htest.1 h))]
        rw [hq]
        exact ih f2 _ _ _ _ (by omega) (by omega)
          (duvalBound_equal s e i j p q hsmall hB hc.1)
      · rw [if_neg heq, if_neg heq]
        by_cases hrej : j + 1 ≠ s + q ∨ A.order (charAt w j) ≠ 2
        · have hrej' : j ≠ ModuloComputer.cast w.length (ssub (s + q) 1) ∨
              A.order (charAt w j) ≠ 2 := by
            rcases hrej with h | h
            · exact Or.inl (fun h' => h (htest.1 h'))
            · exact Or.inr h
          rw [if_pos hrej, if_pos hrej']
        · have hcp : j + 1 = s + q := by
            by_contra h
            exact hrej (Or.inl h)
          have hrej' : ¬ (j ≠ ModuloComputer.cast w.length (ssub (s + q) 1) ∨
              A.order (charAt w j) ≠ 2) := by
            rintro (h | h)
            · exact h (htest.2 hcp)
            · exact hrej (Or.inr h)
          rw [if_neg hrej, if_neg hrej']
          exact ih f2 _ _ _ _ (by omega) (by omega)
            (duvalBound_mismatch s e i j p q hsmall hB hc.1 hcp)
    · have hc' : ¬ (j ≠ e ∧ A.lessOrEqual (charAt w i) (charAt w j) = true) :=
        fun h => hc ⟨by omega, h.2⟩
      rw [duvalModLoop_exit A w s e f2 i j p q hc', duvalLoop_exit A w s e _ i j p q hc]

/-- The states of the loop of `duvalPPMod` on a window `s < e < |w|` of at most
`2 ^ 31` letters: the cursors are those of a linear scan and the counters have
not wrapped around. -/
theorem duvalModReach_bound (A : OrderedAlphabet) (w : List Nat) (s e : Nat)
    (hse : s < e) (hem : e < w.length) (hsmall : 2 * (e - s) ≤ uintSize)
    (hsz : 2 * w.length ≤ sizeSize) :
    ∀ i j p q, DuvalModReach A w s e i j p q → DuvalBound s e i j p q := by
  intro i j p q h
  induction h with
  | start =>
    have hns : ModuloComputer.next w.length s = s + 1 := by
      unfold ModuloComputer.next
      exact Nat.mod_eq_of_lt (by omega)
    rw [hns]
    exact duvalBound_init s e hse
  | equal i j p q _ hje _ _ ih =>
    have hij := ih.2.1
    have hje' := ih.2.2.1
    have hlt : j < e := by omega
    have hni : ModuloComputer.next w.length i = i + 1 := by
      unfold ModuloComputer.next
      exact Nat.mod_eq_of_lt (by omega)
    have hnj : ModuloComputer.next w.length j = j + 1 := by
      unfold ModuloComputer.next
      exact Nat.mod_eq_of_lt (by omega)
    have htest := cyclic_test_iff w.length s e i j p q hem hsz ih hlt
    have hq : (if j = ModuloComputer.cast w.length (ssub (s + q) 1) then uadd q p else q)
        = (if j + 1 = s + q then uadd q p else q) := by
      by_cases ht : j + 1 = s + q
      · rw [if_pos ht, if_pos (htest.2 ht)]
      · rw [if_neg ht, if_neg (fun h => ht (htest.1 h))]
    rw [hni, hnj, hq]
    exact duvalBound_equal s e i j p q hsmall ih hlt
  | mediant i j p q _ hje _ _ hrej ih =>
    have hij := ih.2.1
    have hje' := ih.2.2.1
    have hlt : j < e := by omega
    have hnj : ModuloComputer.next w.length j = j + 1 := by
      unfold ModuloComputer.next
      exact Nat.mod_eq_of_lt (by omega)
    have htest := cyclic_test_iff w.length s e i j p q hem hsz ih hlt
    have hcp : j + 1 = s + q := by
      apply htest.1
      by_contra h
      exact hrej (Or.inl h)
    rw [hnj]
    exact duvalBound_mismatch s e i j p q hsmall ih hlt hcp

/-- Where the counters of the validators cannot wrap around, the cyclic one
agrees with the linear one: for a word `w` of length `m` with `2 m ≤ 2 ^ 64`
and a window `s < e < m` of at most `2 ^ 31` letters with `rank(w[s])` in
`{1, 2}`, `duvalPP` returns, and `duvalPPMod(w, s, e)` returns the same boolean,
the same `len` and the same `nb` as `duvalPP(w, s, e)`; in every state in which
the loop of `duvalPPMod` runs its body, the test `j == mc.cast(s + q - 1)`
succeeds exactly when `j + 1 = s + q`, never through a wrap-around. -/
theorem duvalPPMod_agrees (A : OrderedAlphabet) (w : List Nat) (s e : Nat)
    (hse : s < e) (hem : e < w.length)
    (hpre : A.order (charAt w s) = 1 ∨ A.order (charAt w s) = 2)
    (hsmall : 2 * (e - s) ≤ uintSize) (hsz : 2 * w.length ≤ sizeSize) :
    (∃ b len nb, A.duvalPP w s e = some (b, len, nb) ∧
      A.duvalPPMod w s e = some (b, len, nb)) ∧
    ∀ i j p q, DuvalModReach A w s e i j p q → j ≠ e →
      (j = ModuloComputer.cast w.length (ssub (s + q) 1) ↔ j + 1 = s + q) := by
  constructor
  · have hloop := duvalLoop_induct A w s e (fun i j p q => DuvalBound s e i j p q)
      (fun _ => True)
      (fun i j p q hP hje _ _ => duvalBound_equal s e i j p q hsmall hP hje)
      (fun i j p q hP hje _ _ hcp _ => duvalBound_mismatch s e i j p q hsmall hP hje hcp)
      (fun _ _ _ _ _ _ _ _ _ => trivial)
      (e - s) s (s + 1) 1 2 (by omega) (duvalBound_init s e hse)
    have hlock := duvalModLoop_eq_duvalLoop A w s e hem hsmall hsz (e - s) w.length s (s + 1) 1 2
      (by omega) (by omega) (duvalBound_init s e hse)
    have hns : ModuloComputer.next w.length s = s + 1 := by
      unfold ModuloComputer.next
      exact Nat.mod_eq_of_lt (by omega)
    unfold OrderedAlphabet.duvalPPMod OrderedAlphabet.duvalPP
    rw [if_pos hpre, if_pos hpre, hns, hlock]
    rcases hloop with ⟨j', h1, _⟩ | ⟨i', j', p', q', h1, hB, _⟩
    · rw [h1]
      exact ⟨false, j', 0, rfl, rfl⟩
    · rw [h1]
      obtain ⟨b1, b2, b3, _⟩ := hB
      have hcl : cyclicLen w.length i' j' = j' - i' := by
        unfold cyclicLen
        rw [if_pos (by omega)]
      have hnb : (j' + w.length - s) % w.length = j' - s := by
        have e1 : j' + w.length - s = j' - s + w.length := by omega
        rw [e1, Nat.add_mod_right, Nat.mod_eq_of_lt (by omega)]
      simp only
      rw [hcl, hnb, if_neg (by omega), if_neg (by omega)]
      exact ⟨true, j' - i', (j' - s) / (j' - i'), rfl, rfl⟩
  · intro i j p q hr hje
    have hB := duvalModReach_bound A w s e hse hem hsmall hsz i j p q hr
    exact cyclic_test_iff w.length s e i j p q hem hsz hB (by have := hB.2.2.1; omega)

/-- An instance on the alphabet `0 < 1 < 2 < 3` and the word `1212203` with
`s = 0` and `e = 6`: both validators return `true` with `len = 5`, `nb = 1`. -/
theorem duvalPPMod_agrees_example :
    OrderedAlphabet.duvalPP ⟨48, 4, [0, 1, 2, 3]⟩ [49, 50, 49, 50, 50, 48, 51] 0 6
      = some (true, 5, 1) ∧
    OrderedAlphabet.duvalPPMod ⟨48, 4, [0, 1, 2, 3]⟩ [49, 50, 49, 50, 50, 48, 51] 0 6
      = some (true, 5, 1) ∧
    ∃ b len nb,
      OrderedAlphabet.duvalPP ⟨48, 4, [0, 1, 2, 3]⟩ [49, 50, 49, 50, 50, 48, 51] 0 6
        = some (b, len, nb) ∧
      OrderedAlphabet.duvalPPMod ⟨48, 4, [0, 1, 2, 3]⟩ [49, 50, 49, 50, 50, 48, 51] 0 6
        = some (b, len, nb) :=
  ⟨by decide, by decide,
    (duvalPPMod_agrees ⟨48, 4, [0, 1, 2, 3]⟩ [49, 50, 49, 50, 50, 48, 51] 0 6
      (by decide) (by decide) (by decide) (by decide) (by decide)).1⟩

/-! ## A word of `2 ^ 33 - 2` letters on which the two validators differ -/

end DGtal
